import Mathlib

/-!
Verification development for the street-routing core of the Seattle
pathfinding demo (graph build, best-first search engines, heuristics,
polyline codec, graph cache).

Modelling conventions, used uniformly below:

* JavaScript numbers are modelled by a linearly ordered commutative ring
  `α` (a linearly ordered field where the source divides); the intended
  instance is `ℚ`.  All statements are proved for every such `α`, and
  concrete executions instantiate `α := ℤ`.
* `calculateHaversineDistance` (from `geoUtils.js`) computes with
  floating-point trigonometry; inside the graph/search components it is
  treated as an uninterpreted distance function `hav` passed as a
  parameter.  Statements that mention it (edge weights, the direct
  fallback distance) hold for every choice of `hav`.
* JavaScript objects used as dictionaries (`gScore`, `cameFrom`, the
  node map) are modelled as association lists where an assignment
  prepends and a lookup takes the first (i.e. most recent) entry.
* JavaScript truthiness is modelled explicitly where the source relies
  on it: `!gScore[n]` is true for both `undefined` and `0`, and
  `!currentId` is true for both `undefined` and the id `0`.
-/

/-- A geographic point `{lat, lng}`. -/
structure Point (α : Type) where
  lat : α
  lng : α
deriving DecidableEq, Repr

/-- One entry of a node's `connections` array: `{ nodeId, distance }`. -/
structure Connection (α : Type) where
  nodeId : ℕ
  distance : α
deriving DecidableEq, Repr

/-- A street-graph node as produced by `buildStreetGraph`:
`{ id, lat, lng, connections }`.  The optional `tags` field models the
`tags` property read by the `timeBased` heuristic (absent, i.e. `none`,
on nodes built by `buildStreetGraph`). -/
structure GNode (α : Type) where
  id : ℕ
  lat : α
  lng : α
  connections : List (Connection α)
  tags : Option (List (String × String)) := none
deriving DecidableEq, Repr

/-- A graph is the array of nodes returned by `buildStreetGraph`. -/
abbrev Graph (α : Type) := List (GNode α)

/-- The coordinate pair of a node. -/
def GNode.pt {α : Type} (n : GNode α) : Point α := ⟨n.lat, n.lng⟩

/-- The result record of both search engines:
`{ path, distance, nodesExplored, exploredNodesList }`. -/
structure SearchResult (α : Type) where
  path : List (Point α)
  distance : α
  nodesExplored : ℕ
  exploredNodesList : List (Point α)
deriving DecidableEq, Repr

/-- Association-list lookup, most recent assignment first (dictionary
read `m[k]`). -/
def lookupA {β : Type} (m : List (ℕ × β)) (k : ℕ) : Option β :=
  (m.find? (fun p => p.1 == k)).map (fun p => p.2)

/-- JavaScript truthiness test `!x` for a possibly-undefined number:
true for `undefined` and for `0`. -/
def jsFalsyNum {α : Type} [Zero α] [DecidableEq α] (o : Option α) : Bool :=
  match o with
  | none => true
  | some v => v == 0

/-- JavaScript truthiness test `!x` for a possibly-undefined node id:
true for `undefined` and for the id `0`. -/
def jsFalsyId (o : Option ℕ) : Bool :=
  match o with
  | none => true
  | some i => i == 0

/-- Ordered insertion of one element into a list sorted by `keyOf`,
placing it after all elements of equal key.  Building a sort from this
reproduces the (stable, ascending) result of
`CustomPriorityQueue.sort`'s `values.sort((a, b) => keyOf a - keyOf b)`. -/
def pqInsert {β γ : Type} [LinearOrder γ] (keyOf : β → γ) (e : β) : List β → List β
  | [] => [e]
  | x :: xs => if keyOf e < keyOf x then e :: x :: xs else x :: pqInsert keyOf e xs

/-- Stable ascending sort by `keyOf` (insertion sort, left to right);
models `CustomPriorityQueue.sort`. -/
def pqSort {β γ : Type} [LinearOrder γ] (keyOf : β → γ) (l : List β) : List β :=
  l.foldl (fun acc e => pqInsert keyOf e acc) []

/-- `CustomPriorityQueue.enqueue`: push the element, then re-sort the
whole array.  `dequeue` is modelled by pattern matching on the head. -/
def pqEnqueue {β γ : Type} [LinearOrder γ] (keyOf : β → γ) (q : List β) (e : β) : List β :=
  pqSort keyOf (q ++ [e])

/-- The node map built at the top of both engines
(`nodeMap[node.id] = node` over the graph array): a later node with the
same id overwrites an earlier one, so lookup scans from the end. -/
def nodeMapLookup {α : Type} (g : Graph α) (i : ℕ) : Option (GNode α) :=
  g.reverse.find? (fun n => n.id == i)

/-- Sum of `hav` over consecutive points of a path (the
`for (let i = 1; i < pathNodes.length; i++) distance += ...` loop). -/
def pathDistance {α : Type} [AddCommMonoid α] (hav : Point α → Point α → α) :
    List (Point α) → α
  | [] => 0
  | [_] => 0
  | p :: q :: rest => hav p q + pathDistance hav (q :: rest)

/-! ### The Dijkstra-style engine `runAStarOnStreetGraph3` (thirdRouting.js) -/

/-- A frontier entry `{ id, g }` of the Dijkstra-style engine. -/
structure DijkstraEntry (α : Type) where
  id : ℕ
  g : α
deriving DecidableEq, Repr

/-- Mutable state of the main loop of `runAStarOnStreetGraph3`. -/
structure DijkstraState (α : Type) where
  queue : List (DijkstraEntry α)
  closed : List ℕ
  cameFrom : List (ℕ × ℕ)
  gScore : List (ℕ × α)
  explored : List (Point α)
  visited : ℕ
deriving DecidableEq, Repr

/-- The relaxation guard
`if (!gScore[neighborId] || tentativeGScore < gScore[neighborId])`:
true when no score is recorded, when the recorded score is `0`
(JavaScript falsiness), or when the tentative score is strictly
smaller. -/
def relaxCond {α : Type} [LinearOrderedCommRing α] [DecidableEq α]
    (recorded : Option α) (tent : α) : Bool :=
  match recorded with
  | none => true
  | some v => v == 0 || decide (tent < v)

/-- State threaded through the neighbor-processing loop. -/
structure RelaxState (α : Type) where
  cameFrom : List (ℕ × ℕ)
  gScore : List (ℕ × α)
  queue : List (DijkstraEntry α)
deriving DecidableEq, Repr

/-- Body of `for (const connection of currentNode.connections)` in
`runAStarOnStreetGraph3`: skip closed or missing neighbors, otherwise
relax the edge, updating `cameFrom`/`gScore` and enqueueing the neighbor
(with its new g-score as key) only if it is not already in the open
set. -/
def relaxNeighbor3 {α : Type} [LinearOrderedCommRing α] (g : Graph α)
    (closed : List ℕ) (curId : ℕ) (σ : RelaxState α) (conn : Connection α) :
    RelaxState α :=
  let n := conn.nodeId
  if n ∈ closed then σ
  else
    match nodeMapLookup g n with
    | none => σ
    | some _ =>
      let tent := (lookupA σ.gScore curId).getD 0 + conn.distance
      if relaxCond (lookupA σ.gScore n) tent then
        let cf := (n, curId) :: σ.cameFrom
        let gs := (n, tent) :: σ.gScore
        let q :=
          if σ.queue.any (fun e => e.id == n) then σ.queue
          else pqEnqueue (fun e => DijkstraEntry.g e) σ.queue ⟨n, tent⟩
        ⟨cf, gs, q⟩
      else σ

/-- The whole neighbor-processing loop of `runAStarOnStreetGraph3`. -/
def processConnections3 {α : Type} [LinearOrderedCommRing α] (g : Graph α)
    (closed : List ℕ) (curId : ℕ) (σ : RelaxState α)
    (conns : List (Connection α)) : RelaxState α :=
  conns.foldl (relaxNeighbor3 g closed curId) σ

/-- The robust path-reconstruction loop of `runAStarOnStreetGraph3`
(`while (currentId !== startNode.id) { ... }` with its two `break`
conditions and its skip-and-continue handling of missing nodes).
`none` models non-termination of the loop (ruled out below). -/
def recon3 {α : Type} (g : Graph α) (startId : ℕ) (cameFrom : List (ℕ × ℕ)) :
    ℕ → Option ℕ → List (Point α) → Option (List (Point α))
  | 0, _, _ => none
  | fuel + 1, cid, acc =>
    if cid = some startId then some acc
    else
      match cid.bind (nodeMapLookup g) with
      | none =>
        let cid2 := cid.bind (lookupA cameFrom)
        if jsFalsyId cid2 then some acc
        else recon3 g startId cameFrom fuel cid2 acc
      | some node =>
        let acc2 := Point.mk node.lat node.lng :: acc
        let cid2 := cid.bind (lookupA cameFrom)
        if jsFalsyId cid2 ∧ cid2 ≠ some startId then some acc2
        else recon3 g startId cameFrom fuel cid2 acc2

/-- Outcome of the main `while (!openSet.isEmpty())` loop of
`runAStarOnStreetGraph3`: either the goal was popped and a result built,
or the open set was exhausted. -/
inductive Loop3Out (α : Type) where
  | found (r : SearchResult α)
  | exhausted (explored : List (Point α)) (visited : ℕ)
deriving DecidableEq, Repr

/-- Main loop of `runAStarOnStreetGraph3`.  The source loop has no
iteration cap; the fuel argument only models its a-priori-unknown
running time, and `none` (fuel ran out) models divergence.  It is proved
below that fuel `graph.length + 2` always suffices. -/
def run3Loop {α : Type} [LinearOrderedCommRing α] (hav : Point α → Point α → α)
    (g : Graph α) (startN endN : GNode α) :
    ℕ → DijkstraState α → Option (Loop3Out α)
  | 0, _ => none
  | fuel + 1, st =>
    match st.queue with
    | [] => some (Loop3Out.exhausted st.explored st.visited)
    | cur :: rest =>
      let visited := st.visited + 1
      match nodeMapLookup g cur.id with
      | none =>
        run3Loop hav g startN endN fuel
          { st with queue := rest, visited := visited }
      | some curNode =>
        let explored := st.explored ++ [curNode.pt]
        if cur.id = endN.id then
          match recon3 g startN.id st.cameFrom (g.length + 2) (some cur.id) [] with
          | none => none
          | some tailPts =>
            let pathNodes := startN.pt :: tailPts
            let pathNodes :=
              if pathNodes.length < 2 then pathNodes ++ [endN.pt] else pathNodes
            some (Loop3Out.found
              ⟨pathNodes, pathDistance hav pathNodes, visited, explored⟩)
        else
          let closed := st.closed ++ [cur.id]
          let σ := processConnections3 g closed cur.id
            ⟨st.cameFrom, st.gScore, rest⟩ curNode.connections
          run3Loop hav g startN endN fuel
            ⟨σ.queue, closed, σ.cameFrom, σ.gScore, explored, visited⟩

/-- Initial state of `runAStarOnStreetGraph3`:
`gScore[startNode.id] = 0; openSet.enqueue({ id: startNode.id, g: 0 })`. -/
def init3 {α : Type} [LinearOrderedCommRing α] (startN : GNode α) : DijkstraState α :=
  ⟨[⟨startN.id, 0⟩], [], [], [(startN.id, 0)], [], 0⟩

/-- `runAStarOnStreetGraph3(graph, startNode, endNode)` from
`thirdRouting.js`: Dijkstra-style search ordered by g-score; on
exhaustion of the open set it returns the direct two-point fallback path
with the straight-line distance.  `none` models divergence and is ruled
out below. -/
def runAStarOnStreetGraph3 {α : Type} [LinearOrderedCommRing α]
    (hav : Point α → Point α → α) (g : Graph α) (startN endN : GNode α) :
    Option (SearchResult α) :=
  match run3Loop hav g startN endN (g.length + 2) (init3 startN) with
  | none => none
  | some (Loop3Out.found r) => some r
  | some (Loop3Out.exhausted expl visited) =>
    some ⟨[startN.pt, endN.pt], hav startN.pt endN.pt, visited, expl⟩

/-! ### The heuristic engine `runAStarOnStreetGraph` (graphUtils.js) -/

/-- A frontier entry `{ id, f }` of the heuristic engine. -/
structure AStarEntry (α : Type) where
  id : ℕ
  f : α
deriving DecidableEq, Repr

/-- Mutable state of the main loop of `runAStarOnStreetGraph`. -/
structure AStarState (α : Type) where
  queue : List (AStarEntry α)
  closed : List ℕ
  cameFrom : List (ℕ × ℕ)
  gScore : List (ℕ × α)
  fScore : List (ℕ × α)
  explored : List (Point α)
  visited : ℕ
deriving DecidableEq, Repr

/-- State threaded through the neighbor-processing loop of the heuristic
engine. -/
structure RelaxStateA (α : Type) where
  cameFrom : List (ℕ × ℕ)
  gScore : List (ℕ × α)
  fScore : List (ℕ × α)
  queue : List (AStarEntry α)
deriving DecidableEq, Repr

/-- Body of `for (const connection of currentNode.connections)` in
`runAStarOnStreetGraph`: like the Dijkstra variant but additionally
recording `fScore[n] = tentativeG + heuristic(neighbor, goal)` and
enqueueing with that f-score as key. -/
def relaxNeighborA {α : Type} [LinearOrderedCommRing α] (g : Graph α)
    (hfun : GNode α → GNode α → α) (endN : GNode α)
    (closed : List ℕ) (curId : ℕ) (σ : RelaxStateA α) (conn : Connection α) :
    RelaxStateA α :=
  let n := conn.nodeId
  if n ∈ closed then σ
  else
    match nodeMapLookup g n with
    | none => σ
    | some neighborNode =>
      let tent := (lookupA σ.gScore curId).getD 0 + conn.distance
      if relaxCond (lookupA σ.gScore n) tent then
        let h := hfun neighborNode endN
        let cf := (n, curId) :: σ.cameFrom
        let gs := (n, tent) :: σ.gScore
        let fs := (n, tent + h) :: σ.fScore
        let q :=
          if σ.queue.any (fun e => e.id == n) then σ.queue
          else pqEnqueue (fun e => AStarEntry.f e) σ.queue ⟨n, tent + h⟩
        ⟨cf, gs, fs, q⟩
      else σ

/-- The whole neighbor-processing loop of `runAStarOnStreetGraph`. -/
def processConnectionsA {α : Type} [LinearOrderedCommRing α] (g : Graph α)
    (hfun : GNode α → GNode α → α) (endN : GNode α)
    (closed : List ℕ) (curId : ℕ) (σ : RelaxStateA α)
    (conns : List (Connection α)) : RelaxStateA α :=
  conns.foldl (relaxNeighborA g hfun endN closed curId) σ

/-- The simple path-reconstruction loop of `runAStarOnStreetGraph`
(`while (currentId !== startNode.id)`, breaking as soon as a node is
missing from the node map).  `none` models non-termination of the loop
(ruled out below). -/
def reconA {α : Type} (g : Graph α) (startId : ℕ) (cameFrom : List (ℕ × ℕ)) :
    ℕ → Option ℕ → List (Point α) → Option (List (Point α))
  | 0, _, _ => none
  | fuel + 1, cid, acc =>
    if cid = some startId then some acc
    else
      match cid.bind (nodeMapLookup g) with
      | none => some acc
      | some node =>
        reconA g startId cameFrom fuel (cid.bind (lookupA cameFrom))
          (Point.mk node.lat node.lng :: acc)

/-- Main loop of `runAStarOnStreetGraph`
(`while (!openSet.isEmpty() && iterations < maxIterations)`); the fuel
argument is exactly the remaining iteration budget
`maxIterations - iterations`, and on its exhaustion the engine returns
the empty-path failure result just as on an empty open set. -/
def runAStarLoop {α : Type} [LinearOrderedCommRing α]
    (hav : Point α → Point α → α) (hfun : GNode α → GNode α → α)
    (g : Graph α) (startN endN : GNode α) :
    ℕ → AStarState α → Option (SearchResult α)
  | 0, st => some ⟨[], 0, st.visited, st.explored⟩
  | fuel + 1, st =>
    match st.queue with
    | [] => some ⟨[], 0, st.visited, st.explored⟩
    | cur :: rest =>
      let visited := st.visited + 1
      match nodeMapLookup g cur.id with
      | none =>
        runAStarLoop hav hfun g startN endN fuel
          { st with queue := rest, visited := visited }
      | some curNode =>
        let explored := st.explored ++ [curNode.pt]
        if cur.id = endN.id then
          match reconA g startN.id st.cameFrom (g.length + 2) (some cur.id) [] with
          | none => none
          | some tailPts =>
            let pathNodes := startN.pt :: tailPts
            some ⟨pathNodes, pathDistance hav pathNodes, visited, explored⟩
        else
          let closed := st.closed ++ [cur.id]
          let σ := processConnectionsA g hfun endN closed cur.id
            ⟨st.cameFrom, st.gScore, st.fScore, rest⟩ curNode.connections
          runAStarLoop hav hfun g startN endN fuel
            ⟨σ.queue, closed, σ.cameFrom, σ.gScore, σ.fScore, explored, visited⟩

/-- Initial state of `runAStarOnStreetGraph`:
`gScore[start] = 0; fScore[start] = heuristic(start, goal)` and the
start entry enqueued with its f-score. -/
def initA {α : Type} [LinearOrderedCommRing α] (hfun : GNode α → GNode α → α)
    (startN endN : GNode α) : AStarState α :=
  ⟨[⟨startN.id, hfun startN endN⟩], [], [], [(startN.id, 0)],
    [(startN.id, hfun startN endN)], [], 0⟩

/-- The iteration cap `maxIterations = 10000000` of
`runAStarOnStreetGraph`. -/
def maxIterationsA : ℕ := 10000000

/-- `runAStarOnStreetGraph(graph, startNode, endNode, heuristicFunc)`
from `graphUtils.js`: A*-style search ordered by f-score with an
iteration cap, returning the empty-path failure result on exhaustion.
`none` models divergence of path reconstruction and is ruled out
below. -/
def runAStarOnStreetGraph {α : Type} [LinearOrderedCommRing α]
    (hav : Point α → Point α → α) (hfun : GNode α → GNode α → α)
    (g : Graph α) (startN endN : GNode α) : Option (SearchResult α) :=
  runAStarLoop hav hfun g startN endN maxIterationsA (initA hfun startN endN)

/-! ### Helper lemmas: priority queue, node map, association lists -/

theorem pqInsert_perm {β γ : Type} [LinearOrder γ] (keyOf : β → γ) (e : β) :
    ∀ l : List β, List.Perm (pqInsert keyOf e l) (e :: l)
  | [] => List.Perm.refl _
  | x :: xs => by
    unfold pqInsert
    split
    · exact List.Perm.refl _
    · exact ((pqInsert_perm keyOf e xs).cons x).trans (List.Perm.swap e x xs)

theorem pqSort_perm_aux {β γ : Type} [LinearOrder γ] (keyOf : β → γ) :
    ∀ (l acc : List β),
      List.Perm (l.foldl (fun acc e => pqInsert keyOf e acc) acc) (l ++ acc)
  | [], acc => by simp
  | e :: l, acc => by
    have h1 := pqSort_perm_aux keyOf l (pqInsert keyOf e acc)
    have h2 : List.Perm (l ++ pqInsert keyOf e acc) (l ++ (e :: acc)) :=
      List.Perm.append_left l (pqInsert_perm keyOf e acc)
    simpa using (h1.trans h2).trans (List.perm_middle)

theorem pqSort_perm {β γ : Type} [LinearOrder γ] (keyOf : β → γ) (l : List β) :
    List.Perm (pqSort keyOf l) l := by
  simpa using pqSort_perm_aux keyOf l []

theorem pqEnqueue_perm {β γ : Type} [LinearOrder γ] (keyOf : β → γ) (q : List β) (e : β) :
    List.Perm (pqEnqueue keyOf q e) (e :: q) :=
  (pqSort_perm keyOf (q ++ [e])).trans (List.perm_append_singleton e q)

theorem nodeMapLookup_some {α : Type} {g : Graph α} {i : ℕ} {n : GNode α}
    (h : nodeMapLookup g i = some n) : n ∈ g ∧ n.id = i := by
  unfold nodeMapLookup at h
  refine ⟨List.mem_reverse.1 (List.mem_of_find?_eq_some h), ?_⟩
  have := List.find?_some h
  simpa using this

theorem nodeMapLookup_isSome_iff {α : Type} {g : Graph α} {i : ℕ} :
    (nodeMapLookup g i).isSome ↔ i ∈ g.map GNode.id := by
  unfold nodeMapLookup
  rw [List.find?_isSome]
  constructor
  · rintro ⟨x, hx, hpx⟩
    exact List.mem_map.2 ⟨x, List.mem_reverse.1 hx, by simpa using hpx⟩
  · intro h
    rcases List.mem_map.1 h with ⟨x, hx, rfl⟩
    exact ⟨x, List.mem_reverse.2 hx, by simp⟩

theorem lookupA_cons {β : Type} (a : ℕ) (b : β) (m : List (ℕ × β)) (k : ℕ) :
    lookupA ((a, b) :: m) k = if a = k then some b else lookupA m k := by
  unfold lookupA
  rcases eq_or_ne a k with h | h <;> simp [List.find?_cons, h]

theorem lookupA_isSome_cons {β : Type} {m : List (ℕ × β)} {k : ℕ} (a : ℕ) (b : β)
    (h : (lookupA m k).isSome) : (lookupA ((a, b) :: m) k).isSome := by
  rw [lookupA_cons]
  split <;> simp [h]

/-- The ids of the entries of a Dijkstra-engine frontier. -/
def qIds3 {α : Type} (q : List (DijkstraEntry α)) : List ℕ := q.map DijkstraEntry.id

/-- The ids of the entries of a heuristic-engine frontier. -/
def qIdsA {α : Type} (q : List (AStarEntry α)) : List ℕ := q.map AStarEntry.id

/-- The ids of the nodes of a graph. -/
def graphIds {α : Type} (g : Graph α) : List ℕ := g.map GNode.id

theorem qIds3_enqueue_perm {α : Type} [LinearOrderedCommRing α]
    (q : List (DijkstraEntry α)) (e : DijkstraEntry α) :
    List.Perm (qIds3 (pqEnqueue (fun e => DijkstraEntry.g e) q e)) (e.id :: qIds3 q) :=
  (pqEnqueue_perm _ q e).map DijkstraEntry.id

theorem qIdsA_enqueue_perm {α : Type} [LinearOrderedCommRing α]
    (q : List (AStarEntry α)) (e : AStarEntry α) :
    List.Perm (qIdsA (pqEnqueue (fun e => AStarEntry.f e) q e)) (e.id :: qIdsA q) :=
  (pqEnqueue_perm _ q e).map AStarEntry.id

theorem any_id_eq_false_3 {α : Type} {q : List (DijkstraEntry α)} {n : ℕ}
    (h : q.any (fun e => e.id == n) = false) : n ∉ qIds3 q := by
  intro hmem
  rcases List.mem_map.1 hmem with ⟨e, he, rfl⟩
  have : q.any (fun x => x.id == e.id) = true := List.any_eq_true.2 ⟨e, he, by simp⟩
  rw [h] at this
  exact Bool.false_ne_true this

theorem any_id_eq_false_A {α : Type} {q : List (AStarEntry α)} {n : ℕ}
    (h : q.any (fun e => e.id == n) = false) : n ∉ qIdsA q := by
  intro hmem
  rcases List.mem_map.1 hmem with ⟨e, he, rfl⟩
  have : q.any (fun x => x.id == e.id) = true := List.any_eq_true.2 ⟨e, he, by simp⟩
  rw [h] at this
  exact Bool.false_ne_true this

theorem indexOf_append_self {l : List ℕ} {a : ℕ} (h : a ∉ l) :
    (l ++ [a]).indexOf a = l.length := by
  induction l with
  | nil => simp [List.indexOf_cons]
  | cons x xs ih =>
    have hax : x ≠ a := by rintro rfl; exact h (List.mem_cons_self _ _)
    have h2 : a ∉ xs := fun hm => h (List.mem_cons_of_mem _ hm)
    simp [List.indexOf_cons, hax, ih h2]

/-! ### Search invariants and termination of the Dijkstra-style engine -/

/-- Potential of a frontier relative to a closed set: number of graph
ids neither closed nor enqueued, plus the frontier length.  Every loop
iteration strictly decreases it. -/
def phiR {α : Type} (g : Graph α) (closed : List ℕ) (q : List (DijkstraEntry α)) : ℕ :=
  (((graphIds g).toFinset \ closed.toFinset) \ (qIds3 q).toFinset).card + q.length

/-- Invariant tying the frontier, the closed list (in closing order) and
the `cameFrom` map of the Dijkstra-style engine together. -/
structure RInv3 {α : Type} (g : Graph α) (startId : ℕ) (closed : List ℕ)
    (σ : RelaxState α) : Prop where
  qNodup : (qIds3 σ.queue).Nodup
  qClosed : ∀ e ∈ σ.queue, e.id ∉ closed
  qInMap : ∀ e ∈ σ.queue, e.id ∈ graphIds g ∨ e.id = startId
  qHasPred : ∀ e ∈ σ.queue, e.id = startId ∨ (lookupA σ.cameFrom e.id).isSome
  cfClosed : ∀ n y, lookupA σ.cameFrom n = some y → y ∈ closed
  cfRank : ∀ n y, lookupA σ.cameFrom n = some y → n ∈ closed →
    closed.indexOf y < closed.indexOf n
  cfEdge : ∀ n y, lookupA σ.cameFrom n = some y → ∃ ynode,
    nodeMapLookup g y = some ynode ∧ ∃ c ∈ ynode.connections, c.nodeId = n


theorem relaxNeighbor3_eq_skip {α : Type} [LinearOrderedCommRing α] {g : Graph α}
    {closed : List ℕ} {curId : ℕ} {σ : RelaxState α} {conn : Connection α}
    (h : conn.nodeId ∈ closed ∨ nodeMapLookup g conn.nodeId = none ∨
      relaxCond (lookupA σ.gScore conn.nodeId)
        ((lookupA σ.gScore curId).getD 0 + conn.distance) = false) :
    relaxNeighbor3 g closed curId σ conn = σ := by
  unfold relaxNeighbor3
  rcases h with h | h | h
  · simp [h]
  · simp [h]
  · by_cases hc : conn.nodeId ∈ closed
    · simp [hc]
    · rcases hnm : nodeMapLookup g conn.nodeId with _ | nb
      · simp [hc, hnm]
      · simp [hc, hnm, h]

theorem relaxNeighbor3_eq_enq {α : Type} [LinearOrderedCommRing α] {g : Graph α}
    {closed : List ℕ} {curId : ℕ} {σ : RelaxState α} {conn : Connection α}
    {nb : GNode α}
    (hc : conn.nodeId ∉ closed)
    (hnm : nodeMapLookup g conn.nodeId = some nb)
    (hrc : relaxCond (lookupA σ.gScore conn.nodeId)
      ((lookupA σ.gScore curId).getD 0 + conn.distance) = true)
    (hin : σ.queue.any (fun e => e.id == conn.nodeId) = false) :
    relaxNeighbor3 g closed curId σ conn =
      ⟨(conn.nodeId, curId) :: σ.cameFrom,
        (conn.nodeId, (lookupA σ.gScore curId).getD 0 + conn.distance) :: σ.gScore,
        pqEnqueue (fun e => DijkstraEntry.g e) σ.queue
          ⟨conn.nodeId, (lookupA σ.gScore curId).getD 0 + conn.distance⟩⟩ := by
  unfold relaxNeighbor3
  simp [hc, hnm, hrc, hin]

theorem relaxNeighbor3_eq_upd {α : Type} [LinearOrderedCommRing α] {g : Graph α}
    {closed : List ℕ} {curId : ℕ} {σ : RelaxState α} {conn : Connection α}
    {nb : GNode α}
    (hc : conn.nodeId ∉ closed)
    (hnm : nodeMapLookup g conn.nodeId = some nb)
    (hrc : relaxCond (lookupA σ.gScore conn.nodeId)
      ((lookupA σ.gScore curId).getD 0 + conn.distance) = true)
    (hin : σ.queue.any (fun e => e.id == conn.nodeId) = true) :
    relaxNeighbor3 g closed curId σ conn =
      ⟨(conn.nodeId, curId) :: σ.cameFrom,
        (conn.nodeId, (lookupA σ.gScore curId).getD 0 + conn.distance) :: σ.gScore,
        σ.queue⟩ := by
  unfold relaxNeighbor3
  simp [hc, hnm, hrc, hin]

theorem cameFrom_cons_inv {α : Type} {g : Graph α} {closed : List ℕ}
    {cf : List (ℕ × ℕ)} {curId n : ℕ} {curNode : GNode α} {conn : Connection α}
    (hcur : nodeMapLookup g curId = some curNode)
    (hconn : conn ∈ curNode.connections)
    (hid : conn.nodeId = n)
    (hcm : curId ∈ closed)
    (hc : n ∉ closed)
    (h1 : ∀ a y, lookupA cf a = some y → y ∈ closed)
    (h2 : ∀ a y, lookupA cf a = some y → a ∈ closed →
      closed.indexOf y < closed.indexOf a)
    (h3 : ∀ a y, lookupA cf a = some y → ∃ ynode,
      nodeMapLookup g y = some ynode ∧ ∃ c ∈ ynode.connections, c.nodeId = a) :
    (∀ a y, lookupA ((n, curId) :: cf) a = some y → y ∈ closed) ∧
    (∀ a y, lookupA ((n, curId) :: cf) a = some y → a ∈ closed →
      closed.indexOf y < closed.indexOf a) ∧
    (∀ a y, lookupA ((n, curId) :: cf) a = some y → ∃ ynode,
      nodeMapLookup g y = some ynode ∧ ∃ c ∈ ynode.connections, c.nodeId = a) := by
  refine ⟨?_, ?_, ?_⟩
  · intro a y hl
    rw [lookupA_cons] at hl
    split at hl
    · cases hl; exact hcm
    · exact h1 a y hl
  · intro a y hl ha
    rw [lookupA_cons] at hl
    split at hl
    · rename_i heq
      subst heq
      exact absurd ha hc
    · exact h2 a y hl ha
  · intro a y hl
    rw [lookupA_cons] at hl
    split at hl
    · rename_i heq
      cases hl
      exact ⟨curNode, hcur, conn, hconn, by rw [hid, heq]⟩
    · exact h3 a y hl

theorem relaxNeighbor3_inv {α : Type} [LinearOrderedCommRing α] {g : Graph α}
    {startId : ℕ} {closed : List ℕ} {curId : ℕ} {σ : RelaxState α}
    {conn : Connection α} {curNode : GNode α}
    (hcur : nodeMapLookup g curId = some curNode)
    (hconn : conn ∈ curNode.connections)
    (hcm : curId ∈ closed)
    (hinv : RInv3 g startId closed σ) :
    RInv3 g startId closed (relaxNeighbor3 g closed curId σ conn) ∧
      phiR g closed (relaxNeighbor3 g closed curId σ conn).queue
        = phiR g closed σ.queue ∧
      (∀ k, (lookupA σ.cameFrom k).isSome →
        (lookupA (relaxNeighbor3 g closed curId σ conn).cameFrom k).isSome) := by
  by_cases hc : conn.nodeId ∈ closed
  · rw [relaxNeighbor3_eq_skip (Or.inl hc)]
    exact ⟨hinv, rfl, fun _ h => h⟩
  rcases hnm : nodeMapLookup g conn.nodeId with _ | nb
  · rw [relaxNeighbor3_eq_skip (Or.inr (Or.inl hnm))]
    exact ⟨hinv, rfl, fun _ h => h⟩
  rcases hrc : relaxCond (lookupA σ.gScore conn.nodeId)
      ((lookupA σ.gScore curId).getD 0 + conn.distance) with _ | _
  · rw [relaxNeighbor3_eq_skip (Or.inr (Or.inr hrc))]
    exact ⟨hinv, rfl, fun _ h => h⟩
  have hcf := cameFrom_cons_inv hcur hconn rfl hcm hc hinv.cfClosed hinv.cfRank hinv.cfEdge
  rcases hin : σ.queue.any (fun e => e.id == conn.nodeId) with _ | _
  · -- relax and enqueue
    rw [relaxNeighbor3_eq_enq hc hnm hrc hin]
    have hnotin : conn.nodeId ∉ qIds3 σ.queue := any_id_eq_false_3 hin
    have hperm := qIds3_enqueue_perm σ.queue
      (⟨conn.nodeId, (lookupA σ.gScore curId).getD 0 + conn.distance⟩ : DijkstraEntry α)
    have hmemid : conn.nodeId ∈ graphIds g := by
      have : (nodeMapLookup g conn.nodeId).isSome := by rw [hnm]; rfl
      exact nodeMapLookup_isSome_iff.1 this
    refine ⟨⟨?_, ?_, ?_, ?_, hcf.1, hcf.2.1, hcf.2.2⟩, ?_, ?_⟩
    · rw [(hperm.nodup_iff)]
      exact List.Nodup.cons hnotin hinv.qNodup
    · intro e he
      have := (pqEnqueue_perm _ σ.queue _).mem_iff.1 he
      rcases List.mem_cons.1 this with rfl | h
      · exact hc
      · exact hinv.qClosed e h
    · intro e he
      have := (pqEnqueue_perm _ σ.queue _).mem_iff.1 he
      rcases List.mem_cons.1 this with rfl | h
      · exact Or.inl hmemid
      · exact hinv.qInMap e h
    · intro e he
      have := (pqEnqueue_perm _ σ.queue _).mem_iff.1 he
      rcases List.mem_cons.1 this with rfl | h
      · refine Or.inr ?_
        rw [lookupA_cons]
        simp
      · rcases hinv.qHasPred e h with h2 | h2
        · exact Or.inl h2
        · exact Or.inr (lookupA_isSome_cons _ _ h2)
    · show phiR g closed (pqEnqueue _ σ.queue _) = phiR g closed σ.queue
      unfold phiR
      have hts : (qIds3 (pqEnqueue (fun e => DijkstraEntry.g e) σ.queue
          (⟨conn.nodeId, (lookupA σ.gScore curId).getD 0 + conn.distance⟩ : DijkstraEntry α))).toFinset
          = insert conn.nodeId (qIds3 σ.queue).toFinset := by
        rw [List.toFinset_eq_of_perm _ _ hperm]
        simp
      have hlen : (pqEnqueue (fun e => DijkstraEntry.g e) σ.queue
          (⟨conn.nodeId, (lookupA σ.gScore curId).getD 0 + conn.distance⟩ : DijkstraEntry α)).length
          = σ.queue.length + 1 := by
        have := (pqEnqueue_perm (fun e => DijkstraEntry.g e) σ.queue
          (⟨conn.nodeId, (lookupA σ.gScore curId).getD 0 + conn.distance⟩ : DijkstraEntry α)).length_eq
        simpa using this
      rw [hts, hlen]
      have hsd : ((graphIds g).toFinset \ closed.toFinset) \
          insert conn.nodeId (qIds3 σ.queue).toFinset
          = (((graphIds g).toFinset \ closed.toFinset) \
              (qIds3 σ.queue).toFinset).erase conn.nodeId := by
        ext x
        simp only [Finset.mem_sdiff, Finset.mem_insert, Finset.mem_erase]
        tauto
      have hmem2 : conn.nodeId ∈ ((graphIds g).toFinset \ closed.toFinset) \
          (qIds3 σ.queue).toFinset := by
        simp only [Finset.mem_sdiff, List.mem_toFinset]
        exact ⟨⟨hmemid, hc⟩, hnotin⟩
      rw [hsd, Finset.card_erase_of_mem hmem2]
      have hpos : 0 < (((graphIds g).toFinset \ closed.toFinset) \
          (qIds3 σ.queue).toFinset).card := Finset.card_pos.2 ⟨_, hmem2⟩
      omega
    · intro k h
      exact lookupA_isSome_cons _ _ h
  · -- relax without enqueue (already in the open set)
    rw [relaxNeighbor3_eq_upd hc hnm hrc hin]
    refine ⟨⟨hinv.qNodup, hinv.qClosed, hinv.qInMap, ?_, hcf.1, hcf.2.1, hcf.2.2⟩,
      rfl, ?_⟩
    · intro e he
      rcases hinv.qHasPred e he with h | h
      · exact Or.inl h
      · exact Or.inr (lookupA_isSome_cons _ _ h)
    · intro k h
      exact lookupA_isSome_cons _ _ h

theorem processConnections3_inv {α : Type} [LinearOrderedCommRing α] {g : Graph α}
    {startId : ℕ} {closed : List ℕ} {curId : ℕ} {curNode : GNode α}
    (hcur : nodeMapLookup g curId = some curNode)
    (hcm : curId ∈ closed) :
    ∀ (conns : List (Connection α)) (σ : RelaxState α),
      (∀ c ∈ conns, c ∈ curNode.connections) →
      RInv3 g startId closed σ →
      RInv3 g startId closed (processConnections3 g closed curId σ conns) ∧
        phiR g closed (processConnections3 g closed curId σ conns).queue
          = phiR g closed σ.queue ∧
        (∀ k, (lookupA σ.cameFrom k).isSome →
          (lookupA (processConnections3 g closed curId σ conns).cameFrom k).isSome)
  | [], σ, _, hinv => ⟨hinv, rfl, fun _ h => h⟩
  | c :: cs, σ, hconns, hinv => by
    have h1 := @relaxNeighbor3_inv α _ g startId closed curId σ c curNode hcur
      (hconns c (List.mem_cons_self c cs)) hcm hinv
    have h2 := processConnections3_inv hcur hcm cs (relaxNeighbor3 g closed curId σ c)
      (fun x hx => hconns x (List.mem_cons_of_mem c hx)) h1.1
    refine ⟨?_, ?_, ?_⟩
    · simpa [processConnections3] using h2.1
    · show phiR g closed (processConnections3 g closed curId σ (c :: cs)).queue
        = phiR g closed σ.queue
      have : processConnections3 g closed curId σ (c :: cs)
          = processConnections3 g closed curId (relaxNeighbor3 g closed curId σ c) cs := by
        simp [processConnections3]
      rw [this, h2.2.1, h1.2.1]
    · intro k h
      have : processConnections3 g closed curId σ (c :: cs)
          = processConnections3 g closed curId (relaxNeighbor3 g closed curId σ c) cs := by
        simp [processConnections3]
      rw [this]
      exact h2.2.2 k (h1.2.2 k h)

/-- Rank of a reconstruction cursor: its position in the closing order
(`closed.length + 1` if not closed, `0` for `undefined`).  Following a
`cameFrom` link strictly decreases it. -/
def chainRank (closed : List ℕ) : Option ℕ → ℕ
  | none => 0
  | some i => if i ∈ closed then closed.indexOf i + 1 else closed.length + 1

theorem chainRank_le (closed : List ℕ) (cid : Option ℕ) :
    chainRank closed cid ≤ closed.length + 1 := by
  rcases cid with _ | i
  · simp [chainRank]
  · simp only [chainRank]
    by_cases h : i ∈ closed
    · rw [if_pos h]
      have := List.indexOf_lt_length.2 h
      omega
    · rw [if_neg h]

theorem chainRank_lookup_lt {closed : List ℕ} {cf : List (ℕ × ℕ)} {i y : ℕ}
    (h1 : ∀ a y, lookupA cf a = some y → y ∈ closed)
    (h2 : ∀ a y, lookupA cf a = some y → a ∈ closed →
      closed.indexOf y < closed.indexOf a)
    (hl : lookupA cf i = some y) :
    chainRank closed (some y) < chainRank closed (some i) := by
  have hy : y ∈ closed := h1 i y hl
  simp only [chainRank]
  rw [if_pos hy]
  by_cases hi : i ∈ closed
  · rw [if_pos hi]
    have := h2 i y hl hi
    omega
  · rw [if_neg hi]
    have := List.indexOf_lt_length.2 hy
    omega

theorem recon3_isSome {α : Type} {g : Graph α} {startId : ℕ}
    {cf : List (ℕ × ℕ)} {closed : List ℕ}
    (h1 : ∀ a y, lookupA cf a = some y → y ∈ closed)
    (h2 : ∀ a y, lookupA cf a = some y → a ∈ closed →
      closed.indexOf y < closed.indexOf a) :
    ∀ (fuel : ℕ) (cid : Option ℕ) (acc : List (Point α)),
      chainRank closed cid < fuel →
      (recon3 g startId cf fuel cid acc).isSome := by
  intro fuel
  induction fuel with
  | zero => intro cid acc h; omega
  | succ f ih =>
    intro cid acc hrank
    rw [recon3]
    by_cases hs : cid = some startId
    · rw [if_pos hs]
      rfl
    rw [if_neg hs]
    have hrec : ∀ (acc2 : List (Point α)) (y : ℕ) (i : ℕ), cid = some i →
        lookupA cf i = some y →
        (recon3 g startId cf f (some y) acc2).isSome := by
      intro acc2 y i hcid hl
      have hlt := chainRank_lookup_lt h1 h2 hl
      rw [hcid] at hrank
      exact ih _ acc2 (by omega)
    rcases hnm : cid.bind (nodeMapLookup g) with _ | node
    · simp only [hnm]
      rcases hfal : jsFalsyId (cid.bind (lookupA cf)) with _ | _
      · rw [if_neg (by simp [hfal])]
        rcases hcid : cid with _ | i
        · rw [hcid] at hfal
          simp [jsFalsyId] at hfal
        rcases hl : lookupA cf i with _ | y
        · rw [hcid] at hfal
          simp [hl, jsFalsyId] at hfal
        have := hrec acc y i hcid hl
        simpa [hcid, hl] using this
      · rw [if_pos (by simp [hfal])]
        rfl
    · simp only [hnm]
      rcases hfal : jsFalsyId (cid.bind (lookupA cf)) with _ | _
      · rw [if_neg (by simp [hfal])]
        rcases hcid : cid with _ | i
        · rw [hcid] at hfal
          simp [jsFalsyId] at hfal
        rcases hl : lookupA cf i with _ | y
        · rw [hcid] at hfal
          simp [hl, jsFalsyId] at hfal
        have := hrec (Point.mk node.lat node.lng :: acc) y i hcid hl
        simpa [hcid, hl] using this
      · by_cases hst : cid.bind (lookupA cf) = some startId
        · rw [if_neg (by simp [hst])]
          rcases hcid : cid with _ | i
          · rw [hcid] at hst
            simp at hst
          rcases hl : lookupA cf i with _ | y
          · rw [hcid] at hst
            simp [hl] at hst
          have := hrec (Point.mk node.lat node.lng :: acc) y i hcid hl
          simpa [hcid, hl] using this
        · rw [if_pos ⟨rfl, hst⟩]
          rfl

/-- Full loop invariant of the Dijkstra-style engine. -/
structure Inv3 {α : Type} (g : Graph α) (startId : ℕ) (st : DijkstraState α) : Prop where
  base : RInv3 g startId st.closed ⟨st.cameFrom, st.gScore, st.queue⟩
  closedNodup : st.closed.Nodup
  closedInMap : ∀ c ∈ st.closed, c ∈ graphIds g
  closedHasPred : ∀ c ∈ st.closed, c = startId ∨ (lookupA st.cameFrom c).isSome

theorem closed_length_le {α : Type} {closed : List ℕ} {g : Graph α}
    (hnd : closed.Nodup) (hsub : ∀ c ∈ closed, c ∈ graphIds g) :
    closed.length ≤ g.length := by
  have h1 : closed.toFinset.card = closed.length := List.toFinset_card_of_nodup hnd
  have h2 : closed.toFinset ⊆ (graphIds g).toFinset := by
    intro x hx
    exact List.mem_toFinset.2 (hsub x (List.mem_toFinset.1 hx))
  have h3 := Finset.card_le_card h2
  have h4 : (graphIds g).toFinset.card ≤ (graphIds g).length := List.toFinset_card_le _
  have h5 : (graphIds g).length = g.length := List.length_map _ _
  omega

theorem init3_inv {α : Type} [LinearOrderedCommRing α] (g : Graph α) (startN : GNode α) :
    Inv3 g startN.id (init3 startN) := by
  refine ⟨⟨?_, ?_, ?_, ?_, ?_, ?_, ?_⟩, ?_, ?_, ?_⟩ <;>
    simp [init3, qIds3, lookupA]

theorem phiR_init_lt {α : Type} [LinearOrderedCommRing α] (g : Graph α) (startN : GNode α) :
    phiR g (init3 startN).closed (init3 startN).queue < g.length + 2 := by
  unfold phiR init3
  have h1 : ((((graphIds g).toFinset \ ([] : List ℕ).toFinset) \
      (qIds3 [(⟨startN.id, 0⟩ : DijkstraEntry α)]).toFinset)).card
      ≤ (graphIds g).toFinset.card := by
    apply Finset.card_le_card
    intro x hx
    simp only [Finset.mem_sdiff] at hx
    exact hx.1.1
  have h2 : (graphIds g).toFinset.card ≤ (graphIds g).length := List.toFinset_card_le _
  have h3 : (graphIds g).length = g.length := List.length_map _ _
  simp only [List.length_cons, List.length_nil]
  omega

theorem sdiff_exchange (A C R : Finset ℕ) (c : ℕ) :
    (A \ (C ∪ {c})) \ R = (A \ C) \ insert c R := by
  ext x
  simp only [Finset.mem_sdiff, Finset.mem_union, Finset.mem_insert, Finset.mem_singleton]
  tauto

theorem step3_mid_inv {α : Type} [LinearOrderedCommRing α] {g : Graph α} {startId : ℕ}
    {st : DijkstraState α} {cur : DijkstraEntry α} {rest : List (DijkstraEntry α)}
    (hinv : Inv3 g startId st) (hq : st.queue = cur :: rest) :
    RInv3 g startId (st.closed ++ [cur.id]) ⟨st.cameFrom, st.gScore, rest⟩ ∧
      cur.id ∉ st.closed := by
  have hmemcur : cur ∈ st.queue := by rw [hq]; exact List.mem_cons_self _ _
  have hnotclosed : cur.id ∉ st.closed := hinv.base.qClosed cur hmemcur
  have hqn : (qIds3 st.queue).Nodup := hinv.base.qNodup
  rw [hq] at hqn
  have hqn2 : (qIds3 (cur :: rest)).Nodup := hqn
  have hhead : cur.id ∉ qIds3 rest := by
    have : qIds3 (cur :: rest) = cur.id :: qIds3 rest := rfl
    rw [this] at hqn2
    exact (List.nodup_cons.1 hqn2).1
  refine ⟨⟨?_, ?_, ?_, ?_, ?_, ?_, ?_⟩, hnotclosed⟩
  · have : qIds3 (cur :: rest) = cur.id :: qIds3 rest := rfl
    rw [this] at hqn2
    exact (List.nodup_cons.1 hqn2).2
  · intro e he
    have hm : e ∈ st.queue := by rw [hq]; exact List.mem_cons_of_mem _ he
    have h1 := hinv.base.qClosed e hm
    intro hcontra
    rcases List.mem_append.1 hcontra with h | h
    · exact h1 h
    · have : e.id = cur.id := by simpa using h
      exact hhead (this ▸ List.mem_map_of_mem DijkstraEntry.id he)
  · intro e he
    exact hinv.base.qInMap e (by rw [hq]; exact List.mem_cons_of_mem _ he)
  · intro e he
    exact hinv.base.qHasPred e (by rw [hq]; exact List.mem_cons_of_mem _ he)
  · intro n y hl
    exact List.mem_append.2 (Or.inl (hinv.base.cfClosed n y hl))
  · intro n y hl hn
    have hy : y ∈ st.closed := hinv.base.cfClosed n y hl
    rcases List.mem_append.1 hn with h | h
    · rw [List.indexOf_append_of_mem hy, List.indexOf_append_of_mem h]
      exact hinv.base.cfRank n y hl h
    · have hn2 : n = cur.id := by simpa using h
      subst hn2
      rw [List.indexOf_append_of_mem hy, indexOf_append_self hnotclosed]
      exact List.indexOf_lt_length.2 hy
  · exact hinv.base.cfEdge

theorem run3Loop_isSome {α : Type} [LinearOrderedCommRing α]
    (hav : Point α → Point α → α) (g : Graph α) (startN endN : GNode α) :
    ∀ (fuel : ℕ) (st : DijkstraState α), Inv3 g startN.id st →
      phiR g st.closed st.queue < fuel →
      (run3Loop hav g startN endN fuel st).isSome := by
  intro fuel
  induction fuel with
  | zero => intro st _ h; omega
  | succ f ih =>
    intro st hinv hphi
    rw [run3Loop]
    rcases hq : st.queue with _ | ⟨cur, rest⟩
    · rfl
    simp only []
    rcases hnm : nodeMapLookup g cur.id with _ | curNode
    · -- id not in the node map: the iteration is skipped
      apply ih
      · refine ⟨⟨?_, ?_, ?_, ?_, ?_, ?_, ?_⟩, hinv.closedNodup, hinv.closedInMap,
          hinv.closedHasPred⟩
        · have hqn : (qIds3 st.queue).Nodup := hinv.base.qNodup
          rw [hq] at hqn
          exact (List.nodup_cons.1 hqn).2
        · intro e he
          exact hinv.base.qClosed e (by rw [hq]; exact List.mem_cons_of_mem _ he)
        · intro e he
          exact hinv.base.qInMap e (by rw [hq]; exact List.mem_cons_of_mem _ he)
        · intro e he
          exact hinv.base.qHasPred e (by rw [hq]; exact List.mem_cons_of_mem _ he)
        · exact hinv.base.cfClosed
        · exact hinv.base.cfRank
        · exact hinv.base.cfEdge
      · -- the potential decreases: the dropped id is not a graph id
        have hnid : cur.id ∉ graphIds g := by
          intro h
          have := nodeMapLookup_isSome_iff.2 h
          rw [hnm] at this
          simp at this
        have hsets : ((graphIds g).toFinset \ st.closed.toFinset) \
            (qIds3 rest).toFinset
            = ((graphIds g).toFinset \ st.closed.toFinset) \
              (qIds3 (cur :: rest)).toFinset := by
          ext x
          have : qIds3 (cur :: rest) = cur.id :: qIds3 rest := rfl
          rw [this]
          simp only [Finset.mem_sdiff, List.mem_toFinset, List.mem_cons]
          constructor
          · rintro ⟨⟨hx1, hx2⟩, hx3⟩
            refine ⟨⟨hx1, hx2⟩, ?_⟩
            rintro (rfl | h)
            · exact absurd hx1 hnid
            · exact hx3 h
          · rintro ⟨⟨hx1, hx2⟩, hx3⟩
            exact ⟨⟨hx1, hx2⟩, fun h => hx3 (Or.inr h)⟩
        dsimp only
        unfold phiR
        rw [hsets]
        rw [hq] at hphi
        unfold phiR at hphi
        simp only [List.length_cons] at hphi
        omega
    · dsimp only
      by_cases hgoal : cur.id = endN.id
      · rw [if_pos hgoal]
        have hrank : chainRank st.closed (some cur.id) < g.length + 2 := by
          have h1 := chainRank_le st.closed (some cur.id)
          have h2 := closed_length_le (g := g) hinv.closedNodup hinv.closedInMap
          omega
        have hrec := @recon3_isSome α g startN.id st.cameFrom st.closed
          hinv.base.cfClosed hinv.base.cfRank (g.length + 2) (some cur.id) [] hrank
        rcases hre : recon3 g startN.id st.cameFrom (g.length + 2) (some cur.id)
            ([] : List (Point α)) with _ | tailPts
        · rw [hre] at hrec
          exact absurd hrec (by simp)
        · rfl
      · rw [if_neg hgoal]
        have hmid := step3_mid_inv hinv hq
        have hcm : cur.id ∈ st.closed ++ [cur.id] :=
          List.mem_append.2 (Or.inr (List.mem_cons_self _ _))
        have hfold := @processConnections3_inv α _ g startN.id
          (st.closed ++ [cur.id]) cur.id curNode hnm hcm
          curNode.connections ⟨st.cameFrom, st.gScore, rest⟩ (fun _ h => h) hmid.1
        apply ih
        · refine ⟨hfold.1, ?_, ?_, ?_⟩
          · simp only []
            rw [List.nodup_append]
            exact ⟨hinv.closedNodup, List.nodup_singleton _,
              by intro a ha hb; simp at hb; subst hb; exact hmid.2 ha⟩
          · intro c hc
            rcases List.mem_append.1 hc with h | h
            · exact hinv.closedInMap c h
            · have h2 : c = cur.id := by simpa using h
              subst h2
              have h3 : (nodeMapLookup g cur.id).isSome := by rw [hnm]; rfl
              exact nodeMapLookup_isSome_iff.1 h3
          · intro c hc
            rcases List.mem_append.1 hc with h | h
            · rcases hinv.closedHasPred c h with h2 | h2
              · exact Or.inl h2
              · exact Or.inr (hfold.2.2 c h2)
            · have : c = cur.id := by simpa using h
              subst this
              rcases hinv.base.qHasPred cur (by rw [hq]; exact List.mem_cons_self _ _)
                with h2 | h2
              · exact Or.inl h2
              · exact Or.inr (hfold.2.2 _ h2)
        · -- the potential decreases by one
          have heq1 : phiR g (st.closed ++ [cur.id])
              (processConnections3 g (st.closed ++ [cur.id]) cur.id
                ⟨st.cameFrom, st.gScore, rest⟩ curNode.connections).queue
              = phiR g (st.closed ++ [cur.id]) rest := hfold.2.1
          have heq2 : phiR g (st.closed ++ [cur.id]) rest + 1
              = phiR g st.closed (cur :: rest) := by
            unfold phiR
            have hts : (st.closed ++ [cur.id]).toFinset
                = st.closed.toFinset ∪ {cur.id} := by
              rw [List.toFinset_append]
              simp
            have hts2 : (qIds3 (cur :: rest)).toFinset
                = insert cur.id (qIds3 rest).toFinset := by
              have : qIds3 (cur :: rest) = cur.id :: qIds3 rest := rfl
              rw [this]
              simp
            rw [hts, hts2, sdiff_exchange]
            simp only [List.length_cons]
            omega
          rw [hq] at hphi
          dsimp only
          rw [heq1]
          omega

theorem runAStarOnStreetGraph3_isSome {α : Type} [LinearOrderedCommRing α]
    (hav : Point α → Point α → α) (g : Graph α) (startN endN : GNode α) :
    (runAStarOnStreetGraph3 hav g startN endN).isSome := by
  unfold runAStarOnStreetGraph3
  have h := run3Loop_isSome hav g startN endN (g.length + 2) (init3 startN)
    (init3_inv g startN) (phiR_init_lt g startN)
  rcases hre : run3Loop hav g startN endN (g.length + 2) (init3 startN) with _ | out
  · rw [hre] at h
    exact absurd h (by simp)
  · rcases out with r | ⟨expl, visited⟩ <;> rfl

/-! ### Invariants and termination of the heuristic engine -/

theorem relaxNeighborA_eq_skip {α : Type} [LinearOrderedCommRing α] {g : Graph α}
    {hfun : GNode α → GNode α → α} {endN : GNode α}
    {closed : List ℕ} {curId : ℕ} {σ : RelaxStateA α} {conn : Connection α}
    (h : conn.nodeId ∈ closed ∨ nodeMapLookup g conn.nodeId = none ∨
      relaxCond (lookupA σ.gScore conn.nodeId)
        ((lookupA σ.gScore curId).getD 0 + conn.distance) = false) :
    relaxNeighborA g hfun endN closed curId σ conn = σ := by
  unfold relaxNeighborA
  rcases h with h | h | h
  · simp [h]
  · simp [h]
  · by_cases hc : conn.nodeId ∈ closed
    · simp [hc]
    · rcases hnm : nodeMapLookup g conn.nodeId with _ | nb
      · simp [hc, hnm]
      · simp [hc, hnm, h]

theorem relaxNeighborA_eq_enq {α : Type} [LinearOrderedCommRing α] {g : Graph α}
    {hfun : GNode α → GNode α → α} {endN : GNode α}
    {closed : List ℕ} {curId : ℕ} {σ : RelaxStateA α} {conn : Connection α}
    {nb : GNode α}
    (hc : conn.nodeId ∉ closed)
    (hnm : nodeMapLookup g conn.nodeId = some nb)
    (hrc : relaxCond (lookupA σ.gScore conn.nodeId)
      ((lookupA σ.gScore curId).getD 0 + conn.distance) = true)
    (hin : σ.queue.any (fun e => e.id == conn.nodeId) = false) :
    relaxNeighborA g hfun endN closed curId σ conn =
      ⟨(conn.nodeId, curId) :: σ.cameFrom,
        (conn.nodeId, (lookupA σ.gScore curId).getD 0 + conn.distance) :: σ.gScore,
        (conn.nodeId, ((lookupA σ.gScore curId).getD 0 + conn.distance) + hfun nb endN)
          :: σ.fScore,
        pqEnqueue (fun e => AStarEntry.f e) σ.queue
          ⟨conn.nodeId,
            ((lookupA σ.gScore curId).getD 0 + conn.distance) + hfun nb endN⟩⟩ := by
  unfold relaxNeighborA
  simp [hc, hnm, hrc, hin]

theorem relaxNeighborA_eq_upd {α : Type} [LinearOrderedCommRing α] {g : Graph α}
    {hfun : GNode α → GNode α → α} {endN : GNode α}
    {closed : List ℕ} {curId : ℕ} {σ : RelaxStateA α} {conn : Connection α}
    {nb : GNode α}
    (hc : conn.nodeId ∉ closed)
    (hnm : nodeMapLookup g conn.nodeId = some nb)
    (hrc : relaxCond (lookupA σ.gScore conn.nodeId)
      ((lookupA σ.gScore curId).getD 0 + conn.distance) = true)
    (hin : σ.queue.any (fun e => e.id == conn.nodeId) = true) :
    relaxNeighborA g hfun endN closed curId σ conn =
      ⟨(conn.nodeId, curId) :: σ.cameFrom,
        (conn.nodeId, (lookupA σ.gScore curId).getD 0 + conn.distance) :: σ.gScore,
        (conn.nodeId, ((lookupA σ.gScore curId).getD 0 + conn.distance) + hfun nb endN)
          :: σ.fScore,
        σ.queue⟩ := by
  unfold relaxNeighborA
  simp [hc, hnm, hrc, hin]

/-- Invariant of the heuristic engine tying the frontier, the closed
list and the `cameFrom` map together. -/
structure RInvA {α : Type} (g : Graph α) (startId : ℕ) (closed : List ℕ)
    (σ : RelaxStateA α) : Prop where
  qNodup : (qIdsA σ.queue).Nodup
  qClosed : ∀ e ∈ σ.queue, e.id ∉ closed
  qHasPred : ∀ e ∈ σ.queue, e.id = startId ∨ (lookupA σ.cameFrom e.id).isSome
  cfClosed : ∀ n y, lookupA σ.cameFrom n = some y → y ∈ closed
  cfRank : ∀ n y, lookupA σ.cameFrom n = some y → n ∈ closed →
    closed.indexOf y < closed.indexOf n

theorem relaxNeighborA_inv {α : Type} [LinearOrderedCommRing α] {g : Graph α}
    {hfun : GNode α → GNode α → α} {endN : GNode α}
    {startId : ℕ} {closed : List ℕ} {curId : ℕ} {σ : RelaxStateA α}
    {conn : Connection α}
    (hcm : curId ∈ closed)
    (hinv : RInvA g startId closed σ) :
    RInvA g startId closed (relaxNeighborA g hfun endN closed curId σ conn) ∧
      (∀ k, (lookupA σ.cameFrom k).isSome →
        (lookupA (relaxNeighborA g hfun endN closed curId σ conn).cameFrom k).isSome) := by
  by_cases hc : conn.nodeId ∈ closed
  · rw [relaxNeighborA_eq_skip (Or.inl hc)]
    exact ⟨hinv, fun _ h => h⟩
  rcases hnm : nodeMapLookup g conn.nodeId with _ | nb
  · rw [relaxNeighborA_eq_skip (Or.inr (Or.inl hnm))]
    exact ⟨hinv, fun _ h => h⟩
  rcases hrc : relaxCond (lookupA σ.gScore conn.nodeId)
      ((lookupA σ.gScore curId).getD 0 + conn.distance) with _ | _
  · rw [relaxNeighborA_eq_skip (Or.inr (Or.inr hrc))]
    exact ⟨hinv, fun _ h => h⟩
  have hcf1 : ∀ a y, lookupA ((conn.nodeId, curId) :: σ.cameFrom) a = some y →
      y ∈ closed := by
    intro a y hl
    rw [lookupA_cons] at hl
    split at hl
    · cases hl; exact hcm
    · exact hinv.cfClosed a y hl
  have hcf2 : ∀ a y, lookupA ((conn.nodeId, curId) :: σ.cameFrom) a = some y →
      a ∈ closed → closed.indexOf y < closed.indexOf a := by
    intro a y hl ha
    rw [lookupA_cons] at hl
    split at hl
    · rename_i heq
      subst heq
      exact absurd ha hc
    · exact hinv.cfRank a y hl ha
  rcases hin : σ.queue.any (fun e => e.id == conn.nodeId) with _ | _
  · rw [relaxNeighborA_eq_enq hc hnm hrc hin]
    have hnotin : conn.nodeId ∉ qIdsA σ.queue := any_id_eq_false_A hin
    have hperm := qIdsA_enqueue_perm σ.queue
      (⟨conn.nodeId, ((lookupA σ.gScore curId).getD 0 + conn.distance) + hfun nb endN⟩ :
        AStarEntry α)
    refine ⟨⟨?_, ?_, ?_, hcf1, hcf2⟩, ?_⟩
    · rw [(hperm.nodup_iff)]
      exact List.Nodup.cons hnotin hinv.qNodup
    · intro e he
      have := (pqEnqueue_perm _ σ.queue _).mem_iff.1 he
      rcases List.mem_cons.1 this with rfl | h
      · exact hc
      · exact hinv.qClosed e h
    · intro e he
      have := (pqEnqueue_perm _ σ.queue _).mem_iff.1 he
      rcases List.mem_cons.1 this with rfl | h
      · refine Or.inr ?_
        rw [lookupA_cons]
        simp
      · rcases hinv.qHasPred e h with h2 | h2
        · exact Or.inl h2
        · exact Or.inr (lookupA_isSome_cons _ _ h2)
    · intro k h
      exact lookupA_isSome_cons _ _ h
  · rw [relaxNeighborA_eq_upd hc hnm hrc hin]
    refine ⟨⟨hinv.qNodup, hinv.qClosed, ?_, hcf1, hcf2⟩, ?_⟩
    · intro e he
      rcases hinv.qHasPred e he with h | h
      · exact Or.inl h
      · exact Or.inr (lookupA_isSome_cons _ _ h)
    · intro k h
      exact lookupA_isSome_cons _ _ h

theorem processConnectionsA_inv {α : Type} [LinearOrderedCommRing α] {g : Graph α}
    {hfun : GNode α → GNode α → α} {endN : GNode α}
    {startId : ℕ} {closed : List ℕ} {curId : ℕ}
    (hcm : curId ∈ closed) :
    ∀ (conns : List (Connection α)) (σ : RelaxStateA α),
      RInvA g startId closed σ →
      RInvA g startId closed (processConnectionsA g hfun endN closed curId σ conns) ∧
        (∀ k, (lookupA σ.cameFrom k).isSome →
          (lookupA (processConnectionsA g hfun endN closed curId σ conns).cameFrom k).isSome)
  | [], σ, hinv => ⟨hinv, fun _ h => h⟩
  | c :: cs, σ, hinv => by
    have h1 := @relaxNeighborA_inv α _ g hfun endN startId closed curId σ c
      hcm hinv
    have h2 := @processConnectionsA_inv α _ g hfun endN startId closed curId hcm cs
      (relaxNeighborA g hfun endN closed curId σ c) h1.1
    refine ⟨?_, ?_⟩
    · simpa [processConnectionsA] using h2.1
    · intro k h
      have heq : processConnectionsA g hfun endN closed curId σ (c :: cs)
          = processConnectionsA g hfun endN closed curId
            (relaxNeighborA g hfun endN closed curId σ c) cs := by
        simp [processConnectionsA]
      rw [heq]
      exact h2.2 k (h1.2 k h)

theorem reconA_isSome {α : Type} {g : Graph α} {startId : ℕ}
    {cf : List (ℕ × ℕ)} {closed : List ℕ}
    (h1 : ∀ a y, lookupA cf a = some y → y ∈ closed)
    (h2 : ∀ a y, lookupA cf a = some y → a ∈ closed →
      closed.indexOf y < closed.indexOf a) :
    ∀ (fuel : ℕ) (cid : Option ℕ) (acc : List (Point α)),
      chainRank closed cid < fuel →
      (reconA g startId cf fuel cid acc).isSome := by
  intro fuel
  induction fuel with
  | zero => intro cid acc h; omega
  | succ f ih =>
    intro cid acc hrank
    rw [reconA]
    by_cases hs : cid = some startId
    · rw [if_pos hs]
      rfl
    rw [if_neg hs]
    rcases hnm : cid.bind (nodeMapLookup g) with _ | node
    · simp only [hnm]
      rfl
    · simp only [hnm]
      rcases hcid : cid with _ | i
    -- `cid = none` makes the node lookup impossible
      · rw [hcid] at hnm
        simp at hnm
      rw [hcid] at hrank
      have hpos : 1 ≤ chainRank closed (some i) := by
        simp only [chainRank]
        split <;> omega
      rcases hl : lookupA cf i with _ | y
      · -- next cursor is `undefined`, the following iteration breaks
        apply ih
        have hz : (some i).bind (lookupA cf) = (none : Option ℕ) := by simp [hl]
        rw [hz]
        simp only [chainRank]
        omega
      · have hlt := chainRank_lookup_lt h1 h2 hl
        apply ih
        have hz : (some i).bind (lookupA cf) = some y := by simp [hl]
        rw [hz]
        omega

/-- Full loop invariant of the heuristic engine. -/
structure InvA {α : Type} (g : Graph α) (startId : ℕ) (st : AStarState α) : Prop where
  base : RInvA g startId st.closed ⟨st.cameFrom, st.gScore, st.fScore, st.queue⟩
  closedNodup : st.closed.Nodup
  closedInMap : ∀ c ∈ st.closed, c ∈ graphIds g
  closedHasPred : ∀ c ∈ st.closed, c = startId ∨ (lookupA st.cameFrom c).isSome

theorem initA_inv {α : Type} [LinearOrderedCommRing α] (g : Graph α)
    (hfun : GNode α → GNode α → α) (startN endN : GNode α) :
    InvA g startN.id (initA hfun startN endN) := by
  refine ⟨⟨?_, ?_, ?_, ?_, ?_⟩, ?_, ?_, ?_⟩ <;>
    simp [initA, qIdsA, lookupA]

theorem stepA_mid_inv {α : Type} [LinearOrderedCommRing α] {g : Graph α} {startId : ℕ}
    {st : AStarState α} {cur : AStarEntry α} {rest : List (AStarEntry α)}
    (hinv : InvA g startId st) (hq : st.queue = cur :: rest) :
    RInvA g startId (st.closed ++ [cur.id]) ⟨st.cameFrom, st.gScore, st.fScore, rest⟩ ∧
      cur.id ∉ st.closed := by
  have hmemcur : cur ∈ st.queue := by rw [hq]; exact List.mem_cons_self _ _
  have hnotclosed : cur.id ∉ st.closed := hinv.base.qClosed cur hmemcur
  have hqn : (qIdsA st.queue).Nodup := hinv.base.qNodup
  rw [hq] at hqn
  have hhead : cur.id ∉ qIdsA rest := by
    have h5 : qIdsA (cur :: rest) = cur.id :: qIdsA rest := rfl
    rw [h5] at hqn
    exact (List.nodup_cons.1 hqn).1
  refine ⟨⟨?_, ?_, ?_, ?_, ?_⟩, hnotclosed⟩
  · have h5 : qIdsA (cur :: rest) = cur.id :: qIdsA rest := rfl
    rw [h5] at hqn
    exact (List.nodup_cons.1 hqn).2
  · intro e he
    have hm : e ∈ st.queue := by rw [hq]; exact List.mem_cons_of_mem _ he
    have h1 := hinv.base.qClosed e hm
    intro hcontra
    rcases List.mem_append.1 hcontra with h | h
    · exact h1 h
    · have h4 : e.id = cur.id := by simpa using h
      exact hhead (h4 ▸ List.mem_map_of_mem AStarEntry.id he)
  · intro e he
    exact hinv.base.qHasPred e (by rw [hq]; exact List.mem_cons_of_mem _ he)
  · intro n y hl
    exact List.mem_append.2 (Or.inl (hinv.base.cfClosed n y hl))
  · intro n y hl hn
    have hy : y ∈ st.closed := hinv.base.cfClosed n y hl
    rcases List.mem_append.1 hn with h | h
    · rw [List.indexOf_append_of_mem hy, List.indexOf_append_of_mem h]
      exact hinv.base.cfRank n y hl h
    · have hn2 : n = cur.id := by simpa using h
      subst hn2
      rw [List.indexOf_append_of_mem hy, indexOf_append_self hnotclosed]
      exact List.indexOf_lt_length.2 hy

theorem runAStarLoop_isSome {α : Type} [LinearOrderedCommRing α]
    (hav : Point α → Point α → α) (hfun : GNode α → GNode α → α)
    (g : Graph α) (startN endN : GNode α) :
    ∀ (fuel : ℕ) (st : AStarState α), InvA g startN.id st →
      (runAStarLoop hav hfun g startN endN fuel st).isSome := by
  intro fuel
  induction fuel with
  | zero => intro st _; rfl
  | succ f ih =>
    intro st hinv
    rw [runAStarLoop]
    rcases hq : st.queue with _ | ⟨cur, rest⟩
    · rfl
    simp only []
    rcases hnm : nodeMapLookup g cur.id with _ | curNode
    · apply ih
      refine ⟨⟨?_, ?_, ?_, ?_, ?_⟩, hinv.closedNodup, hinv.closedInMap,
        hinv.closedHasPred⟩
      · have hqn : (qIdsA st.queue).Nodup := hinv.base.qNodup
        rw [hq] at hqn
        exact (List.nodup_cons.1 hqn).2
      · intro e he
        exact hinv.base.qClosed e (by rw [hq]; exact List.mem_cons_of_mem _ he)
      · intro e he
        exact hinv.base.qHasPred e (by rw [hq]; exact List.mem_cons_of_mem _ he)
      · exact hinv.base.cfClosed
      · exact hinv.base.cfRank
    · dsimp only
      by_cases hgoal : cur.id = endN.id
      · rw [if_pos hgoal]
        have hrank : chainRank st.closed (some cur.id) < g.length + 2 := by
          have h1 := chainRank_le st.closed (some cur.id)
          have h2 := closed_length_le (g := g) hinv.closedNodup hinv.closedInMap
          omega
        have hrec := @reconA_isSome α g startN.id st.cameFrom st.closed
          hinv.base.cfClosed hinv.base.cfRank (g.length + 2) (some cur.id) [] hrank
        rcases hre : reconA g startN.id st.cameFrom (g.length + 2) (some cur.id)
            ([] : List (Point α)) with _ | tailPts
        · rw [hre] at hrec
          exact absurd hrec (by simp)
        · rfl
      · rw [if_neg hgoal]
        have hmid := stepA_mid_inv hinv hq
        have hcm : cur.id ∈ st.closed ++ [cur.id] :=
          List.mem_append.2 (Or.inr (List.mem_cons_self _ _))
        have hfold := @processConnectionsA_inv α _ g hfun endN startN.id
          (st.closed ++ [cur.id]) cur.id hcm curNode.connections
          ⟨st.cameFrom, st.gScore, st.fScore, rest⟩ hmid.1
        apply ih
        refine ⟨hfold.1, ?_, ?_, ?_⟩
        · simp only []
          rw [List.nodup_append]
          exact ⟨hinv.closedNodup, List.nodup_singleton _,
            by intro a ha hb; simp at hb; subst hb; exact hmid.2 ha⟩
        · intro c hc
          rcases List.mem_append.1 hc with h | h
          · exact hinv.closedInMap c h
          · have h2 : c = cur.id := by simpa using h
            subst h2
            have h3 : (nodeMapLookup g cur.id).isSome := by rw [hnm]; rfl
            exact nodeMapLookup_isSome_iff.1 h3
        · intro c hc
          rcases List.mem_append.1 hc with h | h
          · rcases hinv.closedHasPred c h with h2 | h2
            · exact Or.inl h2
            · exact Or.inr (hfold.2 c h2)
          · have h2 : c = cur.id := by simpa using h
            subst h2
            rcases hinv.base.qHasPred cur (by rw [hq]; exact List.mem_cons_self _ _)
              with h2 | h2
            · exact Or.inl h2
            · exact Or.inr (hfold.2 _ h2)

theorem runAStarOnStreetGraph_isSome {α : Type} [LinearOrderedCommRing α]
    (hav : Point α → Point α → α) (hfun : GNode α → GNode α → α)
    (g : Graph α) (startN endN : GNode α) :
    (runAStarOnStreetGraph hav hfun g startN endN).isSome :=
  runAStarLoop_isSome hav hfun g startN endN maxIterationsA
    (initA hfun startN endN) (initA_inv g hfun startN endN)

/-! ### Shape of the results -/

theorem run3Loop_found_path_len {α : Type} [LinearOrderedCommRing α]
    (hav : Point α → Point α → α) (g : Graph α) (startN endN : GNode α) :
    ∀ (fuel : ℕ) (st : DijkstraState α) (r : SearchResult α),
      run3Loop hav g startN endN fuel st = some (Loop3Out.found r) →
      2 ≤ r.path.length := by
  intro fuel
  induction fuel with
  | zero => intro st r h; simp [run3Loop] at h
  | succ f ih =>
    intro st r h
    rw [run3Loop] at h
    rcases hq : st.queue with _ | ⟨cur, rest⟩
    · rw [hq] at h
      simp at h
    rw [hq] at h
    simp only [] at h
    rcases hnm : nodeMapLookup g cur.id with _ | curNode
    · rw [hnm] at h
      exact ih _ r h
    rw [hnm] at h
    dsimp only at h
    by_cases hgoal : cur.id = endN.id
    · rw [if_pos hgoal] at h
      rcases hre : recon3 g startN.id st.cameFrom (g.length + 2) (some cur.id)
          ([] : List (Point α)) with _ | tailPts
      · rw [hre] at h
        simp at h
      · rw [hre] at h
        simp only [Option.some_inj] at h
        cases h
        by_cases hl : (startN.pt :: tailPts).length < 2
        · rw [if_pos hl]
          simp
        · rw [if_neg hl]
          simp only [List.length_cons] at hl ⊢
          omega
    · rw [if_neg hgoal] at h
      exact ih _ r h

/-- Every point pushed to the exploration trace is a node of the
graph. -/
def ptsFromGraph {α : Type} (g : Graph α) (l : List (Point α)) : Prop :=
  ∀ p ∈ l, ∃ n, n ∈ g ∧ GNode.pt n = p

theorem ptsFromGraph_append {α : Type} {g : Graph α} {l : List (Point α)}
    {n : GNode α} (h : ptsFromGraph g l) (hn : n ∈ g) :
    ptsFromGraph g (l ++ [GNode.pt n]) := by
  intro p hp
  rcases List.mem_append.1 hp with h2 | h2
  · exact h p h2
  · have : p = GNode.pt n := by simpa using h2
    exact ⟨n, hn, this.symm⟩

theorem run3Loop_explored {α : Type} [LinearOrderedCommRing α]
    (hav : Point α → Point α → α) (g : Graph α) (startN endN : GNode α) :
    ∀ (fuel : ℕ) (st : DijkstraState α) (out : Loop3Out α),
      run3Loop hav g startN endN fuel st = some out →
      ptsFromGraph g st.explored →
      (∀ r, out = Loop3Out.found r → ptsFromGraph g r.exploredNodesList) ∧
      (∀ expl visited, out = Loop3Out.exhausted expl visited → ptsFromGraph g expl) := by
  intro fuel
  induction fuel with
  | zero => intro st out h; simp [run3Loop] at h
  | succ f ih =>
    intro st out h hexp
    rw [run3Loop] at h
    rcases hq : st.queue with _ | ⟨cur, rest⟩
    · rw [hq] at h
      simp only [Option.some_inj] at h
      subst h
      refine ⟨?_, ?_⟩
      · intro r hr
        cases hr
      · intro e v he
        cases he
        exact hexp
    rw [hq] at h
    simp only [] at h
    rcases hnm : nodeMapLookup g cur.id with _ | curNode
    · rw [hnm] at h
      exact ih _ out h hexp
    rw [hnm] at h
    dsimp only at h
    have hcurg : curNode ∈ g := (nodeMapLookup_some hnm).1
    have hexp2 : ptsFromGraph g (st.explored ++ [GNode.pt curNode]) :=
      ptsFromGraph_append hexp hcurg
    by_cases hgoal : cur.id = endN.id
    · rw [if_pos hgoal] at h
      rcases hre : recon3 g startN.id st.cameFrom (g.length + 2) (some cur.id)
          ([] : List (Point α)) with _ | tailPts
      · rw [hre] at h
        simp at h
      · rw [hre] at h
        simp only [Option.some_inj] at h
        subst h
        refine ⟨?_, by intro e v he; cases he⟩
        intro r hr
        cases hr
        exact hexp2
    · rw [if_neg hgoal] at h
      exact ih _ out h hexp2

theorem runAStarLoop_explored {α : Type} [LinearOrderedCommRing α]
    (hav : Point α → Point α → α) (hfun : GNode α → GNode α → α)
    (g : Graph α) (startN endN : GNode α) :
    ∀ (fuel : ℕ) (st : AStarState α) (r : SearchResult α),
      runAStarLoop hav hfun g startN endN fuel st = some r →
      ptsFromGraph g st.explored →
      ptsFromGraph g r.exploredNodesList := by
  intro fuel
  induction fuel with
  | zero =>
    intro st r h hexp
    rw [runAStarLoop] at h
    simp only [Option.some_inj] at h
    subst h
    exact hexp
  | succ f ih =>
    intro st r h hexp
    rw [runAStarLoop] at h
    rcases hq : st.queue with _ | ⟨cur, rest⟩
    · rw [hq] at h
      simp only [Option.some_inj] at h
      subst h
      exact hexp
    rw [hq] at h
    simp only [] at h
    rcases hnm : nodeMapLookup g cur.id with _ | curNode
    · rw [hnm] at h
      exact ih _ r h hexp
    rw [hnm] at h
    dsimp only at h
    have hcurg : curNode ∈ g := (nodeMapLookup_some hnm).1
    have hexp2 : ptsFromGraph g (st.explored ++ [GNode.pt curNode]) :=
      ptsFromGraph_append hexp hcurg
    by_cases hgoal : cur.id = endN.id
    · rw [if_pos hgoal] at h
      rcases hre : reconA g startN.id st.cameFrom (g.length + 2) (some cur.id)
          ([] : List (Point α)) with _ | tailPts
      · rw [hre] at h
        simp at h
      · rw [hre] at h
        simp only [Option.some_inj] at h
        subst h
        exact hexp2
    · rw [if_neg hgoal] at h
      exact ih _ r h hexp2

/-! ### Paths returned through the goal branch are walks in the graph -/

/-- There is an edge from node id `u` to node id `v` in the graph (a
connection of `u` whose `nodeId` is `v`). -/
def connectedTo {α : Type} (g : Graph α) (u v : ℕ) : Bool :=
  match nodeMapLookup g u with
  | some un => un.connections.any (fun c => c.nodeId == v)
  | none => false

/-- A list of node ids is a walk: every consecutive pair is joined by an
edge of the graph. -/
def isGraphWalk {α : Type} (g : Graph α) : List ℕ → Bool
  | [] => true
  | [_] => true
  | u :: v :: rest => connectedTo g u v && isGraphWalk g (v :: rest)

/-- Coordinates of a list of node ids (in node-map order), `none` if one
is missing. -/
def idsToPoints {α : Type} (g : Graph α) : List ℕ → Option (List (Point α))
  | [] => some []
  | i :: rest =>
    match nodeMapLookup g i with
    | some n => (idsToPoints g rest).map (fun ps => GNode.pt n :: ps)
    | none => none

theorem idsToPoints_append {α : Type} {g : Graph α} {l1 l2 : List ℕ}
    {p1 p2 : List (Point α)} (h1 : idsToPoints g l1 = some p1)
    (h2 : idsToPoints g l2 = some p2) :
    idsToPoints g (l1 ++ l2) = some (p1 ++ p2) := by
  induction l1 generalizing p1 with
  | nil =>
    simp only [idsToPoints, Option.some_inj] at h1
    subst h1
    simpa using h2
  | cons i rest ih =>
    simp only [idsToPoints] at h1 ⊢
    rcases hnm : nodeMapLookup g i with _ | n
    · rw [hnm] at h1
      simp at h1
    · rw [hnm] at h1
      rcases hr : idsToPoints g rest with _ | ps
      · rw [hr] at h1
        simp at h1
      · rw [hr] at h1
        simp only [Option.map_some', Option.some_inj] at h1
        subst h1
        simp only [List.append_eq]
        rw [ih hr]
        simp

theorem idsToPoints_length {α : Type} {g : Graph α} {l : List ℕ}
    {p : List (Point α)} (h : idsToPoints g l = some p) : p.length = l.length := by
  induction l generalizing p with
  | nil =>
    simp only [idsToPoints, Option.some_inj] at h
    subst h
    rfl
  | cons i rest ih =>
    simp only [idsToPoints] at h
    rcases hnm : nodeMapLookup g i with _ | n
    · rw [hnm] at h
      simp at h
    · rw [hnm] at h
      rcases hr : idsToPoints g rest with _ | ps
      · rw [hr] at h
        simp at h
      · rw [hr] at h
        simp only [Option.map_some', Option.some_inj] at h
        subst h
        simpa using ih hr

theorem isGraphWalk_append_last {α : Type} {g : Graph α} :
    ∀ {l : List ℕ} {a b : ℕ}, isGraphWalk g (a :: l) = true →
      connectedTo g ((a :: l).getLast (by simp)) b = true →
      isGraphWalk g ((a :: l) ++ [b]) = true := by
  intro l
  induction l with
  | nil =>
    intro a b _ hconn
    simp only [List.getLast] at hconn
    simp only [List.cons_append, List.nil_append, isGraphWalk]
    rw [hconn]
    simp [isGraphWalk]
  | cons x rest ih =>
    intro a b hwalk hconn
    have hw2 : isGraphWalk g (x :: rest) = true := by
      simp only [isGraphWalk, Bool.and_eq_true] at hwalk
      exact hwalk.2
    have hc2 : connectedTo g ((x :: rest).getLast (by simp)) b = true := by
      have : (a :: x :: rest).getLast (by simp) = (x :: rest).getLast (by simp) := by
        simp [List.getLast]
      rw [this] at hconn
      exact hconn
    have hrec := ih hw2 hc2
    simp only [isGraphWalk, Bool.and_eq_true] at hwalk
    simp only [List.cons_append, isGraphWalk, Bool.and_eq_true] at hrec ⊢
    exact ⟨hwalk.1, hrec⟩

theorem connectedTo_intro {α : Type} {g : Graph α} {u v : ℕ} {un : GNode α}
    (h : nodeMapLookup g u = some un) {c : Connection α}
    (hc : c ∈ un.connections) (hid : c.nodeId = v) : connectedTo g u v = true := by
  unfold connectedTo
  rw [h]
  exact List.any_eq_true.2 ⟨c, hc, by simp [hid]⟩

theorem isGraphWalk_concat {α : Type} {g : Graph α} :
    ∀ {l : List ℕ} {x b : ℕ}, isGraphWalk g l = true → l.getLast? = some x →
      connectedTo g x b = true → isGraphWalk g (l ++ [b]) = true := by
  intro l
  induction l with
  | nil =>
    intro x b _ hl
    simp at hl
  | cons a rest ih =>
    intro x b hw hl hc
    rcases rest with _ | ⟨c, rest2⟩
    · have hx : x = a := by simpa using hl.symm
      subst hx
      simp only [List.cons_append, List.nil_append, isGraphWalk, Bool.and_eq_true]
      exact ⟨hc, trivial⟩
    · have hw2 : isGraphWalk g (c :: rest2) = true := by
        simp only [isGraphWalk, Bool.and_eq_true] at hw
        exact hw.2
      have hl2 : (c :: rest2).getLast? = some x := by
        rw [List.getLast?_cons_cons] at hl
        exact hl
      have hrec := ih hw2 hl2 hc
      simp only [isGraphWalk, Bool.and_eq_true] at hw
      simp only [List.cons_append, isGraphWalk, Bool.and_eq_true] at hrec ⊢
      exact ⟨hw.1, hrec⟩

theorem recon3_start_eval {α : Type} (g : Graph α) (startId : ℕ)
    (cf : List (ℕ × ℕ)) (f : ℕ) (acc : List (Point α)) (hf : 0 < f) :
    recon3 g startId cf f (some startId) acc = some acc := by
  rcases f with _ | f2
  · omega
  · rw [recon3]
    simp

theorem recon3_walk {α : Type} {g : Graph α} {startId : ℕ}
    {cf : List (ℕ × ℕ)} {closed : List ℕ}
    (h1 : ∀ a y, lookupA cf a = some y → y ∈ closed)
    (h2 : ∀ a y, lookupA cf a = some y → a ∈ closed →
      closed.indexOf y < closed.indexOf a)
    (h3 : ∀ a y, lookupA cf a = some y → ∃ ynode,
      nodeMapLookup g y = some ynode ∧ ∃ c ∈ ynode.connections, c.nodeId = a)
    (hpred : ∀ c ∈ closed, c = startId ∨ (lookupA cf c).isSome)
    (hcim : ∀ c ∈ closed, c ∈ graphIds g)
    (hnz : ∀ n ∈ g, n.id ≠ 0) :
    ∀ (fuel : ℕ) (j : ℕ) (acc : List (Point α)),
      chainRank closed (some j) < fuel →
      j ≠ startId →
      (j ∈ closed ∨ (lookupA cf j).isSome) →
      (nodeMapLookup g j).isSome →
      ∃ (ids : List ℕ) (pts : List (Point α)),
        idsToPoints g ids = some pts ∧
        isGraphWalk g (startId :: ids) = true ∧
        ids ≠ [] ∧
        ids.getLast? = some j ∧
        recon3 g startId cf fuel (some j) acc = some (pts ++ acc) := by
  intro fuel
  induction fuel with
  | zero => intro j acc h; omega
  | succ f ih =>
    intro j acc hrank hne hjc hjm
    obtain ⟨node, hnode⟩ := Option.isSome_iff_exists.1 hjm
    have hcf : ∃ y, lookupA cf j = some y := by
      rcases hjc with h | h
      · rcases hpred j h with h4 | h4
        · exact absurd h4 hne
        · exact Option.isSome_iff_exists.1 h4
      · exact Option.isSome_iff_exists.1 h
    obtain ⟨y, hy⟩ := hcf
    have hyc : y ∈ closed := h1 j y hy
    have hynz : y ≠ 0 := by
      have hmem : y ∈ graphIds g := hcim y hyc
      rcases List.mem_map.1 hmem with ⟨n, hn, rfl⟩
      exact hnz n hn
    have hrlt : chainRank closed (some y) < chainRank closed (some j) :=
      chainRank_lookup_lt h1 h2 hy
    have hconn : connectedTo g y j = true := by
      obtain ⟨ynode, hyn, c, hcmem, hcid⟩ := h3 j y hy
      exact connectedTo_intro hyn hcmem hcid
    rw [recon3]
    rw [if_neg (by simpa using hne)]
    have hb : (some j).bind (nodeMapLookup g) = some node := by simpa using hnode
    rw [hb]
    dsimp only
    have hb2 : (some j).bind (lookupA cf) = some y := by simpa using hy
    rw [hb2]
    rw [if_neg (by intro hx; simp [jsFalsyId, hynz] at hx)]
    by_cases hys : y = startId
    · refine ⟨[j], [GNode.pt node], ?_, ?_, by simp, by simp, ?_⟩
      · simp [idsToPoints, hnode]
      · simp only [isGraphWalk, Bool.and_eq_true]
        exact ⟨by rw [← hys]; exact hconn, trivial⟩
      · rw [hys, recon3_start_eval _ _ _ _ _ (by omega)]
        simp [GNode.pt]
    · have hrec := ih y (GNode.pt node :: acc) (by omega) hys (Or.inl hyc)
        (nodeMapLookup_isSome_iff.2 (hcim y hyc))
      obtain ⟨ids2, pts2, hi1, hi2, hne2, hlast2, heq2⟩ := hrec
      refine ⟨ids2 ++ [j], pts2 ++ [GNode.pt node], ?_, ?_, by simp, ?_, ?_⟩
      · exact idsToPoints_append hi1 (by simp [idsToPoints, hnode])
      · have hl3 : (startId :: ids2).getLast? = some y := by
          rcases ids2 with _ | ⟨z, zs⟩
          · exact absurd rfl hne2
          · rw [List.getLast?_cons_cons]
            exact hlast2
        have hres := isGraphWalk_concat hi2 hl3 hconn
        simpa using hres
      · simp [List.getLast?_concat]
      · simp only [GNode.pt] at heq2
        rw [heq2]
        simp [GNode.pt]

theorem step3_skip_inv {α : Type} [LinearOrderedCommRing α] {g : Graph α}
    {startId : ℕ} {st : DijkstraState α} {cur : DijkstraEntry α}
    {rest : List (DijkstraEntry α)} (hinv : Inv3 g startId st)
    (hq : st.queue = cur :: rest) (expl : List (Point α)) (v : ℕ) :
    Inv3 g startId ⟨rest, st.closed, st.cameFrom, st.gScore, expl, v⟩ := by
  refine ⟨⟨?_, ?_, ?_, ?_, ?_, ?_, ?_⟩, hinv.closedNodup, hinv.closedInMap,
    hinv.closedHasPred⟩
  · have hqn : (qIds3 st.queue).Nodup := hinv.base.qNodup
    rw [hq] at hqn
    exact (List.nodup_cons.1 hqn).2
  · intro e he
    exact hinv.base.qClosed e (by rw [hq]; exact List.mem_cons_of_mem _ he)
  · intro e he
    exact hinv.base.qInMap e (by rw [hq]; exact List.mem_cons_of_mem _ he)
  · intro e he
    exact hinv.base.qHasPred e (by rw [hq]; exact List.mem_cons_of_mem _ he)
  · exact hinv.base.cfClosed
  · exact hinv.base.cfRank
  · exact hinv.base.cfEdge

theorem step3_next_inv {α : Type} [LinearOrderedCommRing α] {g : Graph α}
    {startId : ℕ} {st : DijkstraState α} {cur : DijkstraEntry α}
    {rest : List (DijkstraEntry α)} {curNode : GNode α}
    (hinv : Inv3 g startId st) (hq : st.queue = cur :: rest)
    (hnm : nodeMapLookup g cur.id = some curNode) (expl : List (Point α)) (v : ℕ) :
    Inv3 g startId
      ⟨(processConnections3 g (st.closed ++ [cur.id]) cur.id
          ⟨st.cameFrom, st.gScore, rest⟩ curNode.connections).queue,
        st.closed ++ [cur.id],
        (processConnections3 g (st.closed ++ [cur.id]) cur.id
          ⟨st.cameFrom, st.gScore, rest⟩ curNode.connections).cameFrom,
        (processConnections3 g (st.closed ++ [cur.id]) cur.id
          ⟨st.cameFrom, st.gScore, rest⟩ curNode.connections).gScore,
        expl, v⟩ := by
  have hmid := step3_mid_inv hinv hq
  have hcm : cur.id ∈ st.closed ++ [cur.id] :=
    List.mem_append.2 (Or.inr (List.mem_cons_self _ _))
  have hfold := @processConnections3_inv α _ g startId
    (st.closed ++ [cur.id]) cur.id curNode hnm hcm
    curNode.connections ⟨st.cameFrom, st.gScore, rest⟩ (fun _ h => h) hmid.1
  refine ⟨hfold.1, ?_, ?_, ?_⟩
  · simp only []
    rw [List.nodup_append]
    exact ⟨hinv.closedNodup, List.nodup_singleton _,
      by intro a ha hb; simp at hb; subst hb; exact hmid.2 ha⟩
  · intro c hc
    rcases List.mem_append.1 hc with h | h
    · exact hinv.closedInMap c h
    · have h2 : c = cur.id := by simpa using h
      subst h2
      have h3 : (nodeMapLookup g cur.id).isSome := by rw [hnm]; rfl
      exact nodeMapLookup_isSome_iff.1 h3
  · intro c hc
    rcases List.mem_append.1 hc with h | h
    · rcases hinv.closedHasPred c h with h2 | h2
      · exact Or.inl h2
      · exact Or.inr (hfold.2.2 c h2)
    · have h2 : c = cur.id := by simpa using h
      subst h2
      rcases hinv.base.qHasPred cur (by rw [hq]; exact List.mem_cons_self _ _)
        with h2 | h2
      · exact Or.inl h2
      · exact Or.inr (hfold.2.2 _ h2)

theorem run3Loop_found_walk {α : Type} [LinearOrderedCommRing α]
    (hav : Point α → Point α → α) (g : Graph α) (startN endN : GNode α)
    (hnz : ∀ n ∈ g, n.id ≠ 0) (hne : startN.id ≠ endN.id) :
    ∀ (fuel : ℕ) (st : DijkstraState α) (r : SearchResult α),
      Inv3 g startN.id st →
      run3Loop hav g startN endN fuel st = some (Loop3Out.found r) →
      ∃ (ids : List ℕ) (pts : List (Point α)),
        idsToPoints g ids = some pts ∧
        isGraphWalk g (startN.id :: ids) = true ∧
        ids ≠ [] ∧
        ids.getLast? = some endN.id ∧
        r.path = startN.pt :: pts := by
  intro fuel
  induction fuel with
  | zero => intro st r _ h; simp [run3Loop] at h
  | succ f ih =>
    intro st r hinv h
    rw [run3Loop] at h
    rcases hq : st.queue with _ | ⟨cur, rest⟩
    · rw [hq] at h
      simp at h
    rw [hq] at h
    simp only [] at h
    rcases hnm : nodeMapLookup g cur.id with _ | curNode
    · rw [hnm] at h
      exact ih _ r (step3_skip_inv hinv hq _ _) h
    rw [hnm] at h
    dsimp only at h
    by_cases hgoal : cur.id = endN.id
    · rw [if_pos hgoal] at h
      have hne2 : cur.id ≠ startN.id := by rw [hgoal]; exact fun hx => hne hx.symm
      have hjc : cur.id ∈ st.closed ∨ (lookupA st.cameFrom cur.id).isSome := by
        rcases hinv.base.qHasPred cur (by rw [hq]; exact List.mem_cons_self _ _)
          with h2 | h2
        · exact absurd h2 hne2
        · exact Or.inr h2
      have hrank : chainRank st.closed (some cur.id) < g.length + 2 := by
        have ha := chainRank_le st.closed (some cur.id)
        have hb := closed_length_le (g := g) hinv.closedNodup hinv.closedInMap
        omega
      have hwalk := recon3_walk hinv.base.cfClosed hinv.base.cfRank
        hinv.base.cfEdge hinv.closedHasPred hinv.closedInMap hnz
        (g.length + 2) cur.id ([] : List (Point α)) hrank hne2 hjc
        (by rw [hnm]; rfl)
      obtain ⟨ids, pts, hi1, hi2, hine, hilast, hieq⟩ := hwalk
      dsimp only at hieq
      rw [hieq] at h
      simp only [Option.some_inj] at h
      cases h
      have hlen : pts.length = ids.length := idsToPoints_length hi1
      have hplen : ¬((startN.pt :: (pts ++ [])).length < 2) := by
        have hpos : 0 < ids.length := List.length_pos.2 hine
        simp only [List.append_nil, List.length_cons]
        omega
      refine ⟨ids, pts, hi1, hi2, hine, by rw [hilast, hgoal], ?_⟩
      rw [if_neg hplen]
      simp
    · rw [if_neg hgoal] at h
      exact ih _ r (step3_next_inv hinv hq hnm _ _) h

/-! ### The street-graph builder `buildStreetGraph` (graphUtils.js) -/

/-- A raw OpenStreetMap element: a point (`{type:"node", id, lat, lon}`)
or a way (`{type:"way", nodes, tags}`).  Tags are modelled as a
unique-key association list. -/
inductive OsmElement (α : Type) where
  | node (id : ℕ) (lat lon : α)
  | way (nodes : List ℕ) (tags : List (String × String))
deriving DecidableEq, Repr

/-- The one-way check `edge.tags?.oneway === "yes"`. -/
def isOneWay (tags : List (String × String)) : Bool :=
  match tags.find? (fun kv => kv.1 == "oneway") with
  | some kv => kv.2 == "yes"
  | none => false

/-- Assignment `nodes[element.id] = {...}` on a JavaScript object:
replace the value if the key exists, otherwise add the entry.  Keys stay
unique. -/
def insertNode {α : Type} (m : List (ℕ × GNode α)) (i : ℕ) (n : GNode α) :
    List (ℕ × GNode α) :=
  if m.any (fun p => p.1 == i) then
    m.map (fun p => if p.1 == i then (p.1, n) else p)
  else m ++ [(i, n)]

/-- Step 1 of `buildStreetGraph`, the node half: index all point
elements by id, each with an empty `connections` array. -/
def collectNodes {α : Type} (elems : List (OsmElement α)) : List (ℕ × GNode α) :=
  elems.foldl
    (fun m e =>
      match e with
      | OsmElement.node i lat lon => insertNode m i ⟨i, lat, lon, [], none⟩
      | OsmElement.way _ _ => m)
    []

/-- Step 1 of `buildStreetGraph`, the way half: keep way elements with
more than one node id, in order. -/
def collectWays {α : Type} (elems : List (OsmElement α)) :
    List (List ℕ × List (String × String)) :=
  elems.foldl
    (fun ws e =>
      match e with
      | OsmElement.node _ _ _ => ws
      | OsmElement.way nodes tags =>
        if 1 < nodes.length then ws ++ [(nodes, tags)] else ws)
    []

/-- `fromNode.connections.push(conn)`: append a connection to the node
stored under key `i`. -/
def addConnection {α : Type} (m : List (ℕ × GNode α)) (i : ℕ) (c : Connection α) :
    List (ℕ × GNode α) :=
  m.map (fun p =>
    if p.1 == i then (p.1, { p.2 with connections := p.2.connections ++ [c] }) else p)

/-- The inner loop of Step 2 of `buildStreetGraph` for one way: walk the
consecutive pairs of its node ids; when both endpoints are indexed, push
the forward connection (with the `hav` distance of their coordinates)
and, unless the way is one-way, the reverse connection. -/
def addWayPairs {α : Type} (hav : Point α → Point α → α) (oneway : Bool) :
    List ℕ → List (ℕ × GNode α) → List (ℕ × GNode α)
  | u :: v :: rest, m =>
    let m2 :=
      match lookupA m u, lookupA m v with
      | some fromNode, some toNode =>
        let distance := hav ⟨fromNode.lat, fromNode.lng⟩ ⟨toNode.lat, toNode.lng⟩
        let m3 := addConnection m u ⟨toNode.id, distance⟩
        if oneway then m3 else addConnection m3 v ⟨fromNode.id, distance⟩
      | _, _ => m
    addWayPairs hav oneway (v :: rest) m2
  | _, m => m

/-- `Object.values` over an object with integer-like keys: entries in
ascending numeric key order, values only. -/
def objValues {α : Type} (m : List (ℕ × GNode α)) : List (GNode α) :=
  (pqSort (fun p => p.1) m).map Prod.snd

/-- `buildStreetGraph(osmData)` from `graphUtils.js`: index the point
elements, connect consecutive way nodes (both directions unless
one-way), and keep only nodes with at least one connection. -/
def buildStreetGraph {α : Type} [LinearOrderedCommRing α]
    (hav : Point α → Point α → α) (elems : List (OsmElement α)) : Graph α :=
  let nodes0 := collectNodes elems
  let withEdges :=
    (collectWays elems).foldl (fun m w => addWayPairs hav (isOneWay w.2) w.1 m) nodes0
  (objValues withEdges).filter (fun n => 0 < n.connections.length)

/-- The consecutive pair `(u, v)` occurs in the node list of a way. -/
def wayHasPair (w : List ℕ) (u v : ℕ) : Bool :=
  (w.zip w.tail).any (fun p => p.1 == u && p.2 == v)

/-- Cost of a walk given by node ids, using for each hop the first
connection of the source node that reaches the target (as the searches
and the graph data determine it); `none` when a hop has no edge. -/
def walkCost {α : Type} [LinearOrderedCommRing α] (g : Graph α) :
    List ℕ → Option α
  | [] => some 0
  | [_] => some 0
  | u :: v :: rest =>
    match nodeMapLookup g u with
    | some un =>
      match un.connections.find? (fun c => c.nodeId == v) with
      | some c => (walkCost g (v :: rest)).map (fun d => c.distance + d)
      | none => none
    | none => none

/-! ### The polyline codec (geoUtils.js) -/

/-- `Math.round`: nearest integer, halves toward positive infinity. -/
def jsRound {α : Type} [LinearOrderedField α] [FloorRing α] (q : α) : ℤ :=
  ⌊q + 1 / 2⌋

/-- `ToInt32`: reduction into the signed 32-bit range, as applied by
JavaScript bitwise operators. -/
def toInt32 (n : ℤ) : ℤ := (n + 2 ^ 31) % 2 ^ 32 - 2 ^ 31

/-- `ToUint32`: the unsigned 32-bit pattern of an integer. -/
def toUint32 (n : ℤ) : ℕ := (n % 2 ^ 32).toNat

/-- `String.fromCharCode`: code units are taken modulo 2^16. -/
def fromCharCode (n : ℤ) : ℕ := (n % 2 ^ 16).toNat

/-- `x << s` on 32-bit integers (shift counts are taken mod 32). -/
def jsShl32 (x : ℕ) (s : ℕ) : ℤ := toInt32 ((x : ℤ) * 2 ^ (s % 32))

/-- `x | y` on 32-bit integers. -/
def jsOr32 (x y : ℤ) : ℤ := toInt32 ((toUint32 x ||| toUint32 y : ℕ) : ℤ)

/-- `x >> s`: arithmetic right shift on 32-bit integers. -/
def jsShr (x : ℤ) (s : ℕ) : ℤ := Int.fdiv (toInt32 x) (2 ^ s)

/-- `x & 1` on 32-bit integers. -/
def jsAnd1 (x : ℤ) : ℕ := toUint32 x &&& 1

/-- `num = num < 0 ? ~(num << 1) : num << 1` in `encodeNumber`: the
zigzag transform through JavaScript 32-bit shifts. -/
def zigzagJs (num : ℤ) : ℤ :=
  if num < 0 then -(toInt32 (2 * toInt32 num)) - 1 else toInt32 (2 * toInt32 num)

/-- The `while (num >= 0x20)` chunking loop of `encodeNumber` for a
non-negative zigzag value, producing character codes (all of which lie
below 2^16, so `fromCharCode` is the identity on them). -/
def encodeChunks (n : ℕ) : List ℕ :=
  if h : n < 32 then [n + 63]
  else ((32 ||| n % 32) + 63) :: encodeChunks (n / 32)
termination_by n
decreasing_by exact Nat.div_lt_self (by omega) (by norm_num)

/-- `encodeNumber(num)`: zigzag, then base-32 chunks with continuation
bits, each offset by 63.  A zigzag value that overflowed to a negative
32-bit integer skips the loop and emits a single (wrapped) code unit. -/
def encodeNumber (num : ℤ) : List ℕ :=
  let z := zigzagJs num
  if z < 0 then [fromCharCode (z + 63)] else encodeChunks z.toNat

/-- The point loop of `encodePolyline(points)`, carrying the previous
point's exact coordinates for delta encoding. -/
def encodePolylineAux {α : Type} [LinearOrderedField α] [FloorRing α] :
    List (Point α) → α → α → List ℕ
  | [], _, _ => []
  | p :: rest, lat, lng =>
    (encodeNumber (jsRound ((p.lat - lat) * 100000))
      ++ encodeNumber (jsRound ((p.lng - lng) * 100000)))
      ++ encodePolylineAux rest p.lat p.lng

/-- `encodePolyline(points)` from `geoUtils.js`, as a list of character
codes. -/
def encodePolyline {α : Type} [LinearOrderedField α] [FloorRing α]
    (points : List (Point α)) : List ℕ :=
  encodePolylineAux points 0 0

/-- The inner `do ... while (b >= 0x20)` loop of `decodePolyline`:
reads one varint, returning the accumulated 32-bit result and the rest
of the input.  Reading past the end of the string yields `NaN`, whose
`& 0x1f` contributes nothing and which ends the loop; this is the `[]`
case. -/
def decodeVarintAux : List ℕ → ℕ → ℤ → ℤ × List ℕ
  | [], _, acc => (acc, [])
  | c :: rest, shift, acc =>
    let b : ℤ := (c : ℤ) - 63
    let acc2 := jsOr32 acc (jsShl32 (toUint32 b &&& 31) shift)
    if 32 ≤ b then decodeVarintAux rest (shift + 5) acc2 else (acc2, rest)

/-- One zigzag inverse `result & 1 ? ~(result >> 1) : result >> 1`. -/
def unzigzagJs (r : ℤ) : ℤ :=
  if jsAnd1 r = 1 then -(jsShr r 1) - 1 else jsShr r 1

/-- The outer `while (index < encoded.length)` loop of
`decodePolyline`; the fuel is an iteration budget of which each
iteration (which always consumes at least one character) uses one, so
the input length is enough fuel. -/
def decodePolylineAux {α : Type} [LinearOrderedField α] :
    ℕ → List ℕ → ℤ → ℤ → List (Point α) → List (Point α)
  | 0, _, _, _, acc => acc.reverse
  | _ + 1, [], _, _, acc => acc.reverse
  | fuel + 1, c :: rest, lat, lng, acc =>
    let r1 := decodeVarintAux (c :: rest) 0 0
    let lat2 := lat + unzigzagJs r1.1
    let r2 := decodeVarintAux r1.2 0 0
    let lng2 := lng + unzigzagJs r2.1
    decodePolylineAux fuel r2.2 lat2 lng2
      (Point.mk ((lat2 : α) * (1 / 100000)) ((lng2 : α) * (1 / 100000)) :: acc)

/-- `decodePolyline(encoded)` from `geoUtils.js`. -/
def decodePolyline {α : Type} [LinearOrderedField α] (s : List ℕ) : List (Point α) :=
  decodePolylineAux s.length s 0 0 []

theorem lor_mul_two_pow {k a b : ℕ} (h : a < 2 ^ k) :
    a ||| b * 2 ^ k = a + b * 2 ^ k := by
  apply Nat.eq_of_testBit_eq
  intro i
  rw [Nat.testBit_lor, Nat.testBit_to_div_mod, Nat.testBit_to_div_mod,
    Nat.testBit_to_div_mod]
  rcases lt_or_le i k with hik | hik
  · have hsplit : 2 ^ k = 2 ^ i * (2 * 2 ^ (k - i - 1)) := by
      rw [← pow_succ', ← pow_add]
      congr 1
      omega
    have hdiv1 : (a + b * 2 ^ k) / 2 ^ i = a / 2 ^ i + b * (2 * 2 ^ (k - i - 1)) := by
      rw [hsplit, show b * (2 ^ i * (2 * 2 ^ (k - i - 1)))
          = 2 ^ i * (b * (2 * 2 ^ (k - i - 1))) by ring]
      rw [Nat.add_mul_div_left _ _ (Nat.pos_pow_of_pos i (by norm_num))]
    have hdiv2 : b * 2 ^ k / 2 ^ i = b * (2 * 2 ^ (k - i - 1)) := by
      rw [hsplit, show b * (2 ^ i * (2 * 2 ^ (k - i - 1)))
          = 2 ^ i * (b * (2 * 2 ^ (k - i - 1))) by ring]
      rw [Nat.mul_div_cancel_left _ (Nat.pos_pow_of_pos i (by norm_num))]
    rw [hdiv1, hdiv2]
    set m := b * (2 * 2 ^ (k - i - 1))
    have hm : m % 2 = 0 := by
      simp [m, Nat.mul_mod, Nat.mul_mod_left]
    rcases Nat.even_or_odd (a / 2 ^ i) with he | ho
    · simp only [Nat.even_iff] at he
      have h1 : (a / 2 ^ i + m) % 2 = 0 := by omega
      simp [he, h1]
      omega
    · simp only [Nat.odd_iff] at ho
      have h1 : (a / 2 ^ i + m) % 2 = 1 := by omega
      simp [ho, h1]
  · have hj : 2 ^ i = 2 ^ k * 2 ^ (i - k) := by
      rw [← pow_add]
      congr 1
      omega
    have ha0 : a / 2 ^ i = 0 := Nat.div_eq_of_lt (lt_of_lt_of_le h (by
      rw [hj]; exact Nat.le_mul_of_pos_right _ (Nat.pos_pow_of_pos _ (by norm_num))))
    have hd1 : (a + b * 2 ^ k) / 2 ^ i = b / 2 ^ (i - k) := by
      rw [hj, ← Nat.div_div_eq_div_mul]
      congr 1
      rw [show a + b * 2 ^ k = a + 2 ^ k * b by ring]
      rw [Nat.add_mul_div_left _ _ (Nat.pos_pow_of_pos k (by norm_num))]
      rw [Nat.div_eq_of_lt h]
      omega
    have hd2 : b * 2 ^ k / 2 ^ i = b / 2 ^ (i - k) := by
      rw [hj, ← Nat.div_div_eq_div_mul]
      congr 1
      rw [show b * 2 ^ k = 2 ^ k * b by ring]
      rw [Nat.mul_div_cancel_left _ (Nat.pos_pow_of_pos k (by norm_num))]
    rw [hd1, hd2, ha0]
    simp

theorem toInt32_of_range {n : ℤ} (h0 : 0 ≤ n) (h1 : n < 2 ^ 31) : toInt32 n = n := by
  unfold toInt32
  have h2 : (2 : ℤ) ^ 31 = 2147483648 := by norm_num
  have h3 : (2 : ℤ) ^ 32 = 4294967296 := by norm_num
  rw [h2, h3] at *
  omega

theorem toUint32_of_range {n : ℤ} (h0 : 0 ≤ n) (h1 : n < 2 ^ 32) :
    (toUint32 n : ℤ) = n := by
  unfold toUint32
  have h3 : (2 : ℤ) ^ 32 = 4294967296 := by norm_num
  rw [h3] at *
  omega

theorem and_31_eq_mod (x : ℕ) : x &&& 31 = x % 32 := by
  have h : (31 : ℕ) = 2 ^ 5 - 1 := by norm_num
  rw [h, Nat.and_pow_two_sub_one_eq_mod]

theorem cast_toUint32 (m : ℕ) (h : m < 2 ^ 32) : toUint32 (m : ℤ) = m := by
  have h2 : ((toUint32 (m : ℤ)) : ℤ) = (m : ℤ) :=
    toUint32_of_range (by positivity) (by exact_mod_cast h)
  exact_mod_cast h2

theorem cast_toInt32 (m : ℕ) (h : m < 2 ^ 31) : toInt32 (m : ℤ) = (m : ℤ) :=
  toInt32_of_range (by positivity) (by exact_mod_cast h)

theorem jsOr32_nat (x y : ℕ) (hx : x < 2 ^ 32) (hy : y < 2 ^ 32)
    (hor : x ||| y < 2 ^ 31) : jsOr32 (x : ℤ) (y : ℤ) = ((x ||| y : ℕ) : ℤ) := by
  unfold jsOr32
  rw [cast_toUint32 x hx, cast_toUint32 y hy]
  exact cast_toInt32 _ hor

theorem jsShl32_nat (x s : ℕ) (hs : s < 32) (h : x * 2 ^ s < 2 ^ 31) :
    jsShl32 x s = ((x * 2 ^ s : ℕ) : ℤ) := by
  unfold jsShl32
  rw [Nat.mod_eq_of_lt hs]
  have h2 : ((x : ℤ) * 2 ^ s) = ((x * 2 ^ s : ℕ) : ℤ) := by push_cast; ring
  rw [h2]
  exact cast_toInt32 _ h

theorem pow31_lt_pow32 : (2 : ℕ) ^ 31 < 2 ^ 32 := by norm_num

theorem decodeVarint_encodeChunks :
    ∀ (z shift acc : ℕ) (rest : List ℕ),
      z < 2 ^ (31 - shift) → shift ≤ 30 → acc < 2 ^ shift →
      decodeVarintAux (encodeChunks z ++ rest) shift (acc : ℤ)
        = (((acc + z * 2 ^ shift : ℕ) : ℤ), rest) := by
  intro z
  induction z using Nat.strong_induction_on with
  | _ z ih =>
    intro shift acc rest hz hs hacc
    have hp : 0 < (2 : ℕ) ^ shift := Nat.pos_pow_of_pos _ (by norm_num)
    have hzshift : z * 2 ^ shift + 2 ^ shift ≤ 2 ^ 31 := by
      have h1 : (z + 1) * 2 ^ shift ≤ 2 ^ (31 - shift) * 2 ^ shift :=
        Nat.mul_le_mul_right _ hz
      have h2 : (2 : ℕ) ^ (31 - shift) * 2 ^ shift = 2 ^ 31 := by
        rw [← pow_add]
        congr 1
        omega
      calc z * 2 ^ shift + 2 ^ shift = (z + 1) * 2 ^ shift := by ring
        _ ≤ 2 ^ (31 - shift) * 2 ^ shift := h1
        _ = 2 ^ 31 := h2
    have hmul31 : z * 2 ^ shift < 2 ^ 31 :=
      lt_of_lt_of_le (Nat.lt_add_of_pos_right hp) hzshift
    have hacc31 : acc + z * 2 ^ shift < 2 ^ 31 := by
      have h1 : acc + z * 2 ^ shift < 2 ^ shift + z * 2 ^ shift :=
        Nat.add_lt_add_right hacc _
      have h2 : 2 ^ shift + z * 2 ^ shift = z * 2 ^ shift + 2 ^ shift := by ring
      omega
    rw [encodeChunks]
    by_cases h32 : z < 32
    · rw [dif_pos h32]
      show decodeVarintAux ((z + 63) :: rest) shift (acc : ℤ) = _
      rw [decodeVarintAux]
      have hb : ((z + 63 : ℕ) : ℤ) - 63 = ((z : ℕ) : ℤ) := by push_cast; ring
      rw [hb]
      rw [cast_toUint32 z (by omega), and_31_eq_mod, Nat.mod_eq_of_lt h32]
      rw [jsShl32_nat z shift (by omega) hmul31]
      rw [jsOr32_nat acc (z * 2 ^ shift)
        (lt_trans (lt_of_lt_of_le hacc (Nat.pow_le_pow_right (by norm_num) (by omega)))
          pow31_lt_pow32)
        (lt_trans hmul31 pow31_lt_pow32)
        (by rw [lor_mul_two_pow hacc]; exact hacc31)]
      rw [lor_mul_two_pow hacc]
      rw [if_neg (by omega)]
    · rw [dif_neg h32]
      show decodeVarintAux (((32 ||| z % 32) + 63) :: (encodeChunks (z / 32) ++ rest))
        shift (acc : ℤ) = _
      rw [decodeVarintAux]
      have hmod : (32 : ℕ) ||| z % 32 = z % 32 + 32 := by
        rw [Nat.lor_comm]
        have h5 := lor_mul_two_pow (k := 5) (a := z % 32) (b := 1) (by omega)
        simpa using h5
      rw [hmod]
      have hb : (((z % 32 + 32) + 63 : ℕ) : ℤ) - 63 = ((z % 32 + 32 : ℕ) : ℤ) := by
        push_cast; ring
      rw [hb]
      rw [cast_toUint32 (z % 32 + 32) (by omega), and_31_eq_mod]
      rw [(by omega : (z % 32 + 32) % 32 = z % 32)]
      have hle : z % 32 * 2 ^ shift ≤ z * 2 ^ shift :=
        Nat.mul_le_mul_right _ (Nat.mod_le _ _)
      have hmul31m : z % 32 * 2 ^ shift < 2 ^ 31 := lt_of_le_of_lt hle hmul31
      have haccm : acc + z % 32 * 2 ^ shift < 2 ^ 31 := by omega
      rw [jsShl32_nat (z % 32) shift (by omega) hmul31m]
      rw [jsOr32_nat acc (z % 32 * 2 ^ shift)
        (lt_trans (lt_of_lt_of_le hacc (Nat.pow_le_pow_right (by norm_num) (by omega)))
          pow31_lt_pow32)
        (lt_trans hmul31m pow31_lt_pow32)
        (by rw [lor_mul_two_pow hacc]; exact haccm)]
      rw [lor_mul_two_pow hacc]
      rw [if_pos (by push_cast; omega)]
      have hs6 : 6 ≤ 31 - shift := by
        by_contra hcon
        have h1 : 31 - shift ≤ 5 := by omega
        have h2 : (2 : ℕ) ^ (31 - shift) ≤ 2 ^ 5 :=
          Nat.pow_le_pow_right (by norm_num) h1
        omega
      have hdiv : z / 32 < 2 ^ (31 - (shift + 5)) := by
        rw [Nat.div_lt_iff_lt_mul (by norm_num : (0 : ℕ) < 32)]
        have h2 : (2 : ℕ) ^ (31 - (shift + 5)) * 32 = 2 ^ (31 - shift) := by
          rw [(by norm_num : (32 : ℕ) = 2 ^ 5), ← pow_add]
          congr 1
          omega
        rw [h2]
        exact hz
      have haccnew : acc + z % 32 * 2 ^ shift < 2 ^ (shift + 5) := by
        have h1 : z % 32 ≤ 31 := by omega
        have h2 : z % 32 * 2 ^ shift ≤ 31 * 2 ^ shift :=
          Nat.mul_le_mul_right _ h1
        have h3 : acc + z % 32 * 2 ^ shift < 2 ^ shift + 31 * 2 ^ shift := by omega
        have h4 : (2 : ℕ) ^ shift + 31 * 2 ^ shift = 2 ^ (shift + 5) := by
          rw [pow_add]
          ring
        omega
      have hrec := ih (z / 32) (Nat.div_lt_self (by omega) (by norm_num))
        (shift + 5) (acc + z % 32 * 2 ^ shift) rest hdiv (by omega) haccnew
      rw [hrec]
      congr 2
      have hzd : z % 32 + 32 * (z / 32) = z := by omega
      have h5 : (2 : ℕ) ^ (shift + 5) = 2 ^ shift * 32 := by
        rw [pow_add]
        norm_num
      rw [h5]
      calc acc + z % 32 * 2 ^ shift + z / 32 * (2 ^ shift * 32)
          = acc + (z % 32 + 32 * (z / 32)) * 2 ^ shift := by ring
        _ = acc + z * 2 ^ shift := by rw [hzd]

theorem toInt32_of_range2 {n : ℤ} (h0 : -2 ^ 31 ≤ n) (h1 : n < 2 ^ 31) :
    toInt32 n = n := by
  unfold toInt32
  have h2 : (2 : ℤ) ^ 31 = 2147483648 := by norm_num
  have h3 : (2 : ℤ) ^ 32 = 4294967296 := by norm_num
  rw [h2, h3]
  rw [h2] at h0 h1
  omega

theorem zigzagJs_eq (d : ℤ) (h1 : -2 ^ 30 ≤ d) (h2 : d < 2 ^ 30) :
    zigzagJs d = if d < 0 then -2 * d - 1 else 2 * d := by
  have hlo : -2 ^ 31 ≤ d := le_trans (by norm_num) h1
  have hhi : d < 2 ^ 31 := lt_of_lt_of_le h2 (by norm_num)
  have hd : toInt32 d = d := toInt32_of_range2 hlo hhi
  have hd2 : toInt32 (2 * d) = 2 * d := by
    apply toInt32_of_range2
    · have h3 : -(2 : ℤ) ^ 31 = 2 * (-2 ^ 30 : ℤ) := by norm_num
      rw [h3]
      exact mul_le_mul_of_nonneg_left h1 (by norm_num)
    · have h3 : (2 : ℤ) ^ 31 = 2 * 2 ^ 30 := by norm_num
      rw [h3]
      exact mul_lt_mul_of_pos_left h2 (by norm_num)
  unfold zigzagJs
  rw [hd, hd2]
  split
  · ring
  · rfl

theorem unzigzag_zigzag (d : ℤ) (h1 : -2 ^ 30 ≤ d) (h2 : d < 2 ^ 30) :
    unzigzagJs (zigzagJs d) = d := by
  have hz := zigzagJs_eq d h1 h2
  have hznn : 0 ≤ zigzagJs d := by rw [hz]; split <;> omega
  have hzlt : zigzagJs d < 2 ^ 31 := by
    rw [hz]
    have h30 : (2 : ℤ) ^ 30 = 1073741824 := by norm_num
    have h31 : (2 : ℤ) ^ 31 = 2147483648 := by norm_num
    rw [h31]
    rw [h30] at h1 h2
    split <;> omega
  have hu : (toUint32 (zigzagJs d) : ℤ) = zigzagJs d :=
    toUint32_of_range hznn (lt_trans hzlt (by norm_num))
  have ht : toInt32 (zigzagJs d) = zigzagJs d := toInt32_of_range hznn hzlt
  unfold unzigzagJs jsAnd1 jsShr
  rw [ht, Nat.and_one_is_mod]
  rw [Int.fdiv_eq_ediv _ (by norm_num)]
  by_cases hd : d < 0
  · rw [if_pos hd] at hz
    rw [if_pos (by omega)]
    omega
  · rw [if_neg hd] at hz
    rw [if_neg (by omega)]
    omega

theorem decode_encodeNumber (d : ℤ) (rest : List ℕ)
    (h1 : -2 ^ 30 ≤ d) (h2 : d < 2 ^ 30) :
    decodeVarintAux (encodeNumber d ++ rest) 0 0 = (zigzagJs d, rest) := by
  have hz := zigzagJs_eq d h1 h2
  have hznn : 0 ≤ zigzagJs d := by rw [hz]; split <;> omega
  have hzlt : zigzagJs d < 2 ^ 31 := by
    rw [hz]
    have h30 : (2 : ℤ) ^ 30 = 1073741824 := by norm_num
    have h31 : (2 : ℤ) ^ 31 = 2147483648 := by norm_num
    rw [h31]
    rw [h30] at h1 h2
    split <;> omega
  have henc : encodeNumber d = encodeChunks (zigzagJs d).toNat := by
    unfold encodeNumber
    rw [if_neg (not_lt.2 hznn)]
  have hnat : ((zigzagJs d).toNat : ℤ) = zigzagJs d := Int.toNat_of_nonneg hznn
  have hzn : (zigzagJs d).toNat < 2 ^ (31 - 0) := by
    have h31 : (2 : ℤ) ^ 31 = 2147483648 := by norm_num
    rw [h31] at hzlt
    have h310 : (31 - 0) = 31 := rfl
    rw [h310]
    have h31n : (2 : ℕ) ^ 31 = 2147483648 := by norm_num
    rw [h31n]
    omega
  have hmain := decodeVarint_encodeChunks (zigzagJs d).toNat 0 0 rest hzn
    (by norm_num) (by norm_num)
  rw [henc]
  simpa [hnat] using hmain

theorem encodeChunks_ne_nil (n : ℕ) : encodeChunks n ≠ [] := by
  rw [encodeChunks]
  split <;> simp

theorem encodeNumber_ne_nil (d : ℤ) : encodeNumber d ≠ [] := by
  unfold encodeNumber
  dsimp only
  split
  · simp
  · exact encodeChunks_ne_nil _

theorem length_le_encodePolylineAux {α : Type} [LinearOrderedField α] [FloorRing α]
    (pts : List (Point α)) : ∀ lat lng : α,
    pts.length ≤ (encodePolylineAux pts lat lng).length := by
  induction pts with
  | nil =>
    intro lat lng
    simp [encodePolylineAux]
  | cons p rest ih =>
    intro lat lng
    rw [encodePolylineAux]
    simp only [List.length_append, List.length_cons]
    have h1 : 0 < (encodeNumber (jsRound ((p.lat - lat) * 100000))).length :=
      List.length_pos.2 (encodeNumber_ne_nil _)
    have h2 := ih p.lat p.lng
    omega

theorem jsRound_intCast {α : Type} [LinearOrderedField α] [FloorRing α] (n : ℤ) :
    jsRound ((n : α)) = n := by
  unfold jsRound
  rw [add_comm, Int.floor_add_int]
  have hhalf : ⌊(1 / 2 : α)⌋ = 0 := by
    rw [Int.floor_eq_zero_iff]
    constructor
    · norm_num
    · norm_num
  rw [hhalf, zero_add]

theorem decode_encode_aux {α : Type} [LinearOrderedField α] [FloorRing α] :
    ∀ (pts : List (Point α)) (fuel : ℕ) (plat plng : ℤ) (acc : List (Point α)),
      pts.length ≤ fuel →
      -2 ^ 29 ≤ plat → plat < 2 ^ 29 → -2 ^ 29 ≤ plng → plng < 2 ^ 29 →
      (∀ p ∈ pts, ∃ a b : ℤ, p.lat = (a : α) / 100000 ∧ p.lng = (b : α) / 100000 ∧
        -2 ^ 29 ≤ a ∧ a < 2 ^ 29 ∧ -2 ^ 29 ≤ b ∧ b < 2 ^ 29) →
      decodePolylineAux fuel
        (encodePolylineAux pts ((plat : α) / 100000) ((plng : α) / 100000))
        plat plng acc
        = acc.reverse ++ pts := by
  intro pts
  induction pts with
  | nil =>
    intro fuel plat plng acc hfuel hp1 hp2 hq1 hq2 hcoords
    rw [encodePolylineAux]
    cases fuel <;> simp [decodePolylineAux]
  | cons p rest ih =>
    intro fuel plat plng acc hfuel hp1 hp2 hq1 hq2 hcoords
    obtain ⟨a, b, hpa, hpb, ha1, ha2, hb1, hb2⟩ := hcoords p (by simp)
    obtain ⟨f, rfl⟩ : ∃ f, fuel = f + 1 := by
      cases fuel with
      | zero => simp at hfuel
      | succ f => exact ⟨f, rfl⟩
    have hlat : (p.lat - (plat : α) / 100000) * 100000 = ((a - plat : ℤ) : α) := by
      rw [hpa]
      push_cast
      field_simp
    have hlng : (p.lng - (plng : α) / 100000) * 100000 = ((b - plng : ℤ) : α) := by
      rw [hpb]
      push_cast
      field_simp
    have hdlat : jsRound ((p.lat - (plat : α) / 100000) * 100000) = a - plat := by
      rw [hlat, jsRound_intCast]
    have hdlng : jsRound ((p.lng - (plng : α) / 100000) * 100000) = b - plng := by
      rw [hlng, jsRound_intCast]
    have hba1 : -2 ^ 30 ≤ a - plat := by
      have e1 : -(2 : ℤ) ^ 30 = -2 ^ 29 - 2 ^ 29 := by norm_num
      rw [e1]
      omega
    have hba2 : a - plat < 2 ^ 30 := by
      have e1 : (2 : ℤ) ^ 30 = 2 ^ 29 + 2 ^ 29 := by norm_num
      rw [e1]
      omega
    have hbb1 : -2 ^ 30 ≤ b - plng := by
      have e1 : -(2 : ℤ) ^ 30 = -2 ^ 29 - 2 ^ 29 := by norm_num
      rw [e1]
      omega
    have hbb2 : b - plng < 2 ^ 30 := by
      have e1 : (2 : ℤ) ^ 30 = 2 ^ 29 + 2 ^ 29 := by norm_num
      rw [e1]
      omega
    rw [encodePolylineAux, hdlat, hdlng]
    obtain ⟨c, t, hct⟩ : ∃ c t, encodeNumber (a - plat) = c :: t := by
      cases h : encodeNumber (a - plat) with
      | nil => exact absurd h (encodeNumber_ne_nil _)
      | cons c t => exact ⟨c, t, rfl⟩
    rw [hct]
    simp only [List.cons_append, List.append_assoc]
    rw [decodePolylineAux]
    have hv1 : decodeVarintAux
        (c :: (t ++ (encodeNumber (b - plng) ++
          encodePolylineAux rest p.lat p.lng))) 0 0
        = (zigzagJs (a - plat),
           encodeNumber (b - plng) ++ encodePolylineAux rest p.lat p.lng) := by
      rw [← List.cons_append, ← hct]
      exact decode_encodeNumber (a - plat) _ hba1 hba2
    rw [hv1]
    dsimp only
    rw [decode_encodeNumber (b - plng) _ hbb1 hbb2]
    dsimp only
    rw [unzigzag_zigzag (a - plat) hba1 hba2, unzigzag_zigzag (b - plng) hbb1 hbb2]
    have hea : plat + (a - plat) = a := by ring
    have heb : plng + (b - plng) = b := by ring
    rw [hea, heb, hpa, hpb]
    rw [ih f a b _ (by simpa using hfuel) ha1 ha2 hb1 hb2
      (fun q hq => hcoords q (by simp [hq]))]
    have hpt : (Point.mk ((a : α) * (1 / 100000)) ((b : α) * (1 / 100000)) : Point α)
        = p := by
      cases p with
      | mk x y =>
        simp only at hpa hpb
        simp only [Point.mk.injEq]
        constructor
        · rw [hpa]; ring
        · rw [hpb]; ring
    rw [hpt]
    simp

theorem decodePolyline_encodePolyline {α : Type} [LinearOrderedField α] [FloorRing α]
    (pts : List (Point α))
    (h : ∀ p ∈ pts, ∃ a b : ℤ, p.lat = (a : α) / 100000 ∧ p.lng = (b : α) / 100000 ∧
      -2 ^ 29 ≤ a ∧ a < 2 ^ 29 ∧ -2 ^ 29 ≤ b ∧ b < 2 ^ 29) :
    decodePolyline (encodePolyline pts) = pts := by
  have h0 : (((0 : ℤ) : α) / 100000) = (0 : α) := by norm_num
  have hmain := decode_encode_aux pts
    (encodePolylineAux pts (0 : α) (0 : α)).length 0 0 []
    (by exact length_le_encodePolylineAux pts 0 0)
    (by norm_num) (by norm_num) (by norm_num) (by norm_num) h
  rw [h0] at hmain
  unfold decodePolyline encodePolyline
  simpa using hmain

theorem encodeNumber_zero : encodeNumber 0 = [63] := by
  have hz : zigzagJs 0 = 0 := by decide
  unfold encodeNumber
  dsimp only
  rw [hz]
  rw [if_neg (by norm_num)]
  rw [show ((0 : ℤ).toNat) = 0 from rfl]
  rw [encodeChunks]
  rw [dif_pos (by norm_num)]

theorem encodeNumber_big : encodeNumber 1073741824 = [63] := by decide

theorem cex8_encode :
    encodePolyline ([⟨1073741824 / 100000, 0⟩] : List (Point ℚ)) = [63, 63] := by
  unfold encodePolyline
  simp only [encodePolylineAux]
  have h1 : ((1073741824 / 100000 : ℚ) - 0) * 100000 = ((1073741824 : ℤ) : ℚ) := by
    push_cast
    norm_num
  have h2 : ((0 : ℚ) - 0) * 100000 = ((0 : ℤ) : ℚ) := by
    push_cast
    norm_num
  rw [h1, h2, jsRound_intCast, jsRound_intCast, encodeNumber_big, encodeNumber_zero]
  rfl

theorem cex8_decode :
    decodePolyline ([63, 63] : List ℕ) = ([⟨0, 0⟩] : List (Point ℚ)) := by
  have hv1 : decodeVarintAux [63, 63] 0 0 = (0, [63]) := by decide
  have hv2 : decodeVarintAux [63] 0 0 = (0, []) := by decide
  have hu : unzigzagJs 0 = 0 := by decide
  unfold decodePolyline
  rw [show ([63, 63] : List ℕ).length = 1 + 1 from rfl]
  rw [decodePolylineAux]
  simp only [hv1, hv2, hu]
  rw [show (1 : ℕ) = 0 + 1 from rfl]
  rw [decodePolylineAux]
  simp only [List.reverse_cons, List.reverse_nil, List.nil_append]
  norm_num

/-! ### The heuristic library (`heuristics` in graphUtils.js)

Each heuristic takes the current node and the goal node, either of
which may be `null`/`undefined` (modelled by `Option`).  A JavaScript
number result is either finite or `Infinity` (`JSNum.inf`).  The
floating-point haversine distance is an uninterpreted parameter `hav`,
and `manhattan`'s `Math.cos`/`Math.PI` are the parameters `cosf` and
`piv`. -/

/-- A JavaScript number that is either finite or `Infinity`. -/
inductive JSNum (α : Type) where
  | val (x : α)
  | inf
deriving DecidableEq, Repr

/-- Assoc-list lookup for string-keyed JavaScript objects. -/
def lookupS {β : Type} (m : List (String × β)) (k : String) : Option β :=
  (m.find? (fun p => p.1 == k)).map (fun p => p.2)

/-- `heuristics.haversine`. -/
def haversineH {α : Type} [LinearOrderedField α] (hav : Point α → Point α → α) :
    Option (GNode α) → Option (GNode α) → JSNum α
  | some a, some b => JSNum.val (hav a.pt b.pt)
  | _, _ => JSNum.inf

/-- `heuristics.manhattan`. -/
def manhattanH {α : Type} [LinearOrderedField α] (cosf : α → α) (piv : α) :
    Option (GNode α) → Option (GNode α) → JSNum α
  | some a, some b =>
    JSNum.val (|a.lat - b.lat| * 111000
      + |a.lng - b.lng| * 111000 * cosf ((a.lat + b.lat) * piv / 360))
  | _, _ => JSNum.inf

/-- `heuristics.dijkstra`: ignores its arguments entirely and returns 0. -/
def dijkstraH {α : Type} [LinearOrderedField α] :
    Option (GNode α) → Option (GNode α) → JSNum α :=
  fun _ _ => JSNum.val 0

/-- `heuristics.weighted`. -/
def weightedH {α : Type} [LinearOrderedField α] (hav : Point α → Point α → α) :
    Option (GNode α) → Option (GNode α) → JSNum α
  | some a, some b =>
    let distance := hav a.pt b.pt
    let latDiff := |a.lat - b.lat|
    let lngDiff := |a.lng - b.lng|
    if latDiff * 2 < lngDiff then JSNum.val (distance * (12 / 10))
    else JSNum.val distance
  | _, _ => JSNum.inf

/-- `heuristics.timeBased`. -/
def timeBasedH {α : Type} [LinearOrderedField α] (hav : Point α → Point α → α) :
    Option (GNode α) → Option (GNode α) → JSNum α
  | some a, some b =>
    let distance := hav a.pt b.pt
    match a.tags with
    | some tags =>
      if lookupS tags "highway" = some "motorway"
          ∨ lookupS tags "highway" = some "trunk" then
        JSNum.val (distance / (60 * 1000 / 3600))
      else if lookupS tags "highway" = some "residential"
          ∨ lookupS tags "highway" = some "living_street" then
        JSNum.val (distance / (20 * 1000 / 3600))
      else JSNum.val (distance / (30 * 1000 / 3600))
    | none => JSNum.val (distance / (30 * 1000 / 3600))
  | _, _ => JSNum.inf

/-- The `SEATTLE_LANDMARKS` constant of thirdRouting.js. -/
structure Landmark (α : Type) where
  id : String
  lat : α
  lng : α

def SEATTLE_LANDMARKS {α : Type} [LinearOrderedField α] : List (Landmark α) :=
  [⟨"downtown", 476062 / 10000, -1223321 / 10000⟩,
   ⟨"uw", 476553 / 10000, -1223035 / 10000⟩,
   ⟨"spaceneedle", 476205 / 10000, -1223493 / 10000⟩,
   ⟨"pikeplace", 476097 / 10000, -122342 / 1000⟩]

/-- `heuristics.landmark`, with the `landmarkDistances` module cache
passed explicitly; a lookup of a key missing from the cache yields
`NaN` in JavaScript, whose comparison against `maxEstimate` is false,
so the estimate is skipped (the `none` case of the inner match). -/
def landmarkH {α : Type} [LinearOrderedField α] (hav : Point α → Point α → α)
    (cache : List (String × α)) :
    Option (GNode α) → Option (GNode α) → JSNum α × List (String × α)
  | some a, some b =>
    let cache2 := if cache.length = 0 then
        SEATTLE_LANDMARKS.map (fun lm =>
          (lm.id, hav (Point.mk lm.lat lm.lng) (Point.mk b.lat b.lng)))
      else cache
    let directDistance := hav a.pt b.pt
    let maxEstimate := SEATTLE_LANDMARKS.foldl (fun m lm =>
      let distToLandmark := hav (Point.mk a.lat a.lng) (Point.mk lm.lat lm.lng)
      match lookupS cache2 lm.id with
      | some v => if m < |v - distToLandmark| then |v - distToLandmark| else m
      | none => m) directDistance
    (JSNum.val maxEstimate, cache2)
  | _, _ => (JSNum.inf, cache)

/-- `heuristics.elevation`. -/
def elevationH {α : Type} [LinearOrderedField α] (hav : Point α → Point α → α) :
    Option (GNode α) → Option (GNode α) → JSNum α
  | some a, some b =>
    let baseDistance := hav a.pt b.pt
    let elevationDiff := (b.lat - a.lat) * 1000
    if 0 < elevationDiff then JSNum.val (baseDistance * (1 + elevationDiff / 1000))
    else JSNum.val baseDistance
  | _, _ => JSNum.inf

theorem heuristics_null_inf {α : Type} [LinearOrderedField α]
    (hav : Point α → Point α → α) (cosf : α → α) (piv : α)
    (cache : List (String × α)) (x y : Option (GNode α))
    (h : x = none ∨ y = none) :
    haversineH hav x y = JSNum.inf ∧
    manhattanH cosf piv x y = JSNum.inf ∧
    weightedH hav x y = JSNum.inf ∧
    timeBasedH hav x y = JSNum.inf ∧
    (landmarkH hav cache x y).1 = JSNum.inf ∧
    elevationH hav x y = JSNum.inf := by
  rcases h with h | h <;> subst h
  · cases y <;>
      exact ⟨rfl, rfl, rfl, rfl, rfl, rfl⟩
  · cases x <;>
      exact ⟨rfl, rfl, rfl, rfl, rfl, rfl⟩

/-! ### The Seattle graph cache (graphCache.js)

The module state is the pair of `cachedGraph` and `isLoading` (the
`loadPromise` variable is only ever awaited while `isLoading` is true,
so it needs no separate field).  A call of `getSeattleGraph` either
returns the cached graph, joins the in-flight load, or starts a fetch;
the settling of a started fetch is the separate event `fetchResolves`
(`none` models a rejected fetch or a response without `elements`). -/

structure CacheState (α : Type) where
  cachedGraph : Option (Graph α)
  isLoading : Bool
deriving DecidableEq, Repr

/-- What a single `getSeattleGraph` call does before any `await`. -/
inductive CallResult (α : Type) where
  | cached (g : Graph α)
  | awaitInFlight
  | startedFetch
deriving DecidableEq, Repr

/-- The synchronous part of `getSeattleGraph`. -/
def getSeattleGraphStep {α : Type} (s : CacheState α) :
    CallResult α × CacheState α :=
  match s.cachedGraph with
  | some g => (CallResult.cached g, s)
  | none =>
    if s.isLoading then (CallResult.awaitInFlight, s)
    else (CallResult.startedFetch, { cachedGraph := none, isLoading := true })

/-- The `.then`/`.catch` continuation of the started fetch: data that is
missing, without elements, or with fewer than 20 elements throws (the
`.catch` clears `isLoading` and re-raises, leaving `cachedGraph`
alone); otherwise the built graph is cached. -/
def fetchResolves {α : Type} [LinearOrderedCommRing α]
    (hav : Point α → Point α → α) (s : CacheState α)
    (streetData : Option (List (OsmElement α))) : CacheState α :=
  match streetData with
  | none => { cachedGraph := s.cachedGraph, isLoading := false }
  | some elems =>
    if elems.length < 20 then { cachedGraph := s.cachedGraph, isLoading := false }
    else { cachedGraph := some (buildStreetGraph hav elems), isLoading := false }

/-- `clearCache()`. -/
def clearCache {α : Type} : CacheState α :=
  { cachedGraph := none, isLoading := false }

/-- Iterated `getSeattleGraph` calls (the only events possible while no
fetch is in flight). -/
def cacheCalls {α : Type} (s : CacheState α) : ℕ → CacheState α
  | 0 => s
  | n + 1 => cacheCalls (getSeattleGraphStep s).2 n

theorem getSeattleGraphStep_cached {α : Type} (s : CacheState α) (g : Graph α)
    (h : s.cachedGraph = some g) :
    getSeattleGraphStep s = (CallResult.cached g, s) := by
  unfold getSeattleGraphStep
  rw [h]

theorem cacheCalls_cached {α : Type} (s : CacheState α) (g : Graph α)
    (h : s.cachedGraph = some g) : ∀ n, cacheCalls s n = s := by
  intro n
  induction n with
  | zero => rfl
  | succ k ih =>
    show cacheCalls (getSeattleGraphStep s).2 k = s
    rw [getSeattleGraphStep_cached s g h]
    exact ih

theorem retry_after_failure {α : Type} [LinearOrderedCommRing α]
    (hav : Point α → Point α → α) (s : CacheState α)
    (streetData : Option (List (OsmElement α)))
    (hstart : (getSeattleGraphStep s).1 = CallResult.startedFetch)
    (hbad : streetData = none ∨ ∃ elems, streetData = some elems ∧ elems.length < 20) :
    (getSeattleGraphStep
      (fetchResolves hav (getSeattleGraphStep s).2 streetData)).1
      = CallResult.startedFetch := by
  have hnone : s.cachedGraph = none := by
    rcases hc : s.cachedGraph with _ | g
    · rfl
    · rw [getSeattleGraphStep_cached s g hc] at hstart
      exact absurd hstart (by simp)
  have hnl : s.isLoading = false := by
    rcases hl : s.isLoading
    · rfl
    · unfold getSeattleGraphStep at hstart
      rw [hnone] at hstart
      dsimp only at hstart
      rw [if_pos hl] at hstart
      exact absurd hstart (by simp)
  have hs2 : (getSeattleGraphStep s).2
      = ({ cachedGraph := none, isLoading := true } : CacheState α) := by
    unfold getSeattleGraphStep
    rw [hnone]
    dsimp only
    rw [if_neg (by rw [hnl]; simp)]
  rw [hs2]
  rcases hbad with hb | ⟨elems, hb, hlen⟩ <;> subst hb
  · rfl
  · unfold fetchResolves
    dsimp only
    rw [if_pos hlen]
    rfl

/-! ### Properties of the street-graph builder (for the edge claims) -/

theorem lookupA_mem_key {β : Type} (m : List (ℕ × β)) (u : ℕ) (n : β)
    (h : lookupA m u = some n) : (u, n) ∈ m := by
  unfold lookupA at h
  rcases ho : m.find? (fun p => p.1 == u) with _ | pr
  · rw [ho] at h
    simp at h
  · rw [ho] at h
    simp only [Option.map_some', Option.some.injEq] at h
    have hmem := List.mem_of_find?_eq_some ho
    have hkey := List.find?_some ho
    simp only [beq_iff_eq] at hkey
    rcases pr with ⟨k, val⟩
    simp only at hkey h
    rw [← h, ← hkey]
    exact hmem

/-- Every entry of the node index carries its key as `id`. -/
def idKeys {α : Type} (m : List (ℕ × GNode α)) : Prop :=
  ∀ p ∈ m, (p : ℕ × GNode α).2.id = p.1

theorem idKeys_insertNode {α : Type} (m : List (ℕ × GNode α)) (i : ℕ)
    (nn : GNode α) (hm : idKeys m) (hnn : nn.id = i) :
    idKeys (insertNode m i nn) := by
  intro p hp
  unfold insertNode at hp
  split at hp
  · rcases List.mem_map.1 hp with ⟨q, hq, hpq⟩
    by_cases hqi : q.1 = i
    · rw [if_pos (by simpa using hqi)] at hpq
      rw [← hpq]
      simpa [hqi] using hnn
    · rw [if_neg (by simpa using hqi)] at hpq
      rw [← hpq]
      exact hm q hq
  · rcases List.mem_append.1 hp with hq | hq
    · exact hm p hq
    · simp at hq
      rw [hq]
      simpa using hnn

theorem idKeys_collectNodes {α : Type} (elems : List (OsmElement α)) :
    idKeys (collectNodes elems) := by
  unfold collectNodes
  suffices h : ∀ (l : List (OsmElement α)) (m : List (ℕ × GNode α)), idKeys m →
      idKeys (l.foldl (fun m e =>
        match e with
        | OsmElement.node i lat lon => insertNode m i ⟨i, lat, lon, [], none⟩
        | OsmElement.way _ _ => m) m) by
    exact h elems [] (by intro p hp; simp at hp)
  intro l
  induction l with
  | nil => intro m hm; exact hm
  | cons e rest ih =>
    intro m hm
    rcases e with ⟨i, lat, lon⟩ | ⟨nodes, tags⟩
    · exact ih _ (idKeys_insertNode m i _ hm rfl)
    · exact ih _ hm

theorem addConnection_mem {α : Type} (m : List (ℕ × GNode α)) (i : ℕ)
    (c : Connection α) (p : ℕ × GNode α) (hp : p ∈ addConnection m i c) :
    ∃ q ∈ m, p.1 = q.1 ∧ p.2.id = q.2.id ∧ p.2.lat = q.2.lat ∧ p.2.lng = q.2.lng ∧
      (p.2.connections = q.2.connections ∨
        (q.1 = i ∧ p.2.connections = q.2.connections ++ [c])) := by
  unfold addConnection at hp
  rcases List.mem_map.1 hp with ⟨q, hq, hpq⟩
  refine ⟨q, hq, ?_⟩
  by_cases hqi : q.1 = i
  · rw [if_pos (by simpa using hqi)] at hpq
    rw [← hpq]
    exact ⟨rfl, rfl, rfl, rfl, Or.inr ⟨hqi, rfl⟩⟩
  · rw [if_neg (by simpa using hqi)] at hpq
    rw [← hpq]
    exact ⟨rfl, rfl, rfl, rfl, Or.inl rfl⟩

theorem idKeys_addConnection {α : Type} (m : List (ℕ × GNode α)) (i : ℕ)
    (c : Connection α) (hm : idKeys m) : idKeys (addConnection m i c) := by
  intro p hp
  obtain ⟨q, hq, h1, h2, _, _, _⟩ := addConnection_mem m i c p hp
  rw [h1, h2]
  exact hm q hq

theorem addConnection_lookup {α : Type} (m : List (ℕ × GNode α)) (i : ℕ)
    (c : Connection α) (j : ℕ) :
    lookupA (addConnection m i c) j
      = (lookupA m j).map (fun n =>
          if j = i then { n with connections := n.connections ++ [c] } else n) := by
  induction m with
  | nil => rfl
  | cons p rest ih =>
    rcases p with ⟨k, n0⟩
    unfold addConnection at ih ⊢
    unfold lookupA at ih ⊢
    by_cases hkj : k = j
    · subst hkj
      by_cases hki : k = i <;>
        simp [List.find?_cons, hki]
    · by_cases hki : k = i
      · subst hki
        simp [List.find?_cons, hkj, Option.map_map, Function.comp]
        simpa [Option.map_map, Function.comp] using ih
      · simp [List.find?_cons, hkj, hki, Option.map_map, Function.comp]
        simpa [Option.map_map, Function.comp] using ih

/-- The node map only ever grows: ids and coordinates are stable and
connection lists only gain entries. -/
def mapExt {α : Type} (m m2 : List (ℕ × GNode α)) : Prop :=
  ∀ u n, lookupA m u = some n → ∃ n2, lookupA m2 u = some n2 ∧
    n2.id = n.id ∧ n2.lat = n.lat ∧ n2.lng = n.lng ∧
    ∀ c, c ∈ n.connections → c ∈ n2.connections

theorem mapExt_refl {α : Type} (m : List (ℕ × GNode α)) : mapExt m m :=
  fun _ n h => ⟨n, h, rfl, rfl, rfl, fun _ hc => hc⟩

theorem mapExt_trans {α : Type} {m1 m2 m3 : List (ℕ × GNode α)}
    (h1 : mapExt m1 m2) (h2 : mapExt m2 m3) : mapExt m1 m3 := by
  intro u n hn
  obtain ⟨na, ha, ha1, ha2, ha3, ha4⟩ := h1 u n hn
  obtain ⟨nb, hb, hb1, hb2, hb3, hb4⟩ := h2 u na ha
  exact ⟨nb, hb, hb1.trans ha1, hb2.trans ha2, hb3.trans ha3,
    fun c hc => hb4 c (ha4 c hc)⟩

theorem addConnection_ext {α : Type} (m : List (ℕ × GNode α)) (i : ℕ)
    (c : Connection α) : mapExt m (addConnection m i c) := by
  intro u n hn
  rw [addConnection_lookup, hn]
  by_cases hui : u = i
  · refine ⟨{ n with connections := n.connections ++ [c] }, ?_, rfl, rfl, rfl, ?_⟩
    · simp [hui]
    · intro c2 hc2
      simp [hc2]
  · exact ⟨n, by simp [hui], rfl, rfl, rfl, fun _ hc => hc⟩

theorem addWayPairs_ext {α : Type} (hav : Point α → Point α → α) (ow : Bool) :
    ∀ (l : List ℕ) (m : List (ℕ × GNode α)), mapExt m (addWayPairs hav ow l m)
  | [], m => mapExt_refl m
  | [u], m => mapExt_refl m
  | u :: v :: rest, m => by
    rw [addWayPairs]
    have hrec := addWayPairs_ext hav ow (v :: rest)
    rcases h1 : lookupA m u with _ | fromNode
    · dsimp only
      exact hrec m
    · rcases h2 : lookupA m v with _ | toNode
      · dsimp only
        exact hrec m
      · dsimp only
        refine mapExt_trans ?_ (hrec _)
        by_cases how : ow
        · rw [if_pos how]
          exact addConnection_ext m u _
        · rw [if_neg how]
          exact mapExt_trans (addConnection_ext m u _) (addConnection_ext _ v _)

theorem idKeys_addWayPairs {α : Type} (hav : Point α → Point α → α) (ow : Bool) :
    ∀ (l : List ℕ) (m : List (ℕ × GNode α)), idKeys m →
      idKeys (addWayPairs hav ow l m)
  | [], _, hm => hm
  | [u], _, hm => hm
  | u :: v :: rest, m, hm => by
    rw [addWayPairs]
    have hrec := idKeys_addWayPairs hav ow (v :: rest)
    rcases h1 : lookupA m u with _ | fromNode
    · exact hrec m hm
    · rcases h2 : lookupA m v with _ | toNode
      · exact hrec m hm
      · dsimp only
        refine hrec _ ?_
        by_cases how : ow
        · rw [if_pos how]
          exact idKeys_addConnection _ _ _ hm
        · rw [if_neg how]
          exact idKeys_addConnection _ _ _ (idKeys_addConnection _ _ _ hm)

theorem ways_fold_ext {α : Type} (hav : Point α → Point α → α) :
    ∀ (ws : List (List ℕ × List (String × String))) (m : List (ℕ × GNode α)),
      mapExt m (ws.foldl (fun m w => addWayPairs hav (isOneWay w.2) w.1 m) m)
  | [], m => mapExt_refl m
  | w :: ws, m => by
    rw [List.foldl_cons]
    exact mapExt_trans (addWayPairs_ext hav (isOneWay w.2) w.1 m)
      (ways_fold_ext hav ws _)

theorem idKeys_ways_fold {α : Type} (hav : Point α → Point α → α) :
    ∀ (ws : List (List ℕ × List (String × String))) (m : List (ℕ × GNode α)),
      idKeys m →
      idKeys (ws.foldl (fun m w => addWayPairs hav (isOneWay w.2) w.1 m) m)
  | [], _, hm => hm
  | w :: ws, m, hm => by
    rw [List.foldl_cons]
    exact idKeys_ways_fold hav ws _ (idKeys_addWayPairs hav (isOneWay w.2) w.1 m hm)

theorem wayHasPair_cons (a b : ℕ) (l : List ℕ) (u v : ℕ) :
    wayHasPair (a :: b :: l) u v
      = ((a == u && b == v) || wayHasPair (b :: l) u v) := rfl

theorem addWayPairs_hits {α : Type} (hav : Point α → Point α → α) (ow : Bool) :
    ∀ (l : List ℕ) (m : List (ℕ × GNode α)) (u v : ℕ) (nu nv : GNode α),
      wayHasPair l u v = true →
      lookupA m u = some nu → lookupA m v = some nv →
      (∃ nu2, lookupA (addWayPairs hav ow l m) u = some nu2 ∧
        (⟨nv.id, hav nu.pt nv.pt⟩ : Connection α) ∈ nu2.connections) ∧
      (ow = false →
        ∃ nv2, lookupA (addWayPairs hav ow l m) v = some nv2 ∧
          (⟨nu.id, hav nu.pt nv.pt⟩ : Connection α) ∈ nv2.connections)
  | [], m, u, v, nu, nv, hpair, hu, hv => by
    simp [wayHasPair] at hpair
  | [x], m, u, v, nu, nv, hpair, hu, hv => by
    simp [wayHasPair] at hpair
  | a :: b :: rest, m, u, v, nu, nv, hpair, hu, hv => by
    rw [wayHasPair_cons] at hpair
    rw [addWayPairs]
    dsimp only
    by_cases hab : a = u ∧ b = v
    · obtain ⟨rfl, rfl⟩ := hab
      rw [hu, hv]
      dsimp only
      simp only [GNode.pt]
      have hfwd : lookupA (addConnection m a ⟨nv.id,
          hav ⟨nu.lat, nu.lng⟩ ⟨nv.lat, nv.lng⟩⟩) a
          = some { nu with connections := nu.connections
              ++ [⟨nv.id, hav ⟨nu.lat, nu.lng⟩ ⟨nv.lat, nv.lng⟩⟩] } := by
        rw [addConnection_lookup, hu]
        simp
      by_cases how : ow
      · rw [if_pos how]
        constructor
        · obtain ⟨nu2, hl2, _, _, _, hsub⟩ :=
            addWayPairs_ext hav ow (b :: rest) _ a _ hfwd
          exact ⟨nu2, hl2, hsub _ (by simp)⟩
        · intro hf
          rw [how] at hf
          exact absurd hf (by simp)
      · rw [if_neg how]
        constructor
        · obtain ⟨nu3, hl3, _, _, _, hsub3⟩ :=
            addConnection_ext (addConnection m a ⟨nv.id,
              hav ⟨nu.lat, nu.lng⟩ ⟨nv.lat, nv.lng⟩⟩) b
              ⟨nu.id, hav ⟨nu.lat, nu.lng⟩ ⟨nv.lat, nv.lng⟩⟩ a _ hfwd
          obtain ⟨nu2, hl2, _, _, _, hsub2⟩ :=
            addWayPairs_ext hav ow (b :: rest) _ a _ hl3
          exact ⟨nu2, hl2, hsub2 _ (hsub3 _ (by simp))⟩
        · intro _
          have hrev : ∃ nv3, lookupA (addConnection (addConnection m a ⟨nv.id,
                hav ⟨nu.lat, nu.lng⟩ ⟨nv.lat, nv.lng⟩⟩) b
                ⟨nu.id, hav ⟨nu.lat, nu.lng⟩ ⟨nv.lat, nv.lng⟩⟩) b = some nv3 ∧
              (⟨nu.id, hav ⟨nu.lat, nu.lng⟩ ⟨nv.lat, nv.lng⟩⟩ : Connection α)
                ∈ nv3.connections := by
            rw [addConnection_lookup]
            by_cases hba : b = a
            · subst hba
              rw [hfwd]
              simp only [Option.map_some', if_pos rfl]
              exact ⟨_, rfl, by simp⟩
            · rw [addConnection_lookup, hv]
              simp only [Option.map_some', if_neg hba]
              exact ⟨_, rfl, by simp⟩
          obtain ⟨nv3, hl3, hc3⟩ := hrev
          obtain ⟨nv2, hl2, _, _, _, hsub⟩ :=
            addWayPairs_ext hav ow (b :: rest) _ b _ hl3
          exact ⟨nv2, hl2, hsub _ hc3⟩
    · have hpair2 : wayHasPair (b :: rest) u v = true := by
        rw [Bool.or_eq_true] at hpair
        rcases hpair with h | h
        · rw [Bool.and_eq_true] at h
          exact absurd ⟨by simpa using h.1, by simpa using h.2⟩ hab
        · exact h
      have key : ∀ m2, mapExt m m2 →
          (∃ nu2, lookupA (addWayPairs hav ow (b :: rest) m2) u = some nu2 ∧
            (⟨nv.id, hav nu.pt nv.pt⟩ : Connection α) ∈ nu2.connections) ∧
          (ow = false →
            ∃ nv2, lookupA (addWayPairs hav ow (b :: rest) m2) v = some nv2 ∧
              (⟨nu.id, hav nu.pt nv.pt⟩ : Connection α) ∈ nv2.connections) := by
        intro m2 hext
        obtain ⟨nu', hu', hid1, hlat1, hlng1, _⟩ := hext u nu hu
        obtain ⟨nv', hv', hid2, hlat2, hlng2, _⟩ := hext v nv hv
        have hptu : nu'.pt = nu.pt := by unfold GNode.pt; rw [hlat1, hlng1]
        have hptv : nv'.pt = nv.pt := by unfold GNode.pt; rw [hlat2, hlng2]
        have hih := addWayPairs_hits hav ow (b :: rest) m2 u v nu' nv' hpair2 hu' hv'
        rw [hid1, hid2, hptu, hptv] at hih
        exact hih
      rcases h1 : lookupA m a with _ | fromNode
      · exact key m (mapExt_refl m)
      · rcases h2 : lookupA m b with _ | toNode
        · exact key m (mapExt_refl m)
        · dsimp only
          by_cases how : ow
          · rw [if_pos how]
            exact key _ (addConnection_ext m a _)
          · rw [if_neg how]
            exact key _ (mapExt_trans (addConnection_ext m a _)
              (addConnection_ext _ b _))

theorem ways_fold_hits {α : Type} (hav : Point α → Point α → α) :
    ∀ (ws : List (List ℕ × List (String × String))) (m : List (ℕ × GNode α))
      (w : List ℕ × List (String × String)) (u v : ℕ) (nu nv : GNode α),
      w ∈ ws →
      wayHasPair w.1 u v = true →
      lookupA m u = some nu → lookupA m v = some nv →
      (∃ nu2, lookupA
          (ws.foldl (fun m w2 => addWayPairs hav (isOneWay w2.2) w2.1 m) m) u
          = some nu2 ∧
        (⟨nv.id, hav nu.pt nv.pt⟩ : Connection α) ∈ nu2.connections) ∧
      (isOneWay w.2 = false →
        ∃ nv2, lookupA
            (ws.foldl (fun m w2 => addWayPairs hav (isOneWay w2.2) w2.1 m) m) v
            = some nv2 ∧
          (⟨nu.id, hav nu.pt nv.pt⟩ : Connection α) ∈ nv2.connections)
  | [], _, _, _, _, _, _, hw, _, _, _ => absurd hw (by simp)
  | w0 :: ws, m, w, u, v, nu, nv, hw, hpair, hu, hv => by
    rw [List.foldl_cons]
    rcases List.mem_cons.1 hw with hww | hww
    · subst hww
      obtain ⟨hfwd, hrev⟩ :=
        addWayPairs_hits hav (isOneWay w.2) w.1 m u v nu nv hpair hu hv
      constructor
      · obtain ⟨nu1, hl1, hc1⟩ := hfwd
        obtain ⟨nu2, hl2, _, _, _, hsub⟩ := ways_fold_ext hav ws _ u _ hl1
        exact ⟨nu2, hl2, hsub _ hc1⟩
      · intro how
        obtain ⟨nv1, hl1, hc1⟩ := hrev how
        obtain ⟨nv2, hl2, _, _, _, hsub⟩ := ways_fold_ext hav ws _ v _ hl1
        exact ⟨nv2, hl2, hsub _ hc1⟩
    · have hext := addWayPairs_ext hav (isOneWay w0.2) w0.1 m
      obtain ⟨nu', hu', hid1, hlat1, hlng1, _⟩ := hext u nu hu
      obtain ⟨nv', hv', hid2, hlat2, hlng2, _⟩ := hext v nv hv
      have hptu : nu'.pt = nu.pt := by unfold GNode.pt; rw [hlat1, hlng1]
      have hptv : nv'.pt = nv.pt := by unfold GNode.pt; rw [hlat2, hlng2]
      have hih := ways_fold_hits hav ws _ w u v nu' nv' hww hpair hu' hv'
      rw [hid1, hid2, hptu, hptv] at hih
      exact hih

theorem mem_buildStreetGraph_of_lookup {α : Type} [LinearOrderedCommRing α]
    (hav : Point α → Point α → α) (elems : List (OsmElement α)) (u : ℕ)
    (n : GNode α)
    (h : lookupA ((collectWays elems).foldl
        (fun m w => addWayPairs hav (isOneWay w.2) w.1 m) (collectNodes elems)) u
      = some n)
    (hc : 0 < n.connections.length) :
    n ∈ buildStreetGraph hav elems := by
  unfold buildStreetGraph
  dsimp only
  rw [List.mem_filter]
  constructor
  · unfold objValues
    rw [List.mem_map]
    refine ⟨(u, n), ?_, rfl⟩
    exact (pqSort_perm (fun p => (p : ℕ × GNode α).1) _).mem_iff.2
      (lookupA_mem_key _ _ _ h)
  · simpa using hc

theorem insertNode_mem {α : Type} (m : List (ℕ × GNode α)) (i : ℕ) (nn : GNode α)
    (p : ℕ × GNode α) (hp : p ∈ insertNode m i nn) : p ∈ m ∨ p.2 = nn := by
  unfold insertNode at hp
  split at hp
  · rcases List.mem_map.1 hp with ⟨q, hq, hpq⟩
    by_cases hqi : q.1 = i
    · rw [if_pos (by simpa using hqi)] at hpq
      right
      rw [← hpq]
    · rw [if_neg (by simpa using hqi)] at hpq
      left
      rw [← hpq]
      exact hq
  · rcases List.mem_append.1 hp with hq | hq
    · exact Or.inl hq
    · simp at hq
      right
      rw [hq]

theorem collectNodes_conns {α : Type} (elems : List (OsmElement α)) :
    ∀ p ∈ collectNodes elems, (p : ℕ × GNode α).2.connections = [] := by
  unfold collectNodes
  suffices h : ∀ (l : List (OsmElement α)) (m : List (ℕ × GNode α)),
      (∀ p ∈ m, (p : ℕ × GNode α).2.connections = []) →
      ∀ p ∈ (l.foldl (fun m e =>
        match e with
        | OsmElement.node i lat lon => insertNode m i ⟨i, lat, lon, [], none⟩
        | OsmElement.way _ _ => m) m), (p : ℕ × GNode α).2.connections = [] by
    exact h elems [] (by intro p hp; simp at hp)
  intro l
  induction l with
  | nil => intro m hm; exact hm
  | cons e rest ih =>
    intro m hm
    rcases e with ⟨i, lat, lon⟩ | ⟨nodes, tags⟩
    · refine ih _ ?_
      intro p hp
      rcases insertNode_mem m i _ p hp with hq | hq
      · exact hm p hq
      · rw [hq]
    · exact ih _ hm

theorem addWayPairs_origin {α : Type} (hav : Point α → Point α → α) (ow : Bool) :
    ∀ (l : List ℕ) (m : List (ℕ × GNode α)),
      idKeys m →
      ∀ p ∈ addWayPairs hav ow l m, ∀ c ∈ (p : ℕ × GNode α).2.connections,
        (∃ q ∈ m, (q : ℕ × GNode α).1 = p.1 ∧ c ∈ q.2.connections) ∨
        wayHasPair l p.1 c.nodeId = true ∨
        (ow = false ∧ wayHasPair l c.nodeId p.1 = true)
  | [], m, _, p, hp, c, hc => Or.inl ⟨p, hp, rfl, hc⟩
  | [x], m, _, p, hp, c, hc => Or.inl ⟨p, hp, rfl, hc⟩
  | a :: b :: rest, m, hkeys, p, hp, c, hc => by
    rw [addWayPairs] at hp
    dsimp only at hp
    have hmono : ∀ x y : ℕ, wayHasPair (b :: rest) x y = true →
        wayHasPair (a :: b :: rest) x y = true := by
      intro x y hxy
      rw [wayHasPair_cons, Bool.or_eq_true]
      exact Or.inr hxy
    have key : ∀ (m2 : List (ℕ × GNode α)), idKeys m2 →
        p ∈ addWayPairs hav ow (b :: rest) m2 →
        (∀ q2 ∈ m2, ∀ c2 ∈ (q2 : ℕ × GNode α).2.connections,
          (∃ q ∈ m, (q : ℕ × GNode α).1 = q2.1 ∧ c2 ∈ q.2.connections) ∨
          wayHasPair (a :: b :: rest) q2.1 c2.nodeId = true ∨
          (ow = false ∧ wayHasPair (a :: b :: rest) c2.nodeId q2.1 = true)) →
        (∃ q ∈ m, (q : ℕ × GNode α).1 = p.1 ∧ c ∈ q.2.connections) ∨
        wayHasPair (a :: b :: rest) p.1 c.nodeId = true ∨
        (ow = false ∧ wayHasPair (a :: b :: rest) c.nodeId p.1 = true) := by
      intro m2 hk2 hp2 htrans
      rcases addWayPairs_origin hav ow (b :: rest) m2 hk2 p hp2 c hc with
        ⟨q2, hq2, hkey2, hc2⟩ | hpair | ⟨how, hpair⟩
      · rcases htrans q2 hq2 c hc2 with ⟨q, hq, hkq, hcq⟩ | hh | ⟨how, hh⟩
        · exact Or.inl ⟨q, hq, hkq.trans hkey2, hcq⟩
        · rw [hkey2] at hh
          exact Or.inr (Or.inl hh)
        · rw [hkey2] at hh
          exact Or.inr (Or.inr ⟨how, hh⟩)
      · exact Or.inr (Or.inl (hmono _ _ hpair))
      · exact Or.inr (Or.inr ⟨how, hmono _ _ hpair⟩)
    rcases h1 : lookupA m a with _ | fromNode
    · rw [h1] at hp
      exact key m hkeys hp (fun q2 hq2 c2 hc2 => Or.inl ⟨q2, hq2, rfl, hc2⟩)
    · rcases h2 : lookupA m b with _ | toNode
      · rw [h1, h2] at hp
        exact key m hkeys hp (fun q2 hq2 c2 hc2 => Or.inl ⟨q2, hq2, rfl, hc2⟩)
      · rw [h1, h2] at hp
        dsimp only at hp
        have hfid : fromNode.id = a := hkeys _ (lookupA_mem_key m a fromNode h1)
        have htid : toNode.id = b := hkeys _ (lookupA_mem_key m b toNode h2)
        have hpairab : wayHasPair (a :: b :: rest) a b = true := by
          rw [wayHasPair_cons, Bool.or_eq_true]
          left
          simp
        by_cases how : ow
        · rw [if_pos how] at hp
          refine key _ (idKeys_addConnection _ _ _ hkeys) hp ?_
          intro q2 hq2 c2 hc2
          obtain ⟨q, hq, hkq, _, _, _, hcc⟩ := addConnection_mem m a _ q2 hq2
          rcases hcc with hsame | ⟨hqa, happ⟩
          · exact Or.inl ⟨q, hq, hkq.symm, by rw [← hsame]; exact hc2⟩
          · rw [happ] at hc2
            rcases List.mem_append.1 hc2 with hold | hnew
            · exact Or.inl ⟨q, hq, hkq.symm, hold⟩
            · simp at hnew
              right
              left
              rw [hnew]
              dsimp only
              rw [htid, hkq, hqa]
              exact hpairab
        · rw [if_neg how] at hp
          refine key _ (idKeys_addConnection _ _ _
            (idKeys_addConnection _ _ _ hkeys)) hp ?_
          intro q2 hq2 c2 hc2
          obtain ⟨q3, hq3, hkq3, _, _, _, hcc3⟩ := addConnection_mem _ b _ q2 hq2
          obtain ⟨q, hq, hkq, _, _, _, hcc⟩ := addConnection_mem m a _ q3 hq3
          have hkq2 : q.1 = q2.1 := by rw [hkq3, hkq]
          rcases hcc3 with hsame3 | ⟨hq3b, happ3⟩
      -- c2 comes from q3's connections
          · rw [hsame3] at hc2
            rcases hcc with hsame | ⟨hqa, happ⟩
            · exact Or.inl ⟨q, hq, hkq2, by rw [← hsame]; exact hc2⟩
            · rw [happ] at hc2
              rcases List.mem_append.1 hc2 with hold | hnew
              · exact Or.inl ⟨q, hq, hkq2, hold⟩
              · simp at hnew
                right
                left
                rw [hnew]
                dsimp only
                rw [htid, hkq3, hkq, hqa]
                exact hpairab
          · rw [happ3] at hc2
            rcases List.mem_append.1 hc2 with hmid | hnew
            · rcases hcc with hsame | ⟨hqa, happ⟩
              · exact Or.inl ⟨q, hq, hkq2, by rw [← hsame]; exact hmid⟩
              · rw [happ] at hmid
                rcases List.mem_append.1 hmid with hold | hnew2
                · exact Or.inl ⟨q, hq, hkq2, hold⟩
                · simp at hnew2
                  right
                  left
                  rw [hnew2]
                  dsimp only
                  rw [htid, hkq3, hkq, hqa]
                  exact hpairab
            · simp at hnew
              right
              right
              refine ⟨by simpa using how, ?_⟩
              rw [hnew]
              dsimp only
              rw [hfid, hkq3, hq3b]
              exact hpairab

theorem ways_fold_origin {α : Type} (hav : Point α → Point α → α) :
    ∀ (ws : List (List ℕ × List (String × String))) (m : List (ℕ × GNode α)),
      idKeys m →
      ∀ p ∈ ws.foldl (fun m w => addWayPairs hav (isOneWay w.2) w.1 m) m,
        ∀ c ∈ (p : ℕ × GNode α).2.connections,
        (∃ q ∈ m, (q : ℕ × GNode α).1 = p.1 ∧ c ∈ q.2.connections) ∨
        ∃ w ∈ ws, wayHasPair w.1 p.1 c.nodeId = true ∨
          (isOneWay w.2 = false ∧ wayHasPair w.1 c.nodeId p.1 = true)
  | [], m, _, p, hp, c, hc => Or.inl ⟨p, hp, rfl, hc⟩
  | w0 :: ws, m, hkeys, p, hp, c, hc => by
    rw [List.foldl_cons] at hp
    have hk1 : idKeys (addWayPairs hav (isOneWay w0.2) w0.1 m) :=
      idKeys_addWayPairs hav _ _ m hkeys
    rcases ways_fold_origin hav ws _ hk1 p hp c hc with ⟨q1, hq1, hkey1, hcq1⟩ | ⟨w, hw, hcase⟩
    · rcases addWayPairs_origin hav (isOneWay w0.2) w0.1 m hkeys q1 hq1 c hcq1 with
        ⟨q, hq, hkey, hcq⟩ | hpair | ⟨how, hpair⟩
      · exact Or.inl ⟨q, hq, hkey.trans hkey1, hcq⟩
      · rw [hkey1] at hpair
        exact Or.inr ⟨w0, by simp, Or.inl hpair⟩
      · rw [hkey1] at hpair
        exact Or.inr ⟨w0, by simp, Or.inr ⟨how, hpair⟩⟩
    · exact Or.inr ⟨w, by simp [hw], hcase⟩

theorem buildStreetGraph_origin {α : Type} [LinearOrderedCommRing α]
    (hav : Point α → Point α → α) (elems : List (OsmElement α)) :
    ∀ n ∈ buildStreetGraph hav elems, ∀ c ∈ (n : GNode α).connections,
      ∃ w ∈ collectWays elems, wayHasPair w.1 n.id c.nodeId = true ∨
        (isOneWay w.2 = false ∧ wayHasPair w.1 c.nodeId n.id = true) := by
  intro n hn c hc
  unfold buildStreetGraph at hn
  dsimp only at hn
  rw [List.mem_filter] at hn
  obtain ⟨hmem, _⟩ := hn
  unfold objValues at hmem
  rw [List.mem_map] at hmem
  obtain ⟨pr, hpr, hprn⟩ := hmem
  have hprm : pr ∈ (collectWays elems).foldl
      (fun m w => addWayPairs hav (isOneWay w.2) w.1 m) (collectNodes elems) :=
    (pqSort_perm (fun p => (p : ℕ × GNode α).1) _).mem_iff.1 hpr
  have hkeys := idKeys_collectNodes elems
  have hid : n.id = pr.1 := by
    rw [← hprn]
    exact idKeys_ways_fold hav (collectWays elems) _ hkeys pr hprm
  rcases ways_fold_origin hav (collectWays elems) _ hkeys pr hprm c
      (by rw [hprn]; exact hc) with ⟨q, hq, _, hcq⟩ | ⟨w, hw, hcase⟩
  · have := collectNodes_conns elems q hq
    rw [this] at hcq
    exact absurd hcq (by simp)
  · rw [← hid] at hcase
    exact ⟨w, hw, hcase⟩

theorem connectedTo_built_false {α : Type} [LinearOrderedCommRing α]
    (hav : Point α → Point α → α) (elems : List (OsmElement α)) (u v : ℕ)
    (h1 : ∀ w ∈ collectWays elems, wayHasPair w.1 v u = false)
    (h2 : ∀ w ∈ collectWays elems, wayHasPair w.1 u v = true →
      isOneWay w.2 = true) :
    connectedTo (buildStreetGraph hav elems) v u = false := by
  unfold connectedTo
  rcases hl : nodeMapLookup (buildStreetGraph hav elems) v with _ | n
  · rfl
  · have hnmem : n ∈ buildStreetGraph hav elems := by
      have := List.mem_of_find?_eq_some hl
      simpa using this
    have hnid : n.id = v := by
      have := List.find?_some hl
      simpa using this
    rw [List.any_eq_false]
    intro c hc
    intro hcu0
    have hcu : c.nodeId = u := by simpa using hcu0
    obtain ⟨w, hw, hcase⟩ := buildStreetGraph_origin hav elems n hnmem c hc
    rcases hcase with hpair | ⟨how, hpair⟩
    · rw [hnid, hcu] at hpair
      rw [h1 w hw] at hpair
      exact absurd hpair (by simp)
    · rw [hnid, hcu] at hpair
      rw [h2 w hw hpair] at how
      exact absurd how (by simp)

/-! ### Concrete instances used by the claim theorems and witnesses -/

/-- A four-node graph over `ℤ`: S=1 at (0,0), B=2 at (1,1), A=3 at
(2,2), C=4 at (3,3); S has edges to A (100), B (1) and C (50); B→A,
A→C and C→S have weight 1. -/
def cexGraph : Graph ℤ :=
  [⟨1, 0, 0, [⟨3, 100⟩, ⟨2, 1⟩, ⟨4, 50⟩], none⟩,
   ⟨2, 1, 1, [⟨3, 1⟩], none⟩,
   ⟨3, 2, 2, [⟨4, 1⟩], none⟩,
   ⟨4, 3, 3, [⟨1, 1⟩], none⟩]

def cexS : GNode ℤ := ⟨1, 0, 0, [⟨3, 100⟩, ⟨2, 1⟩, ⟨4, 50⟩], none⟩

def cexC : GNode ℤ := ⟨4, 3, 3, [⟨1, 1⟩], none⟩

/-- A distance function consistent with the edge weights of `cexGraph`. -/
def cexHav : Point ℤ → Point ℤ → ℤ := fun p q =>
  if p = ⟨0, 0⟩ ∧ q = ⟨3, 3⟩ then 50
  else if p = ⟨0, 0⟩ ∧ q = ⟨2, 2⟩ then 100
  else 1

/-- A heuristic that penalises the goal node 4. -/
def c1hfun : GNode ℤ → GNode ℤ → ℤ := fun n _ => if n.id == 4 then 1000 else 0

/-- A one-node graph whose node is both start and goal. -/
def oneGraph : Graph ℤ := [⟨1, 0, 0, [⟨2, 5⟩], none⟩]

def oneN : GNode ℤ := ⟨1, 0, 0, [⟨2, 5⟩], none⟩

/-- A disconnected graph: node 1 has a dangling edge to the missing id
9, node 2 is unreachable from node 1. -/
def discGraph : Graph ℤ := [⟨1, 0, 0, [⟨9, 5⟩], none⟩, ⟨2, 7, 7, [⟨1, 5⟩], none⟩]

def discS : GNode ℤ := ⟨1, 0, 0, [⟨9, 5⟩], none⟩

def discT : GNode ℤ := ⟨2, 7, 7, [⟨1, 5⟩], none⟩

/-- A graph with two parallel edges 1→2 of weights 0 and 3. -/
def c3graph : Graph ℤ := [⟨1, 0, 0, [⟨2, 0⟩, ⟨2, 3⟩], none⟩, ⟨2, 1, 1, [], none⟩]

/-- OSM data with two nodes and one one-way way through both. -/
def cw9elems : List (OsmElement ℤ) :=
  [OsmElement.node 1 0 0, OsmElement.node 2 1 1,
   OsmElement.way [1, 2] [("oneway", "yes")]]

/-! ### The claims -/

/-- C1 (corrected): the Dijkstra-style variant `runAStarOnStreetGraph3`
is not cost-optimal (see `dijkstra_variant_not_optimal`): because an
already-queued neighbour is not re-enqueued when its g-score improves,
it can return a strictly more expensive path than the heuristic engine.
What does hold: whenever it returns a result through the found branch,
the returned path is a genuine walk of the graph, starting at the start
node, following only existing connections, and ending at the goal id;
otherwise the result is the two-point direct fallback. -/
theorem dijkstra_variant_found_is_graph_walk {α : Type} [LinearOrderedCommRing α]
    (hav : Point α → Point α → α) (g : Graph α) (startN endN : GNode α)
    (r : SearchResult α)
    (hnz : ∀ n ∈ g, n.id ≠ 0) (hne : startN.id ≠ endN.id)
    (hrun : runAStarOnStreetGraph3 hav g startN endN = some r) :
    (∃ ids pts, idsToPoints g ids = some pts ∧
      isGraphWalk g (startN.id :: ids) = true ∧ ids ≠ [] ∧
      ids.getLast? = some endN.id ∧ r.path = startN.pt :: pts) ∨
    (r.path = [startN.pt, endN.pt] ∧ r.distance = hav startN.pt endN.pt) := by
  unfold runAStarOnStreetGraph3 at hrun
  rcases hloop : run3Loop hav g startN endN (g.length + 2) (init3 startN) with _ | out
  · rw [hloop] at hrun
    exact absurd hrun (by simp)
  · rw [hloop] at hrun
    rcases out with r0 | ⟨expl, visited⟩
    · simp only [Option.some_inj] at hrun
      subst hrun
      obtain ⟨ids, pts, h1, h2, h3, h4, h5⟩ :=
        run3Loop_found_walk hav g startN endN hnz hne _ _ r0 (init3_inv g startN) hloop
      exact Or.inl ⟨ids, pts, h1, h2, h3, h4, h5⟩
    · simp only [Option.some_inj] at hrun
      subst hrun
      exact Or.inr ⟨rfl, rfl⟩

/-- C1, witness: the walk guarantee instantiated on `cexGraph`. -/
theorem dijkstra_variant_found_is_graph_walk_witness :
    (∀ n ∈ cexGraph, n.id ≠ 0) ∧ cexS.id ≠ cexC.id ∧
    runAStarOnStreetGraph3 cexHav cexGraph cexS cexC
      = some ⟨[⟨0, 0⟩, ⟨3, 3⟩], 50, 3, [⟨0, 0⟩, ⟨1, 1⟩, ⟨3, 3⟩]⟩ ∧
    ((∃ ids pts, idsToPoints cexGraph ids = some pts ∧
      isGraphWalk cexGraph (cexS.id :: ids) = true ∧ ids ≠ [] ∧
      ids.getLast? = some cexC.id ∧
      (⟨[⟨0, 0⟩, ⟨3, 3⟩], 50, 3,
        [⟨0, 0⟩, ⟨1, 1⟩, ⟨3, 3⟩]⟩ : SearchResult ℤ).path = cexS.pt :: pts) ∨
    ((⟨[⟨0, 0⟩, ⟨3, 3⟩], 50, 3,
        [⟨0, 0⟩, ⟨1, 1⟩, ⟨3, 3⟩]⟩ : SearchResult ℤ).path = [cexS.pt, cexC.pt] ∧
      (⟨[⟨0, 0⟩, ⟨3, 3⟩], 50, 3,
        [⟨0, 0⟩, ⟨1, 1⟩, ⟨3, 3⟩]⟩ : SearchResult ℤ).distance
        = cexHav cexS.pt cexC.pt)) :=
  ⟨by decide, by decide, by decide,
    dijkstra_variant_found_is_graph_walk cexHav cexGraph cexS cexC _
      (by decide) (by decide) (by decide)⟩

/-- C1, counterexample: on `cexGraph` (all edge weights non-negative)
the Dijkstra-style variant returns the path S→C of cost 50 while the
heuristic engine with the heuristic `c1hfun` returns S→B→A→C of cost 3:
the Dijkstra-style variant's path is strictly more expensive. -/
theorem dijkstra_variant_not_optimal :
    (∀ n ∈ cexGraph, ∀ c ∈ (n : GNode ℤ).connections, 0 ≤ c.distance) ∧
    ∃ r3 rA : SearchResult ℤ,
      runAStarOnStreetGraph3 cexHav cexGraph cexS cexC = some r3 ∧
      runAStarOnStreetGraph cexHav c1hfun cexGraph cexS cexC = some rA ∧
      pathDistance cexHav rA.path < pathDistance cexHav r3.path := by
  refine ⟨by decide,
    ⟨[⟨0, 0⟩, ⟨3, 3⟩], 50, 3, [⟨0, 0⟩, ⟨1, 1⟩, ⟨3, 3⟩]⟩,
    ⟨[⟨0, 0⟩, ⟨1, 1⟩, ⟨2, 2⟩, ⟨3, 3⟩], 3, 4,
      [⟨0, 0⟩, ⟨1, 1⟩, ⟨2, 2⟩, ⟨3, 3⟩]⟩,
    by decide, by decide, by decide⟩

/-- C2 (code bug): when start and goal snap to the same node, the
heuristic engine `runAStarOnStreetGraph` dequeues the start node,
immediately hits the goal test, reconstructs an empty tail and returns
the one-point path `[startNode]` — contradicting the claim that a
returned non-empty path always has at least 2 points.  (The
Dijkstra-style variant patches this case; the heuristic engine does
not.) -/
theorem astar_start_goal_single_point :
    ∃ r : SearchResult ℤ,
      runAStarOnStreetGraph (fun _ _ => (0 : ℤ)) (fun _ _ => (0 : ℤ))
        oneGraph oneN oneN = some r ∧
      r.path = [oneN.pt] ∧ r.path.length = 1 :=
  ⟨⟨[⟨0, 0⟩], 0, 1, [⟨0, 0⟩]⟩, by decide, by decide, by decide⟩

/-- C3 (code bug): the relaxation guard `!gScore[neighborId] ||
tentativeGScore < gScore[neighborId]` treats a recorded g-score of 0 as
absent (JavaScript falsiness), so a recorded value 0 — reached via a
zero-weight edge — is replaced by the larger tentative cost 3 when a
second, heavier parallel edge to the same neighbour is processed:
`relaxCond (some 0) 3` is true and the final recorded g-score is 3,
contradicting "never replaced by a larger value". -/
theorem gScore_zero_overwritten :
    relaxCond (some (0 : ℤ)) 3 = true ∧
    lookupA (processConnections3 c3graph [] 1
      (⟨[], [(1, 0)], []⟩ : RelaxState ℤ) [⟨2, 0⟩]).gScore 2 = some 0 ∧
    lookupA (processConnections3 c3graph [] 1
      (⟨[], [(1, 0)], []⟩ : RelaxState ℤ) [⟨2, 0⟩, ⟨2, 3⟩]).gScore 2 = some 3 :=
  ⟨by decide, by decide, by decide⟩

/-- C4: whenever the Dijkstra-style variant returns at all, its path is
non-empty; and if its main loop exhausts the frontier without reaching
the goal, the result is exactly the two-point path of the start and
goal coordinates with distance `hav start goal`. -/
theorem dijkstra_exhaust_fallback {α : Type} [LinearOrderedCommRing α]
    (hav : Point α → Point α → α) (g : Graph α) (startN endN : GNode α)
    (r : SearchResult α)
    (hrun : runAStarOnStreetGraph3 hav g startN endN = some r) :
    r.path ≠ [] ∧
    ∀ expl visited,
      run3Loop hav g startN endN (g.length + 2) (init3 startN)
        = some (Loop3Out.exhausted expl visited) →
      r = ⟨[startN.pt, endN.pt], hav startN.pt endN.pt, visited, expl⟩ := by
  unfold runAStarOnStreetGraph3 at hrun
  rcases hloop : run3Loop hav g startN endN (g.length + 2) (init3 startN) with _ | out
  · rw [hloop] at hrun
    exact absurd hrun (by simp)
  · rw [hloop] at hrun
    rcases out with r0 | ⟨expl0, visited0⟩
    · simp only [Option.some_inj] at hrun
      subst hrun
      constructor
      · have h2 := run3Loop_found_path_len hav g startN endN _ _ _ hloop
        intro hnil
        rw [hnil] at h2
        simp at h2
      · intro expl visited hexh
        exact absurd hexh (by simp)
    · simp only [Option.some_inj] at hrun
      subst hrun
      refine ⟨by simp, ?_⟩
      intro expl visited hexh
      simp only [Option.some_inj, Loop3Out.exhausted.injEq] at hexh
      rw [hexh.1, hexh.2]

/-- C4, witness: the fallback on the disconnected graph `discGraph`. -/
theorem dijkstra_exhaust_fallback_witness :
    runAStarOnStreetGraph3 (fun _ _ => (0 : ℤ)) discGraph discS discT
      = some ⟨[⟨0, 0⟩, ⟨7, 7⟩], 0, 1, [⟨0, 0⟩]⟩ ∧
    ((⟨[⟨0, 0⟩, ⟨7, 7⟩], 0, 1, [⟨0, 0⟩]⟩ : SearchResult ℤ).path ≠ [] ∧
    ∀ expl visited,
      run3Loop (fun _ _ => (0 : ℤ)) discGraph discS discT
          (discGraph.length + 2) (init3 discS)
        = some (Loop3Out.exhausted expl visited) →
      (⟨[⟨0, 0⟩, ⟨7, 7⟩], 0, 1, [⟨0, 0⟩]⟩ : SearchResult ℤ)
        = ⟨[discS.pt, discT.pt], (fun _ _ => (0 : ℤ)) discS.pt discT.pt,
            visited, expl⟩) :=
  ⟨by decide,
    dijkstra_exhaust_fallback (fun _ _ => (0 : ℤ)) discGraph discS discT _
      (by decide)⟩

/-- C5: both engines terminate with a result on every finite graph and
every start/goal pair — the heuristic engine by its iteration cap, the
Dijkstra-style engine (whose loop has no cap) because each iteration
either closes a new node or shrinks the frontier; disconnected inputs
end in the exhausted branch.  `none` models divergence, so `isSome` is
termination. -/
theorem engines_terminate {α : Type} [LinearOrderedCommRing α]
    (hav : Point α → Point α → α) (hfun : GNode α → GNode α → α)
    (g : Graph α) (startN endN : GNode α) :
    (runAStarOnStreetGraph3 hav g startN endN).isSome ∧
    (runAStarOnStreetGraph hav hfun g startN endN).isSome :=
  ⟨runAStarOnStreetGraph3_isSome hav g startN endN,
   runAStarOnStreetGraph_isSome hav hfun g startN endN⟩

/-- C6 (corrected): six of the seven heuristics (haversine, manhattan,
weighted, timeBased, landmark, elevation) return `Infinity` on a
missing/null current or goal node, and none of them throws (all are
total functions here).  The exception is `heuristics.dijkstra` (see
`dijkstra_heuristic_null_not_infinite`): it ignores its arguments and
returns 0, not a very large value. -/
theorem heuristic_library_null_behavior {α : Type} [LinearOrderedField α]
    (hav : Point α → Point α → α) (cosf : α → α) (piv : α)
    (cache : List (String × α)) (x y : Option (GNode α))
    (h : x = none ∨ y = none) :
    haversineH hav x y = JSNum.inf ∧
    manhattanH cosf piv x y = JSNum.inf ∧
    weightedH hav x y = JSNum.inf ∧
    timeBasedH hav x y = JSNum.inf ∧
    (landmarkH hav cache x y).1 = JSNum.inf ∧
    elevationH hav x y = JSNum.inf :=
  heuristics_null_inf hav cosf piv cache x y h

/-- C6, witness: the six heuristics on two null nodes over `ℚ`. -/
theorem heuristic_library_null_behavior_witness :
    ((none : Option (GNode ℚ)) = none ∨ (none : Option (GNode ℚ)) = none) ∧
    (haversineH (fun _ _ => (0 : ℚ)) none none = JSNum.inf ∧
     manhattanH (fun _ => (0 : ℚ)) 0 none none = JSNum.inf ∧
     weightedH (fun _ _ => (0 : ℚ)) none none = JSNum.inf ∧
     timeBasedH (fun _ _ => (0 : ℚ)) none none = JSNum.inf ∧
     (landmarkH (fun _ _ => (0 : ℚ)) [] none none).1 = JSNum.inf ∧
     elevationH (fun _ _ => (0 : ℚ)) none none = JSNum.inf) :=
  ⟨Or.inl rfl,
    heuristic_library_null_behavior (fun _ _ => (0 : ℚ)) (fun _ => 0) 0 []
      none none (Or.inl rfl)⟩

/-- C6, counterexample: `heuristics.dijkstra` applied to null nodes
returns the finite value 0, not an effectively infinite one. -/
theorem dijkstra_heuristic_null_not_infinite :
    dijkstraH (none : Option (GNode ℚ)) none = JSNum.val 0 ∧
    dijkstraH (none : Option (GNode ℚ)) none ≠ JSNum.inf :=
  ⟨rfl, by simp [dijkstraH]⟩

/-- C7: a connection whose target id has no node in the map is skipped
by the neighbour-relaxation step of both engines (the state is returned
unchanged), and both engines still terminate with a result on any such
graph. -/
theorem engines_skip_missing_targets {α : Type} [LinearOrderedCommRing α]
    (hav : Point α → Point α → α) (hfun : GNode α → GNode α → α)
    (g : Graph α) (startN endN : GNode α) (c : Connection α)
    (hdangling : nodeMapLookup g c.nodeId = none) :
    (∀ (closed : List ℕ) (curId : ℕ) (σ : RelaxState α),
      relaxNeighbor3 g closed curId σ c = σ) ∧
    (∀ (closed : List ℕ) (curId : ℕ) (σ : RelaxStateA α),
      relaxNeighborA g hfun endN closed curId σ c = σ) ∧
    (runAStarOnStreetGraph3 hav g startN endN).isSome ∧
    (runAStarOnStreetGraph hav hfun g startN endN).isSome :=
  ⟨fun _ _ _ => relaxNeighbor3_eq_skip (Or.inr (Or.inl hdangling)),
   fun _ _ _ => relaxNeighborA_eq_skip (Or.inr (Or.inl hdangling)),
   runAStarOnStreetGraph3_isSome hav g startN endN,
   runAStarOnStreetGraph_isSome hav hfun g startN endN⟩

/-- C7, witness: the dangling edge `⟨9, 5⟩` of `discGraph`. -/
theorem engines_skip_missing_targets_witness :
    nodeMapLookup discGraph (Connection.nodeId ⟨9, 5⟩) = none ∧
    ((∀ (closed : List ℕ) (curId : ℕ) (σ : RelaxState ℤ),
      relaxNeighbor3 discGraph closed curId σ ⟨9, 5⟩ = σ) ∧
    (∀ (closed : List ℕ) (curId : ℕ) (σ : RelaxStateA ℤ),
      relaxNeighborA discGraph (fun _ _ => (0 : ℤ)) discT closed curId σ ⟨9, 5⟩
        = σ) ∧
    (runAStarOnStreetGraph3 (fun _ _ => (0 : ℤ)) discGraph discS discT).isSome ∧
    (runAStarOnStreetGraph (fun _ _ => (0 : ℤ)) (fun _ _ => (0 : ℤ))
      discGraph discS discT).isSome) :=
  ⟨by decide,
    engines_skip_missing_targets (fun _ _ => (0 : ℤ)) (fun _ _ => (0 : ℤ))
      discGraph discS discT ⟨9, 5⟩ (by decide)⟩

/-- C8 (corrected): for points whose coordinates are integer multiples
of 1e-5 that stay below the 32-bit overflow threshold of the codec
(|coordinate| < 2^29 units of 1e-5 degrees, i.e. about 5369 degrees —
every geographic coordinate qualifies), decoding the encoded polyline
reproduces the point sequence exactly (hence within any tolerance); and
decoding the empty string yields the empty sequence.  Without the bound
the round trip fails (see `polyline_roundtrip_overflow`). -/
theorem polyline_roundtrip_exact {α : Type} [LinearOrderedField α] [FloorRing α]
    (pts : List (Point α))
    (h : ∀ p ∈ pts, ∃ a b : ℤ, p.lat = (a : α) / 100000 ∧ p.lng = (b : α) / 100000 ∧
      -2 ^ 29 ≤ a ∧ a < 2 ^ 29 ∧ -2 ^ 29 ≤ b ∧ b < 2 ^ 29) :
    decodePolyline (encodePolyline pts) = pts ∧
    decodePolyline ([] : List ℕ) = ([] : List (Point α)) :=
  ⟨decodePolyline_encodePolyline pts h, rfl⟩

/-- C8, witness: the round trip on the one-point sequence [(1, 2)]. -/
theorem polyline_roundtrip_exact_witness :
    (∀ p ∈ ([⟨1, 2⟩] : List (Point ℚ)), ∃ a b : ℤ,
      p.lat = (a : ℚ) / 100000 ∧ p.lng = (b : ℚ) / 100000 ∧
      -2 ^ 29 ≤ a ∧ a < 2 ^ 29 ∧ -2 ^ 29 ≤ b ∧ b < 2 ^ 29) ∧
    (decodePolyline (encodePolyline ([⟨1, 2⟩] : List (Point ℚ)))
      = ([⟨1, 2⟩] : List (Point ℚ)) ∧
     decodePolyline ([] : List ℕ) = ([] : List (Point ℚ))) := by
  have hc : ∀ p ∈ ([⟨1, 2⟩] : List (Point ℚ)), ∃ a b : ℤ,
      p.lat = (a : ℚ) / 100000 ∧ p.lng = (b : ℚ) / 100000 ∧
      -2 ^ 29 ≤ a ∧ a < 2 ^ 29 ∧ -2 ^ 29 ≤ b ∧ b < 2 ^ 29 := by
    intro p hp
    simp only [List.mem_singleton] at hp
    subst hp
    exact ⟨100000, 200000, by norm_num, by norm_num, by norm_num, by norm_num,
      by norm_num, by norm_num⟩
  exact ⟨hc, polyline_roundtrip_exact ([⟨1, 2⟩] : List (Point ℚ)) hc⟩

/-- C8, counterexample: the one-point sequence whose coordinate
10737.41824 = 1073741824e-5 is a multiple of 1e-5; its delta encodes
through a 32-bit left shift that overflows to -2^31, the emitted code
unit collapses to 63, and the decoded point is (0, 0) — off by more
than 10000 degrees, so not within the 1e-5 tolerance. -/
theorem polyline_roundtrip_overflow :
    (∀ p ∈ ([⟨1073741824 / 100000, 0⟩] : List (Point ℚ)), ∃ a b : ℤ,
      p.lat = (a : ℚ) / 100000 ∧ p.lng = (b : ℚ) / 100000) ∧
    ¬ List.Forall₂ (fun p q : Point ℚ =>
        |p.lat - q.lat| ≤ 1 / 100000 ∧ |p.lng - q.lng| ≤ 1 / 100000)
      (decodePolyline (encodePolyline
        ([⟨1073741824 / 100000, 0⟩] : List (Point ℚ))))
      ([⟨1073741824 / 100000, 0⟩] : List (Point ℚ)) := by
  constructor
  · intro p hp
    simp only [List.mem_singleton] at hp
    subst hp
    exact ⟨1073741824, 0, by norm_num, by norm_num⟩
  · rw [cex8_encode, cex8_decode]
    intro hcon
    rw [List.forall₂_cons] at hcon
    obtain ⟨⟨h1, _⟩, _⟩ := hcon
    simp only at h1
    rw [abs_le] at h1
    obtain ⟨h1a, _⟩ := h1
    norm_num at h1a

/-- C9: for every way kept by the builder and every consecutive pair
(u, v) of its node list whose endpoints are both indexed, the built
graph contains a node with id u carrying the connection to v weighted
by the `hav` distance of the two indexed coordinates; if the way is not
one-way it also contains the reverse connection at v; and whenever no
way has the pair (v, u) and every way with the pair (u, v) is one-way,
the built graph has no edge from v to u, so no search step can move
from v to u. -/
theorem buildStreetGraph_edge_semantics {α : Type} [LinearOrderedCommRing α]
    (hav : Point α → Point α → α) (elems : List (OsmElement α))
    (w : List ℕ × List (String × String)) (u v : ℕ) (nu nv : GNode α)
    (hw : w ∈ collectWays elems)
    (hpair : wayHasPair w.1 u v = true)
    (hu : lookupA (collectNodes elems) u = some nu)
    (hv : lookupA (collectNodes elems) v = some nv) :
    (∃ nu2, nu2 ∈ buildStreetGraph hav elems ∧ nu2.id = u ∧
      (⟨v, hav nu.pt nv.pt⟩ : Connection α) ∈ nu2.connections) ∧
    (isOneWay w.2 = false →
      ∃ nv2, nv2 ∈ buildStreetGraph hav elems ∧ nv2.id = v ∧
        (⟨u, hav nu.pt nv.pt⟩ : Connection α) ∈ nv2.connections) ∧
    (∀ u2 v2 : ℕ,
      (∀ w2 ∈ collectWays elems, wayHasPair w2.1 v2 u2 = false) →
      (∀ w2 ∈ collectWays elems, wayHasPair w2.1 u2 v2 = true →
        isOneWay w2.2 = true) →
      connectedTo (buildStreetGraph hav elems) v2 u2 = false) := by
  have hkeys0 := idKeys_collectNodes elems
  have hkeysW := idKeys_ways_fold hav (collectWays elems) _ hkeys0
  have hnuid : nu.id = u := hkeys0 _ (lookupA_mem_key _ _ _ hu)
  have hnvid : nv.id = v := hkeys0 _ (lookupA_mem_key _ _ _ hv)
  obtain ⟨hfwd, hrev⟩ := ways_fold_hits hav (collectWays elems)
    (collectNodes elems) w u v nu nv hw hpair hu hv
  refine ⟨?_, ?_, ?_⟩
  · obtain ⟨nu2, hl2, hc2⟩ := hfwd
    rw [hnvid] at hc2
    refine ⟨nu2, ?_, hkeysW _ (lookupA_mem_key _ _ _ hl2), hc2⟩
    exact mem_buildStreetGraph_of_lookup hav elems u nu2 hl2
      (List.length_pos.2 (List.ne_nil_of_mem hc2))
  · intro how
    obtain ⟨nv2, hl2, hc2⟩ := hrev how
    rw [hnuid] at hc2
    refine ⟨nv2, ?_, hkeysW _ (lookupA_mem_key _ _ _ hl2), hc2⟩
    exact mem_buildStreetGraph_of_lookup hav elems v nv2 hl2
      (List.length_pos.2 (List.ne_nil_of_mem hc2))
  · intro u2 v2 h1 h2
    exact connectedTo_built_false hav elems u2 v2 h1 h2

/-- C9, witness: a one-way way [1, 2]; the forward edge 1→2 is present
with the `hav` weight, no reverse edge exists, and the pair hypotheses
evaluate on the concrete OSM data. -/
theorem buildStreetGraph_edge_semantics_witness :
    (([1, 2], [("oneway", "yes")]) ∈ collectWays cw9elems) ∧
    wayHasPair [1, 2] 1 2 = true ∧
    lookupA (collectNodes cw9elems) 1
      = some (⟨1, 0, 0, [], none⟩ : GNode ℤ) ∧
    lookupA (collectNodes cw9elems) 2
      = some (⟨2, 1, 1, [], none⟩ : GNode ℤ) ∧
    ((∃ nu2, nu2 ∈ buildStreetGraph (fun _ _ => (7 : ℤ)) cw9elems ∧
      nu2.id = 1 ∧
      (⟨2, (fun _ _ => (7 : ℤ)) (GNode.pt ⟨1, 0, 0, [], none⟩)
        (GNode.pt ⟨2, 1, 1, [], none⟩)⟩ : Connection ℤ) ∈ nu2.connections) ∧
    (isOneWay [("oneway", "yes")] = false →
      ∃ nv2, nv2 ∈ buildStreetGraph (fun _ _ => (7 : ℤ)) cw9elems ∧
        nv2.id = 2 ∧
        (⟨1, (fun _ _ => (7 : ℤ)) (GNode.pt ⟨1, 0, 0, [], none⟩)
          (GNode.pt ⟨2, 1, 1, [], none⟩)⟩ : Connection ℤ) ∈ nv2.connections) ∧
    (∀ u2 v2 : ℕ,
      (∀ w2 ∈ collectWays cw9elems, wayHasPair w2.1 v2 u2 = false) →
      (∀ w2 ∈ collectWays cw9elems, wayHasPair w2.1 u2 v2 = true →
        isOneWay w2.2 = true) →
      connectedTo (buildStreetGraph (fun _ _ => (7 : ℤ)) cw9elems) v2 u2
        = false)) :=
  ⟨by decide, by decide, by decide, by decide,
    buildStreetGraph_edge_semantics (fun _ _ => (7 : ℤ)) cw9elems
      ([1, 2], [("oneway", "yes")]) 1 2 ⟨1, 0, 0, [], none⟩ ⟨2, 1, 1, [], none⟩
      (by decide) (by decide) (by decide) (by decide)⟩

/-- C10: a call of `getSeattleGraph` that started a fetch whose data
arrives missing or too small (fewer than 20 elements) leaves no cached
graph, so the next call starts the fetch again; a state holding a
cached graph returns it unchanged on every later call (no other event
can occur: no fetch is then in flight) until `clearCache`; and a
successful resolve caches exactly the built graph. -/
theorem graph_cache_retry_and_stability {α : Type} [LinearOrderedCommRing α]
    (hav : Point α → Point α → α) (s : CacheState α)
    (streetData : Option (List (OsmElement α))) (g : Graph α) (n : ℕ)
    (hstart : (getSeattleGraphStep s).1 = CallResult.startedFetch)
    (hbad : streetData = none ∨
      ∃ elems, streetData = some elems ∧ elems.length < 20) :
    ((getSeattleGraphStep
        (fetchResolves hav (getSeattleGraphStep s).2 streetData)).1
      = CallResult.startedFetch) ∧
    (∀ s2 : CacheState α, s2.cachedGraph = some g →
      (getSeattleGraphStep (cacheCalls s2 n)).1 = CallResult.cached g) ∧
    (∀ elems : List (OsmElement α), ¬ elems.length < 20 →
      (fetchResolves hav (getSeattleGraphStep s).2 (some elems)).cachedGraph
        = some (buildStreetGraph hav elems)) ∧
    ((clearCache : CacheState α).cachedGraph = none ∧
      (getSeattleGraphStep (clearCache : CacheState α)).1
        = CallResult.startedFetch) := by
  refine ⟨retry_after_failure hav s streetData hstart hbad, ?_, ?_, rfl, rfl⟩
  · intro s2 hs2
    rw [cacheCalls_cached s2 g hs2 n, getSeattleGraphStep_cached s2 g hs2]
  · intro elems hlen
    unfold fetchResolves
    dsimp only
    rw [if_neg hlen]

/-- C10, witness: a failed fetch from the empty cache state over `ℤ`,
retried, with the stability conjuncts at the cached state `some []`. -/
theorem graph_cache_retry_and_stability_witness :
    (getSeattleGraphStep (⟨none, false⟩ : CacheState ℤ)).1
      = CallResult.startedFetch ∧
    ((none : Option (List (OsmElement ℤ))) = none ∨
      ∃ elems, (none : Option (List (OsmElement ℤ))) = some elems ∧
        elems.length < 20) ∧
    (((getSeattleGraphStep
        (fetchResolves (fun _ _ => (0 : ℤ))
          (getSeattleGraphStep (⟨none, false⟩ : CacheState ℤ)).2 none)).1
      = CallResult.startedFetch) ∧
    (∀ s2 : CacheState ℤ, s2.cachedGraph = some [] →
      (getSeattleGraphStep (cacheCalls s2 3)).1 = CallResult.cached []) ∧
    (∀ elems : List (OsmElement ℤ), ¬ elems.length < 20 →
      (fetchResolves (fun _ _ => (0 : ℤ))
        (getSeattleGraphStep (⟨none, false⟩ : CacheState ℤ)).2
        (some elems)).cachedGraph
        = some (buildStreetGraph (fun _ _ => (0 : ℤ)) elems)) ∧
    ((clearCache : CacheState ℤ).cachedGraph = none ∧
      (getSeattleGraphStep (clearCache : CacheState ℤ)).1
        = CallResult.startedFetch)) :=
  ⟨by decide, Or.inl rfl,
    graph_cache_retry_and_stability (fun _ _ => (0 : ℤ))
      (⟨none, false⟩ : CacheState ℤ) none [] 3 (by decide) (Or.inl rfl)⟩
